import Mathlib

/-!
# Hotel booking engine (`src/main.cpp`): shallow embedding and verified properties

The C++ class `Hotel` keeps several indexes over the same set of bookings
(per-type availability, an explicit binary search tree of occupied rooms, a
guest index, a chronological history, an undo stack and a reservation ledger).
This file embeds the data and the operations as pure functions on an explicit
state record and proves properties of them.

Modelling conventions

* `double` amounts are exact rationals (`ℚ`); `int` values are `Int`.
* `std::stod` is modelled with its error reporting (`stodResult`): the two
  exceptions, a finite value, or an infinity or a NaN. An infinity or a NaN has
  no rational value; the functions reading a file treat a field read as one of
  them like a field that cannot be read.
* `std::string` is `String`; a text file is its content as a `String`, and a
  file that cannot be opened is `none`.
* `std::map` is the list of its entries in key order (`mapFind`, `mapSet`,
  `mapErase`); `std::unordered_map` is modelled the same way, since only
  lookups are ever observed.
* `std::vector` and `std::list` are `List`; `std::stack` is a `List` whose
  head is the top.
* Console output is not modelled, except that `reserveRoom` and
  `undoLastBooking` return which message branch was taken.
* The room adjacency graph (`roomGraph`, `bfsFromRoom`) is never touched by
  the booking operations and is left out of the state.
-/

namespace HotelSys

/-! ## Containers -/

section Containers

variable {K V : Type}

/-- `std::map::find`: the value stored under key `k`, if any. -/
def mapFind [LinearOrder K] (k : K) : List (K × V) → Option V
  | [] => none
  | (a, b) :: t => if a = k then some b else mapFind k t

/-- `m[k] = v` on a `std::map`: overwrite the entry of `k`, or insert a new
entry at its place in key order. -/
def mapSet [LinearOrder K] (k : K) (v : V) : List (K × V) → List (K × V)
  | [] => [(k, v)]
  | (a, b) :: t =>
    if a = k then (k, v) :: t
    else if k < a then (k, v) :: (a, b) :: t
    else (a, b) :: mapSet k v t

/-- `std::map::erase(key)`: drop the entry of `k`, if any. -/
def mapErase [LinearOrder K] (k : K) : List (K × V) → List (K × V)
  | [] => []
  | (a, b) :: t => if a = k then t else (a, b) :: mapErase k t

/-- The keys of a map, in iteration order. -/
def mapKeys (m : List (K × V)) : List K := m.map Prod.fst

/-- Backward scan `for (i = n - 1; i >= 0; --i) if (p i) ... break;`: the
largest index below `n` satisfying `p`. -/
def findLastIndex (p : Nat → Bool) : Nat → Option Nat
  | 0 => none
  | i + 1 => if p i then some i else findLastIndex p i

end Containers

/-! ## Text helpers -/

/-- Repeated `std::getline(stream, item, delim)` until it fails: the items
between delimiters; a final empty item (input ending in the delimiter, or empty
input) is not produced. -/
def splitOnChar (delim : Char) : List Char → List (List Char)
  | [] => []
  | c :: cs =>
    if c = delim then [] :: splitOnChar delim cs
    else
      match splitOnChar delim cs with
      | [] => [[c]]
      | item :: rest => (c :: item) :: rest

/-- `Hotel::split`. -/
def split (s : String) (delim : Char) : List String :=
  (splitOnChar delim s.data).map String.mk

/-- The lines `std::getline(inFile, line)` yields on a file with this content. -/
def fileLines (content : String) : List String :=
  split content '\n'

/-- `std::isspace` in the "C" locale. -/
def isSpace (c : Char) : Bool :=
  c = ' ' || c = '\t' || c = '\n' || c = '\x0b' || c = '\x0c' || c = '\r'

/-- Value of a run of decimal digits. -/
def digitsVal (ds : List Char) : Nat :=
  ds.foldl (fun n c => 10 * n + (c.toNat - 48)) 0

/-- Split an optional leading sign off: `true` for `-`. -/
def takeSign : List Char → Bool × List Char
  | [] => (false, [])
  | c :: r =>
    if c = '-' then (true, r)
    else if c = '+' then (false, r)
    else (false, c :: r)

/-- `std::stoi` (base 10): skip leading white space, read an optional sign and
the longest run of digits, ignore what follows. `none` stands for the exception
thrown when there is no digit (`std::invalid_argument`) or the value does not
fit a 32-bit `int` (`std::out_of_range`). -/
def stoi (s : String) : Option Int :=
  let (neg, cs) := takeSign (s.data.dropWhile isSpace)
  let ds := cs.takeWhile Char.isDigit
  if ds = [] then none
  else
    let v : Int := if neg then -(digitsVal ds : Int) else (digitsVal ds : Int)
    if -2147483648 ≤ v ∧ v ≤ 2147483647 then some v else none

/-- The optional exponent part `e[+-]ddd` of a decimal number; `0` when there
is none. -/
def stodExponent : List Char → Int
  | c :: r =>
    if c = 'e' ∨ c = 'E' then
      let (neg, r1) := takeSign r
      let ds := r1.takeWhile Char.isDigit
      if ds = [] then 0
      else if neg then -(digitsVal ds : Int) else (digitsVal ds : Int)
    else 0
  | [] => 0

/-- `std::isxdigit`. -/
def isHexDigit (c : Char) : Bool :=
  c.isDigit || ('a' ≤ c && c ≤ 'f') || ('A' ≤ c && c ≤ 'F')

/-- Value of a run of hexadecimal digits. -/
def hexVal (ds : List Char) : Nat :=
  ds.foldl
    (fun n c =>
      16 * n +
        (if c.isDigit then c.toNat - 48 else if 'a' ≤ c then c.toNat - 87 else c.toNat - 55))
    0

/-- The optional binary exponent part `p[+-]ddd` of a hexadecimal number; `0`
when there is none. -/
def stodBinaryExponent : List Char → Int
  | c :: r =>
    if c = 'p' ∨ c = 'P' then
      let (neg, r1) := takeSign r
      let ds := r1.takeWhile Char.isDigit
      if ds = [] then 0
      else if neg then -(digitsVal ds : Int) else (digitsVal ds : Int)
    else 0
  | [] => 0

/-- What a call of `std::stod` does: it throws `std::invalid_argument` (no
number can be read), throws `std::out_of_range` (`strtod` reports `ERANGE`),
returns a finite number, or returns an infinity or a NaN. -/
inductive StodResult where
  | invalidArgument : StodResult
  | outOfRange : StodResult
  | finite (value : ℚ) : StodResult
  | nonFinite : StodResult
  deriving DecidableEq

/-- The call throws an exception. -/
def StodResult.throws : StodResult → Bool
  | .invalidArgument => true
  | .outOfRange => true
  | .finite _ => false
  | .nonFinite => false

/-- The text, after white space and sign, starts with `inf` or `nan` in any
letter case: `strtod` reads an infinity or a NaN. -/
def readsNonFinite : List Char → Bool
  | a :: b :: c :: _ =>
    ((a = 'i' || a = 'I') && (b = 'n' || b = 'N') && (c = 'f' || c = 'F')) ||
      ((a = 'n' || a = 'N') && (b = 'a' || b = 'A') && (c = 'n' || c = 'N'))
  | _ => false

/-- The least magnitude that rounds to an infinity: `2 ^ 1024 - 2 ^ 970`, half
way between the largest `double` and `2 ^ 1024`. -/
def overflowThreshold : ℚ := ((2 ^ 1024 - 2 ^ 970 : Nat) : ℚ)

/-- The least positive normal `double`, `2 ^ (-1022)`. -/
def minNormalDouble : ℚ := 1 / ((2 ^ 1022 : Nat) : ℚ)

/-- The range check of `strtod` on the exact value `v` read from the text, as
glibc does it on x86-64: `ERANGE` (hence `std::out_of_range`) when `v` rounds to
an infinity, and when `v` is not zero, lies below the normal range even after
rounding (below `2 ^ (-1022) - 2 ^ (-1076)`) and is not a multiple of
`2 ^ (-1074)`, so that the subnormal result is inexact. Otherwise the result is
the `double` nearest to `v`, which the model identifies with `v`. -/
def doubleRange (v : ℚ) : StodResult :=
  if overflowThreshold ≤ |v| then .outOfRange
  else if v ≠ 0 ∧ |v| * ((2 ^ 1076 : Nat) : ℚ) < ((2 ^ 54 - 1 : Nat) : ℚ) ∧
      2 ^ 1074 % v.den ≠ 0 then .outOfRange
  else .finite v

/-- The magnitude of a hexadecimal floating constant `0x h.hhh p[+-]ddd` at the
start of the text, if there is one: digits in base 16, of which at least one,
and an optional binary exponent. -/
def stodHex : List Char → Option ℚ
  | '0' :: x :: r =>
    if x = 'x' ∨ x = 'X' then
      let ip := r.takeWhile isHexDigit
      let r1 := r.dropWhile isHexDigit
      let fp := match r1 with
        | '.' :: t => t.takeWhile isHexDigit
        | _ => []
      let r2 := match r1 with
        | '.' :: t => t.dropWhile isHexDigit
        | _ => r1
      if ip = [] ∧ fp = [] then none
      else
        some ((hexVal (ip ++ fp) : ℚ) / (16 : ℚ) ^ fp.length *
          (2 : ℚ) ^ stodBinaryExponent r2)
    else none
  | _ => none

/-- The magnitude of a decimal floating constant at the start of the text, if
there is one: digits, optional fraction, of which at least one digit, and an
optional decimal exponent. -/
def stodDecimal (cs : List Char) : Option ℚ :=
  let ip := cs.takeWhile Char.isDigit
  let r1 := cs.dropWhile Char.isDigit
  let fp := match r1 with
    | '.' :: r => r.takeWhile Char.isDigit
    | _ => []
  let r2 := match r1 with
    | '.' :: r => r.dropWhile Char.isDigit
    | _ => r1
  if ip = [] ∧ fp = [] then none
  else
    some ((digitsVal (ip ++ fp) : ℚ) / (10 : ℚ) ^ fp.length * (10 : ℚ) ^ stodExponent r2)

/-- `std::stod`, that is `strtod` with its error reporting turned into
exceptions: skip leading white space, read an optional sign, then `inf` or
`nan`, or a hexadecimal constant, or a decimal constant, and ignore what
follows; the value read is exact. -/
def stodResult (s : String) : StodResult :=
  let (neg, cs) := takeSign (s.data.dropWhile isSpace)
  if readsNonFinite cs then .nonFinite
  else
    match stodHex cs with
    | some v => doubleRange (if neg then -v else v)
    | none =>
      match stodDecimal cs with
      | some v => doubleRange (if neg then -v else v)
      | none => .invalidArgument

/-- The amount `std::stod` returns, when it returns a finite one. Amounts are
exact rationals here: the rounding of the value to `double` is not modelled.
`none` stands for an exception (`stodResult` tells which), and also for an
infinity or a NaN, which no rational amount models: the functions reading a
file treat such a field as one that cannot be read. -/
def stod (s : String) : Option ℚ :=
  match stodResult s with
  | .finite x => some x
  | _ => none

/-! ## Data model -/

/-- `Hotel::RoomType`. -/
structure RoomType where
  description : String
  totalRooms : Int
  availableRooms : Int
  pricePerNight : ℚ
  roomRange : String
  availableRoomNumbers : List Int
  guests : List (Int × String)
  allRoomNumbers : List Int
  deriving DecidableEq

/-- `Hotel::TreeNode`, with `null` for the null pointer. -/
inductive TreeNode where
  | null : TreeNode
  | node (roomNumber : Int) (left right : TreeNode) : TreeNode
  deriving DecidableEq

/-- `Hotel::Action`: an entry of the undo stack. -/
structure Action where
  guestName : String
  date : String
  roomNumber : Int
  nights : Int
  pricePerNight : ℚ
  totalCost : ℚ
  deriving DecidableEq

/-- `Hotel::Reservation`: an entry of the ledger. -/
structure Reservation where
  guestName : String
  roomNumber : Int
  roomType : String
  stayDate : String
  nights : Int
  checkInHour : Int
  pricePerNight : ℚ
  totalCost : ℚ
  deriving DecidableEq

/-- The mutable state of a `Hotel` object. -/
structure Hotel where
  name : String
  totalRooms : Int
  totalRevenue : ℚ
  people : List String
  roomsnums : List Int
  reservationsForDay : List Reservation
  reservations : List (String × List (Int × String))
  guestToRooms : List (String × List Int)
  guestHistory : List String
  occupiedRoomsRoot : TreeNode
  bookingHistory : List Action
  roomTypes : List (String × RoomType)
  deriving DecidableEq

/-! ## The tree of occupied rooms -/

/-- `Hotel::insertRoomInTree`. -/
def insertRoomInTree : TreeNode → Int → TreeNode
  | .null, roomNumber => .node roomNumber .null .null
  | .node k l r, roomNumber =>
    if roomNumber < k then .node k (insertRoomInTree l roomNumber) r
    else if roomNumber > k then .node k l (insertRoomInTree r roomNumber)
    else .node k l r

/-- `Hotel::findMinNode`: follow left links while there is one. -/
def findMinNode : TreeNode → TreeNode
  | .null => .null
  | .node k .null r => .node k .null r
  | .node _ (.node lk ll lr) _ => findMinNode (.node lk ll lr)

/-- `Hotel::removeRoomFromTree`. In the two-children case the successor is the
minimum of the right subtree, which is not null there; the `null` alternative
of the inner match (a null dereference in C++) cannot occur. -/
def removeRoomFromTree : TreeNode → Int → TreeNode
  | .null, _ => .null
  | .node k l r, roomNumber =>
    if roomNumber < k then .node k (removeRoomFromTree l roomNumber) r
    else if roomNumber > k then .node k l (removeRoomFromTree r roomNumber)
    else
      match l, r with
      | .null, _ => r
      | .node _ _ _, .null => l
      | .node _ _ _, .node _ _ _ =>
        match findMinNode r with
        | .node s _ _ => .node s l (removeRoomFromTree r s)
        | .null => .node k l r

/-- The sequence `Hotel::inorderPrint` writes. -/
def inorder : TreeNode → List Int
  | .null => []
  | .node k l r => inorder l ++ k :: inorder r

/-! ## Booking operations -/

/-- `Hotel::resetStateForNewDate`. -/
def resetStateForNewDate (h : Hotel) : Hotel :=
  { h with
    totalRevenue := 0
    people := []
    roomsnums := []
    reservationsForDay := []
    reservations := []
    guestHistory := []
    guestToRooms := []
    bookingHistory := []
    occupiedRoomsRoot := .null
    roomTypes := h.roomTypes.map fun p =>
      (p.1, { p.2 with
                availableRooms := p.2.totalRooms
                guests := []
                availableRoomNumbers := p.2.allRoomNumbers }) }

/-- The update `Hotel::bookRoom` applies to the room type that has the room
free: the guest is entered under the room number, the room leaves the free list
and the counter goes down. -/
def RoomType.occupy (rt : RoomType) (roomNumber : Int) (guestName : String) : RoomType :=
  { rt with
    guests := mapSet roomNumber guestName rt.guests
    availableRoomNumbers := rt.availableRoomNumbers.erase roomNumber
    availableRooms := rt.availableRooms - 1 }

/-- The loop of `Hotel::bookRoom` over `roomTypes`: the first type whose free
list holds the room takes the guest; `none` when no type has the room free. -/
def bookRoomTypes (guestName : String) (roomNumber : Int) :
    List (String × RoomType) → Option (List (String × RoomType))
  | [] => none
  | (key, rt) :: rest =>
    if roomNumber ∈ rt.availableRoomNumbers then
      some ((key, rt.occupy roomNumber guestName) :: rest)
    else
      (bookRoomTypes guestName roomNumber rest).map fun r => (key, rt) :: r

/-- `Hotel::bookRoom`: `none` is the `false` result, which leaves the state
untouched. -/
def bookRoom (h : Hotel) (guestName date : String) (roomNumber : Int) : Option Hotel :=
  match bookRoomTypes guestName roomNumber h.roomTypes with
  | none => none
  | some rts =>
    some { h with
      roomTypes := rts
      reservations :=
        mapSet date (mapSet roomNumber guestName ((mapFind date h.reservations).getD []))
          h.reservations
      people := h.people ++ [guestName]
      roomsnums := h.roomsnums ++ [roomNumber]
      guestToRooms :=
        mapSet guestName (((mapFind guestName h.guestToRooms).getD []) ++ [roomNumber])
          h.guestToRooms
      guestHistory := h.guestHistory ++ [guestName]
      occupiedRoomsRoot := insertRoomInTree h.occupiedRoomsRoot roomNumber }

/-- Which message `Hotel::reserveRoom` prints. -/
inductive ReserveOutcome where
  | invalidOption
  | noAvailableRooms
  | complete
  | failed
  deriving DecidableEq

/-- The price read through the reference `rt` (the entry at position `i` of
`roomTypes`) after `bookRoom` has run. -/
def priceAt (h : Hotel) (i : Nat) : ℚ :=
  match h.roomTypes.get? i with
  | some p => p.2.pricePerNight
  | none => 0

/-- `Hotel::reserveRoom`. The parameter `endDate` is unused, as in the source. -/
def reserveRoom (h : Hotel) (option : Int) (guestName startDate _endDate : String)
    (startTime durationDays : Int) : ReserveOutcome × Hotel :=
  if option < 1 ∨ option > (h.roomTypes.length : Int) then (.invalidOption, h)
  else
    match h.roomTypes.get? (option - 1).toNat with
    | none => (.invalidOption, h)
    | some (key, rt) =>
      match rt.availableRoomNumbers with
      | [] => (.noAvailableRooms, h)
      | roomNumber :: _ =>
        match bookRoom h guestName startDate roomNumber with
        | some h1 =>
          let price := priceAt h1 (option - 1).toNat
          let totalCost := price * (durationDays : ℚ)
          (.complete,
            { h1 with
              totalRevenue := h1.totalRevenue + totalCost
              bookingHistory :=
                { guestName := guestName, date := startDate, roomNumber := roomNumber,
                  nights := durationDays, pricePerNight := price,
                  totalCost := totalCost } :: h1.bookingHistory
              reservationsForDay := h1.reservationsForDay ++
                [{ guestName := guestName, roomNumber := roomNumber, roomType := key,
                   stayDate := startDate, nights := durationDays, checkInHour := startTime,
                   pricePerNight := price, totalCost := totalCost }] })
        | none => (.failed, h)

/-- The update `Hotel::undoLastBooking` applies to the room type owning the
room: the guest entry is erased, and the room goes to the back of the free list
(with the counter going up) unless it is already in the list. -/
def RoomType.release (rt : RoomType) (roomNumber : Int) : RoomType :=
  if roomNumber ∈ rt.availableRoomNumbers then
    { rt with guests := mapErase roomNumber rt.guests }
  else
    { rt with
      guests := mapErase roomNumber rt.guests
      availableRoomNumbers := rt.availableRoomNumbers ++ [roomNumber]
      availableRooms := rt.availableRooms + 1 }

/-- The search of `Hotel::undoLastBooking` for the type owning a room (the first
type whose `allRoomNumbers` holds it), with the release applied to that type.
`none` when no type owns the room. -/
def releaseRoomTypes (roomNumber : Int) :
    List (String × RoomType) → Option (List (String × RoomType))
  | [] => none
  | (key, rt) :: rest =>
    if roomNumber ∈ rt.allRoomNumbers then some ((key, rt.release roomNumber) :: rest)
    else (releaseRoomTypes roomNumber rest).map fun r => (key, rt) :: r

/-- `v.erase(v.begin() + i)` at the index found by a backward scan, or nothing
when the scan found no index. -/
def eraseFound {α : Type} (i : Option Nat) (l : List α) : List α :=
  match i with
  | some i => l.eraseIdx i
  | none => l

/-- Which message `Hotel::undoLastBooking` prints. -/
inductive UndoOutcome where
  | nothingToUndo
  | typeNotFound
  | undone
  deriving DecidableEq

/-- The index `undoLastBooking` erases from `reservationsForDay`: the last entry
whose guest, room and stay date are those of the undone action. -/
def lastMatchingReservation (last : Action) (ledger : List Reservation) : Option Nat :=
  findLastIndex
    (fun i =>
      match ledger.get? i with
      | some r =>
        r.guestName = last.guestName ∧ r.roomNumber = last.roomNumber ∧ r.stayDate = last.date
      | none => false)
    ledger.length

/-- The index `undoLastBooking` erases from `people` and `roomsnums`: the last
position holding the guest and the room of the undone action. -/
def lastMatchingPerson (last : Action) (people : List String) (roomsnums : List Int) :
    Option Nat :=
  findLastIndex
    (fun i => people.get? i = some last.guestName ∧ roomsnums.get? i = some last.roomNumber)
    people.length

/-- The part of `Hotel::undoLastBooking` after the owning room type has been
found: `last` is the popped action, `stack` the rest of the undo stack and `rts`
the room types with the room released. -/
def undoCommit (h : Hotel) (last : Action) (stack : List Action)
    (rts : List (String × RoomType)) : Hotel :=
  { h with
    bookingHistory := stack
    totalRevenue :=
      if h.totalRevenue - last.totalCost < 0 then 0 else h.totalRevenue - last.totalCost
    roomTypes := rts
    reservations :=
      match mapFind last.date h.reservations with
      | none => h.reservations
      | some byRoom =>
        if mapErase last.roomNumber byRoom = [] then mapErase last.date h.reservations
        else mapSet last.date (mapErase last.roomNumber byRoom) h.reservations
    people := eraseFound (lastMatchingPerson last h.people h.roomsnums) h.people
    roomsnums := eraseFound (lastMatchingPerson last h.people h.roomsnums) h.roomsnums
    reservationsForDay :=
      eraseFound (lastMatchingReservation last h.reservationsForDay) h.reservationsForDay
    guestHistory :=
      eraseFound
        (findLastIndex (fun i => h.guestHistory.get? i = some last.guestName)
          h.guestHistory.length)
        h.guestHistory
    guestToRooms :=
      match mapFind last.guestName h.guestToRooms with
      | none => h.guestToRooms
      | some vec =>
        if (vec.filter fun r => r ≠ last.roomNumber) = [] then
          mapErase last.guestName h.guestToRooms
        else mapSet last.guestName (vec.filter fun r => r ≠ last.roomNumber) h.guestToRooms
    occupiedRoomsRoot := removeRoomFromTree h.occupiedRoomsRoot last.roomNumber }

/-- `Hotel::undoLastBooking`. The action is popped before the room type is
looked up, so the `typeNotFound` branch drops it without reversing anything. -/
def undoLastBooking (h : Hotel) : UndoOutcome × Hotel :=
  match h.bookingHistory with
  | [] => (.nothingToUndo, h)
  | last :: stack =>
    match releaseRoomTypes last.roomNumber h.roomTypes with
    | none => (.typeNotFound, { h with bookingHistory := stack })
    | some rts => (.undone, undoCommit h last stack rts)

/-! ## Persistence -/

/-- `operator<<` on an `int`: decimal digits with a leading `-` when negative. -/
def showInt (n : Int) : String :=
  String.mk (if n < 0 then '-' :: Nat.toDigits 10 n.natAbs else Nat.toDigits 10 n.natAbs)

/-- Round a non-negative rational to the nearest natural number, ties to even. -/
def roundHalfEven (q : ℚ) : Nat :=
  let f := ⌊q⌋.toNat
  let r := q - (f : ℚ)
  if r < 1 / 2 then f
  else if 1 / 2 < r then f + 1
  else if f % 2 = 0 then f
  else f + 1

/-- Drop trailing `0` characters. -/
def stripZeros (l : List Char) : List Char :=
  (l.reverse.dropWhile fun c => c = '0').reverse

/-- The decimal exponent of a positive rational `a`: the integer `e` with
`10 ^ e ≤ a < 10 ^ (e + 1)`. For `a ≥ 1` it is the number of digits of the integer
part minus one; for `a < 1` it is minus the least `k` with `a * 10 ^ k ≥ 1`, which
is at most the number of digits of the denominator. -/
def decimalExponent (a : ℚ) : Int :=
  if 1 ≤ a then (((Nat.toDigits 10 ⌊a⌋.toNat).length - 1 : Nat) : Int)
  else
    -((((List.range ((Nat.toDigits 10 a.den).length + 1)).find?
      fun k => decide (1 ≤ a * (10 : ℚ) ^ k)).getD 0 : Nat) : Int)

/-- The `%g` layout of the six significant digits `ds` of a number whose decimal
exponent is `e`: scientific notation when `e < -4` or `e ≥ 6`, fixed notation
otherwise, trailing zeros of the fraction removed. -/
def layoutDigits (ds : List Char) (e : Int) : List Char :=
  if e < -4 ∨ 6 ≤ e then
    ds.take 1 ++ (if stripZeros (ds.drop 1) = [] then [] else '.' :: stripZeros (ds.drop 1)) ++
      ['e', if e < 0 then '-' else '+'] ++
      (if (Nat.toDigits 10 e.natAbs).length < 2 then '0' :: Nat.toDigits 10 e.natAbs
       else Nat.toDigits 10 e.natAbs)
  else if 0 ≤ e then
    ds.take (e.toNat + 1) ++
      (if stripZeros (ds.drop (e.toNat + 1)) = [] then []
       else '.' :: stripZeros (ds.drop (e.toNat + 1)))
  else
    '0' :: '.' :: stripZeros (List.replicate (-e - 1).toNat '0' ++ ds)

/-- `operator<<` on a `double` with the default stream settings (the `%g`
conversion with six significant digits), computed on the exact value: the value
is rounded to six significant digits, ties to even. -/
def showDouble (x : ℚ) : String :=
  if x = 0 then "0"
  else
    let a := |x|
    let e0 := decimalExponent a
    let d0 := roundHalfEven (a / (10 : ℚ) ^ (e0 - 5))
    let d := if d0 = 1000000 then 100000 else d0
    let e := if d0 = 1000000 then e0 + 1 else e0
    String.mk
      (if x < 0 then '-' :: layoutDigits (Nat.toDigits 10 d) e
       else layoutDigits (Nat.toDigits 10 d) e)

/-- The fixed header line written by `saveToFile`. -/
def headerLine : String :=
  "GuestName,RoomNumber,RoomType,StayDate,Nights,CheckInHour,PricePerNight,TotalCost"

/-- The eight comma-separated fields `saveToFile` writes for one reservation
(the line without its newline). -/
def recordText (r : Reservation) : String :=
  r.guestName ++ "," ++ showInt r.roomNumber ++ "," ++ r.roomType ++ "," ++ r.stayDate ++ ","
    ++ showInt r.nights ++ "," ++ showInt r.checkInHour ++ "," ++ showDouble r.pricePerNight
    ++ "," ++ showDouble r.totalCost

/-- `Hotel::saveToFile`: the content written to `<date>.txt`, or `none` when
there is nothing to save for the date (no file is written). The state is not
changed. Opening the file is assumed to succeed. -/
def saveToFile (h : Hotel) (date : String) : Option String :=
  let toSave := h.reservationsForDay.filter fun r => r.stayDate = date
  let dateRevenue := toSave.foldl (fun acc r => acc + r.totalCost) (0 : ℚ)
  if toSave = [] then none
  else
    some (toSave.foldl (fun out r => out ++ recordText r ++ "\n")
      ("TOTAL_REVENUE=" ++ showDouble dateRevenue ++ "\n" ++ headerLine ++ "\n"))

/-- The revenue read from the first line of a file by `loadFromFile`: the text
after `TOTAL_REVENUE=`, or after a leading `$`, or the whole line; `0` when
`std::stod` throws (and, by the convention on amounts, when it reads an infinity
or a NaN). -/
def parseRevenue (line : String) : ℚ :=
  if "TOTAL_REVENUE=".data.isPrefixOf line.data then
    (stod (String.mk (line.data.drop "TOTAL_REVENUE=".length))).getD 0
  else if line.data.head? = some '$' then (stod (String.mk (line.data.drop 1))).getD 0
  else (stod line).getD 0

/-- The test `loadFromFile` applies to the second line of a file to decide
whether it is the header. -/
def isHeaderLine (line : String) : Bool :=
  let header := split line ','
  header.length = 8 ∧ header.head? = some "GuestName"

/-- The reservation `loadFromFile` builds from one data line, or `none` when
the line is skipped (empty, fewer than two fields, or a number does not parse). -/
def parseRecord (date line : String) : Option Reservation :=
  if line = "" then none
  else
    match split line ',' with
    | f0 :: f1 :: f2 :: f3 :: f4 :: f5 :: f6 :: f7 :: _ =>
      match stoi f1, stoi f4, stoi f5, stod f6, stod f7 with
      | some roomNumber, some nights, some checkInHour, some pricePerNight, some totalCost =>
        some { guestName := f0, roomNumber := roomNumber, roomType := f2, stayDate := f3,
               nights := nights, checkInHour := checkInHour, pricePerNight := pricePerNight,
               totalCost := totalCost }
      | _, _, _, _, _ => none
    | guestName :: f1 :: _ =>
      match stoi f1 with
      | some roomNumber =>
        some { guestName := guestName, roomNumber := roomNumber, roomType := "",
               stayDate := date, nights := 1, checkInHour := 15, pricePerNight := 0,
               totalCost := 0 }
      | none => none
    | _ => none

/-- What `loadFromFile` does with one parsed reservation: it is appended to the
ledger, then `bookRoom` is tried on its room, and an undo action is pushed only
when that succeeded. -/
def restoreRecord (h : Hotel) (r : Reservation) : Hotel :=
  let h1 := { h with reservationsForDay := h.reservationsForDay ++ [r] }
  match bookRoom h1 r.guestName r.stayDate r.roomNumber with
  | none => h1
  | some h2 =>
    { h2 with
      bookingHistory :=
        { guestName := r.guestName, date := r.stayDate, roomNumber := r.roomNumber,
          nights := r.nights, pricePerNight := r.pricePerNight,
          totalCost := r.totalCost } :: h2.bookingHistory }

/-- One turn of the `while (std::getline(inFile, line))` loop of `loadFromFile`. -/
def restoreLine (date : String) (h : Hotel) (line : String) : Hotel :=
  match parseRecord date line with
  | some r => restoreRecord h r
  | none => h

/-- The data lines of a file after its first line: the second line is dropped
when it passes the header test, otherwise it is read again as data. -/
def dataLines : List String → List String
  | [] => []
  | second :: more => if isHeaderLine second then more else second :: more

/-- `Hotel::loadFromFile`, on the content of `<date>.txt` (`none`: the file
cannot be opened). -/
def loadFromFile (h : Hotel) (date : String) (file : Option String) : Hotel :=
  let h0 := resetStateForNewDate h
  match file with
  | none => h0
  | some content =>
    match fileLines content with
    | [] => h0
    | first :: rest =>
      (dataLines rest).foldl (restoreLine date) { h0 with totalRevenue := parseRevenue first }

/-! ## The seeded hotel -/

/-- The room numbers `for (int i = lo; i <= hi; ++i)` pushes. -/
def roomNumbersFromTo (lo hi : Int) : List Int :=
  (List.range (hi - lo + 1).toNat).map fun i => lo + (i : Int)

/-- A room type as `HiltonHotel::HiltonHotel` leaves it: every room free. -/
def seedRoomType (description : String) (totalRooms availableRooms : Int) (pricePerNight : ℚ)
    (roomRange : String) (rooms : List Int) : RoomType :=
  { description := description, totalRooms := totalRooms, availableRooms := availableRooms,
    pricePerNight := pricePerNight, roomRange := roomRange, availableRoomNumbers := rooms,
    guests := [], allRoomNumbers := rooms }

/-- `HiltonHotel::HiltonHotel`. -/
def HiltonHotel (totalRooms : Int) : Hotel :=
  { name := "Hilton"
    totalRooms := totalRooms
    totalRevenue := 0
    people := []
    roomsnums := []
    reservationsForDay := []
    reservations := []
    guestToRooms := []
    guestHistory := []
    occupiedRoomsRoot := .null
    bookingHistory := []
    roomTypes :=
      mapSet "Penthouse" (seedRoomType "Penthouse" 2 2 1135 "301 and 302" [301, 302])
        (mapSet "Deluxe Suite"
          (seedRoomType "Deluxe Suite" 15 15 350 "236 thru 250" (roomNumbersFromTo 236 250))
          (mapSet "Standard Room, Scenic"
            (seedRoomType "Standard Room, Scenic" 35 35 145 "201 thru 235"
              (roomNumbersFromTo 201 235))
            (mapSet "Standard Rooms, Courtyard"
              (seedRoomType "Standard Rooms, Courtyard" 70 70 125 "101 thru 170"
                (roomNumbersFromTo 101 170))
              []))) }

/-- The hotel object of `main`. -/
def hilton : Hotel := HiltonHotel 122

/-! ## Specification vocabulary -/

/-- The part of a room type that no operation changes, with its key. -/
structure RoomTypeInfo where
  key : String
  description : String
  totalRooms : Int
  pricePerNight : ℚ
  roomRange : String
  allRoomNumbers : List Int
  deriving DecidableEq

/-- The unchanging part of one entry of `roomTypes`. -/
def staticOf (p : String × RoomType) : RoomTypeInfo :=
  { key := p.1, description := p.2.description, totalRooms := p.2.totalRooms,
    pricePerNight := p.2.pricePerNight, roomRange := p.2.roomRange,
    allRoomNumbers := p.2.allRoomNumbers }

/-- The unchanging part of `roomTypes`. -/
def catalog (rts : List (String × RoomType)) : List RoomTypeInfo :=
  rts.map staticOf

/-- The catalog seeded by `HiltonHotel::HiltonHotel`. -/
def hiltonCatalog : List RoomTypeInfo :=
  catalog hilton.roomTypes

/-- All entries (room number, guest) of the `guests` maps of all room types. -/
def occupied (rts : List (String × RoomType)) : List (Int × String) :=
  rts.flatMap fun p => p.2.guests

/-- The occupied room numbers: the keys of all `guests` maps. -/
def occupiedRooms (rts : List (String × RoomType)) : List Int :=
  mapKeys (occupied rts)

/-- The rooms the undo stack records for a guest, oldest booking first. -/
def roomsOf (g : String) (stack : List Action) : List Int :=
  (stack.reverse.filter fun a => a.guestName = g).map fun a => a.roomNumber

/-- States reachable from a freshly constructed `HiltonHotel` by `reserveRoom`,
`undoLastBooking` and `loadFromFile` calls with arbitrary arguments and file
contents. -/
inductive Reachable : Hotel → Prop
  | init (totalRooms : Int) : Reachable (HiltonHotel totalRooms)
  | reserve {h : Hotel} (option : Int) (guestName startDate endDate : String)
      (startTime durationDays : Int) :
      Reachable h →
        Reachable (reserveRoom h option guestName startDate endDate startTime durationDays).2
  | undo {h : Hotel} : Reachable h → Reachable (undoLastBooking h).2
  | load {h : Hotel} (date : String) (file : Option String) :
      Reachable h → Reachable (loadFromFile h date file)

/-- Consistency of one room type: the free list and the keys of the guest map
together are a rearrangement of the type's rooms, the counter is the length of
the free list, and the guest map is in key order. -/
structure TypeWF (rt : RoomType) : Prop where
  perm : (rt.availableRoomNumbers ++ mapKeys rt.guests).Perm rt.allRoomNumbers
  count : rt.availableRooms = rt.availableRoomNumbers.length
  keys_sorted : (mapKeys rt.guests).Sorted (· < ·)

/-- The consistency of all indexes of a hotel state. -/
structure Inv (h : Hotel) : Prop where
  catalog_eq : catalog h.roomTypes = hiltonCatalog
  types_wf : ∀ p ∈ h.roomTypes, TypeWF p.2
  stack_perm :
    (h.bookingHistory.map fun a => (a.roomNumber, a.guestName)).Perm (occupied h.roomTypes)
  tree_sorted : (inorder h.occupiedRoomsRoot).Sorted (· < ·)
  tree_mem : ∀ r, r ∈ inorder h.occupiedRoomsRoot ↔ r ∈ occupiedRooms h.roomTypes
  people_eq : h.people = (h.bookingHistory.map fun a => a.guestName).reverse
  roomsnums_eq : h.roomsnums = (h.bookingHistory.map fun a => a.roomNumber).reverse
  history_eq : h.guestHistory = h.people
  guest_index : ∀ g, mapFind g h.guestToRooms =
    if roomsOf g h.bookingHistory = [] then none else some (roomsOf g h.bookingHistory)
  guest_sorted : (mapKeys h.guestToRooms).Sorted (· < ·)

/-- The state `reserveRoom` produces when it books room `room` of the type
`(key, rt)` standing between `pre` and `post` in `roomTypes`: the state written
out field by field. -/
def reservedState (h : Hotel) (pre post : List (String × RoomType)) (key : String)
    (rt : RoomType) (room : Int) (guestName startDate : String)
    (startTime durationDays : Int) : Hotel :=
  { h with
    roomTypes := pre ++ (key, rt.occupy room guestName) :: post
    reservations :=
      mapSet startDate (mapSet room guestName ((mapFind startDate h.reservations).getD []))
        h.reservations
    people := h.people ++ [guestName]
    roomsnums := h.roomsnums ++ [room]
    guestToRooms :=
      mapSet guestName (((mapFind guestName h.guestToRooms).getD []) ++ [room])
        h.guestToRooms
    guestHistory := h.guestHistory ++ [guestName]
    occupiedRoomsRoot := insertRoomInTree h.occupiedRoomsRoot room
    totalRevenue := h.totalRevenue + rt.pricePerNight * (durationDays : ℚ)
    bookingHistory :=
      { guestName := guestName, date := startDate, roomNumber := room,
        nights := durationDays, pricePerNight := rt.pricePerNight,
        totalCost := rt.pricePerNight * (durationDays : ℚ) } :: h.bookingHistory
    reservationsForDay := h.reservationsForDay ++
      [{ guestName := guestName, roomNumber := room, roomType := key,
         stayDate := startDate, nights := durationDays, checkInHour := startTime,
         pricePerNight := rt.pricePerNight,
         totalCost := rt.pricePerNight * (durationDays : ℚ) }] }

/-- Room `r` is free: some room type has it in its free list, and it is a key of
no `guests` map. -/
def isFree (h : Hotel) (r : Int) : Prop :=
  (∃ p ∈ h.roomTypes, r ∈ p.2.availableRoomNumbers) ∧ r ∉ occupiedRooms h.roomTypes

/-- Room `r` is occupied by guest `g`: some `guests` map sends `r` to `g`. -/
def occupiedBy (h : Hotel) (r : Int) (g : String) : Prop :=
  (r, g) ∈ occupied h.roomTypes

/-- Sample state: in the fresh hotel, Alice books a Deluxe Suite (option 1) for
two nights from 07-01-2025, check-in at 15. -/
def afterAlice : Hotel :=
  (reserveRoom hilton 1 "Alice" "07-01-2025" "07-01-2025" 15 2).2

/-- Sample state: after Alice, Bob books a Penthouse (option 2) for one night. -/
def afterAliceBob : Hotel :=
  (reserveRoom afterAlice 2 "Bob" "07-01-2025" "07-01-2025" 12 1).2

/-- Sample state: the fresh hotel after loading a file whose only line gives a
negative revenue. -/
def negativeRevenueState : Hotel :=
  loadFromFile hilton "07-01-2025" (some "TOTAL_REVENUE=-5")

/-- Sample state: Alice's booking undone again. -/
def afterAliceUndo : Hotel :=
  (undoLastBooking afterAlice).2

/-- Sample state: the fresh hotel after loading a file in the legacy format,
a `$` revenue line followed by one `guestName,roomNumber` line. -/
def legacyLoaded : Hotel :=
  loadFromFile hilton "07-01-2025" (some "$500\nAlice,236")

/-- The sum of `totalCost` over the ledger `reservationsForDay`. -/
def ledgerTotal (h : Hotel) : ℚ :=
  (h.reservationsForDay.map fun r => r.totalCost).sum

/-- The undo action that `reserveRoom` and `loadFromFile` push for a ledger
entry. -/
def actionOf (r : Reservation) : Action :=
  { guestName := r.guestName, date := r.stayDate, roomNumber := r.roomNumber,
    nights := r.nights, pricePerNight := r.pricePerNight, totalCost := r.totalCost }

/-- States reached without any `undoLastBooking` since the hotel was constructed
or a file was last loaded: `reserveRoom` calls after the construction or after a
`loadFromFile` issued in any reachable state. -/
inductive ReachableNoUndo : Hotel → Prop
  | init (totalRooms : Int) : ReachableNoUndo (HiltonHotel totalRooms)
  | reserve {h : Hotel} (option : Int) (guestName startDate endDate : String)
      (startTime durationDays : Int) :
      ReachableNoUndo h →
        ReachableNoUndo
          (reserveRoom h option guestName startDate endDate startTime durationDays).2
  | load {h : Hotel} (date : String) (file : Option String) :
      Reachable h → ReachableNoUndo (loadFromFile h date file)

/-- States reached by `reserveRoom` calls with a non-negative number of nights
and by `undoLastBooking` calls, starting from the constructed hotel or from a
`loadFromFile` (issued in any reachable state) that found no file or an empty
file. -/
inductive ReachableNoData : Hotel → Prop
  | init (totalRooms : Int) : ReachableNoData (HiltonHotel totalRooms)
  | reserve {h : Hotel} (option : Int) (guestName startDate endDate : String)
      (startTime durationDays : Int) :
      0 ≤ durationDays → ReachableNoData h →
        ReachableNoData
          (reserveRoom h option guestName startDate endDate startTime durationDays).2
  | undo {h : Hotel} : ReachableNoData h → ReachableNoData (undoLastBooking h).2
  | loadMissing {h : Hotel} (date : String) :
      Reachable h → ReachableNoData (loadFromFile h date none)
  | loadEmpty {h : Hotel} (date : String) :
      Reachable h → ReachableNoData (loadFromFile h date (some ""))

/-- In states without loaded data the ledger and the undo stack record the same
bookings in the same order, no cost is negative, and the revenue is the ledger
total. -/
structure LedgerExact (h : Hotel) : Prop where
  ledger_stack : h.reservationsForDay.map actionOf = h.bookingHistory.reverse
  cost_nonneg : ∀ r ∈ h.reservationsForDay, 0 ≤ r.totalCost
  revenue_eq : h.totalRevenue = ledgerTotal h

/-- Sample file: two records for the same room; the second cannot be restored. -/
def duplicateRoomFile : String :=
  "TOTAL_REVENUE=700\nGuestName,RoomNumber,RoomType,StayDate,Nights,CheckInHour,PricePerNight,TotalCost\nAlice,236,Deluxe Suite,07-01-2025,2,15,350,700\nBob,236,Deluxe Suite,07-01-2025,1,15,350,350"

/-- Sample file: `duplicateRoomFile` with its last line deleted. -/
def singleRecordFile : String :=
  "TOTAL_REVENUE=700\nGuestName,RoomNumber,RoomType,StayDate,Nights,CheckInHour,PricePerNight,TotalCost\nAlice,236,Deluxe Suite,07-01-2025,2,15,350,700"

/-- Sample file: the second record names a room that belongs to no room type. -/
def unknownRoomFile : String :=
  "TOTAL_REVENUE=700\nGuestName,RoomNumber,RoomType,StayDate,Nights,CheckInHour,PricePerNight,TotalCost\nAlice,236,Deluxe Suite,07-01-2025,2,15,350,700\nBob,999,Deluxe Suite,07-01-2025,1,15,350,350"

/-- The reservations `saveToFile` selects for a date. -/
def selectedFor (h : Hotel) (date : String) : List Reservation :=
  h.reservationsForDay.filter fun r => r.stayDate = date

/-- Sample state: Bob books a "Standard Room, Scenic" (option 3). -/
def afterScenic : Hotel :=
  (reserveRoom hilton 3 "Bob" "07-01-2025" "07-01-2025" 15 2).2

/-- Sample state: Alice books with a negative number of nights, Bob books one
night in the Penthouse, and Bob's booking is undone. -/
def negativeNightsUndone : Hotel :=
  (undoLastBooking
    (reserveRoom (reserveRoom hilton 1 "Alice" "07-01-2025" "07-01-2025" 15 (-1)).2
      2 "Bob" "07-01-2025" "07-01-2025" 12 1).2).2

/-- A tree of four occupied rooms, built by the insertions of four bookings;
its root 236 has two children. -/
def sampleTree : TreeNode :=
  [236, 101, 301, 250].foldl insertRoomInTree .null

/-- Sample state: both Penthouse rooms (option 2) are taken, by Alice and Bob. -/
def penthouseFull : Hotel :=
  (reserveRoom (reserveRoom hilton 2 "Alice" "07-01-2025" "07-01-2025" 15 1).2
    2 "Bob" "07-01-2025" "07-01-2025" 15 1).2

/-- Sample state: the fresh hotel after loading a file whose revenue line gives
100 while its only record costs 700. -/
def lowRevenueLoaded : Hotel :=
  loadFromFile hilton "07-01-2025"
    (some "TOTAL_REVENUE=100\nAlice,236,Deluxe Suite,07-01-2025,2,15,350,700")

/-- The state after `n` calls of `undoLastBooking` in a row. -/
def undoTimes : Nat → Hotel → Hotel
  | 0, h => h
  | n + 1, h => (undoLastBooking (undoTimes n h)).2

/-- The three fields by which `undoLastBooking` recognises the ledger entry of an
action: guest, room and stay date. -/
def Reservation.key (r : Reservation) : String × Int × String :=
  (r.guestName, r.roomNumber, r.stayDate)

/-- The same three fields of an undo action. -/
def Action.key (a : Action) : String × Int × String :=
  (a.guestName, a.roomNumber, a.date)

/-- The ledger has an entry for every stacked action, in the same order: the
keys of the undo stack, newest first, are a subsequence of the keys of the
ledger read backwards. -/
def LedgerCovers (h : Hotel) : Prop :=
  (h.bookingHistory.map Action.key).Sublist (h.reservationsForDay.reverse.map Reservation.key)

/-- Sample state: the fresh hotel after loading a file with two records of the
same guest, room and date; the second is not restored (the room is taken) but
is in the ledger. -/
def twiceAliceLoaded : Hotel :=
  loadFromFile hilton "07-01-2025"
    (some "TOTAL_REVENUE=700\nAlice,236,Deluxe Suite,07-01-2025,2,15,350,700\nAlice,236,Deluxe Suite,07-01-2025,5,15,350,1750")

/-- Sample state outside the reachable ones: `afterAlice` with room 236 entered
twice in the list `guestToRooms` keeps for Alice, around a room 237. -/
def repeatedRoomState : Hotel :=
  { afterAlice with guestToRooms := [("Alice", [236, 237, 236])] }

/-- Sample state: after her Deluxe Suite, Alice also books a Penthouse
(option 2) for one night. -/
def aliceTwoRooms : Hotel :=
  (reserveRoom afterAlice 2 "Alice" "07-01-2025" "07-01-2025" 12 1).2

/-- Sample file: the second line is a full record of a guest called
"GuestName", not the header line. -/
def headerLikeRecordFile : String :=
  "TOTAL_REVENUE=700\nGuestName,236,Deluxe Suite,07-01-2025,2,15,350,700"

/-- The room type `resetStateForNewDate` leaves for an entry of the catalog:
every room free, no guest. -/
def freshRoomType (a : RoomTypeInfo) : String × RoomType :=
  (a.key,
    { description := a.description, totalRooms := a.totalRooms,
      availableRooms := a.totalRooms, pricePerNight := a.pricePerNight,
      roomRange := a.roomRange, availableRoomNumbers := a.allRoomNumbers, guests := [],
      allRoomNumbers := a.allRoomNumbers })

/-- The text of a decimal numeral: an optional minus sign, the digits `ip` of the
integer part and, when `fp` is not empty, a point and the digits `fp` of the
fraction. -/
def decimalText (neg : Bool) (ip fp : List Char) : String :=
  String.mk ((if neg then ['-'] else []) ++ ip ++ (if fp = [] then [] else '.' :: fp))

/-- The value of the decimal numeral `decimalText neg ip fp`. -/
def decimalValue (neg : Bool) (ip fp : List Char) : ℚ :=
  if neg then -((digitsVal (ip ++ fp) : ℚ) / (10 : ℚ) ^ fp.length)
  else (digitsVal (ip ++ fp) : ℚ) / (10 : ℚ) ^ fp.length

/-- The digits of the decimal numeral made of a 1 followed by 400 zeros. -/
def hugeDigits : List Char :=
  '1' :: List.replicate 400 '0'

/-- The fraction digits of the decimal numeral `0.00...01` with 400 zeros before
the 1. -/
def tinyFraction : List Char :=
  List.replicate 400 '0' ++ ['1']

/-! ## Facts about the containers -/

section ContainerFacts

variable {K V : Type}

theorem mapFind_eq_none_iff [LinearOrder K] (k : K) (m : List (K × V)) :
    mapFind k m = none ↔ k ∉ mapKeys m := by
  induction m with
  | nil => simp [mapFind, mapKeys]
  | cons p t ih =>
    obtain ⟨a, b⟩ := p
    by_cases hak : a = k
    · simp [mapFind, mapKeys, hak]
    · have hka : ¬ k = a := fun e => hak e.symm
      simpa [mapFind, mapKeys, hak, hka] using ih

theorem mapFind_some_mem [LinearOrder K] {k : K} {v : V} {m : List (K × V)}
    (h : mapFind k m = some v) : (k, v) ∈ m := by
  induction m with
  | nil => simp [mapFind] at h
  | cons p t ih =>
    obtain ⟨a, b⟩ := p
    by_cases hak : a = k
    · simp [mapFind, hak] at h
      simp [hak, h]
    · simp [mapFind, hak] at h
      exact List.mem_cons_of_mem _ (ih h)

theorem mapFind_of_mem [LinearOrder K] {k : K} {v : V} {m : List (K × V)}
    (hn : (mapKeys m).Nodup) (h : (k, v) ∈ m) : mapFind k m = some v := by
  induction m with
  | nil => simp at h
  | cons p t ih =>
    obtain ⟨a, b⟩ := p
    simp only [mapKeys, List.map_cons, List.nodup_cons] at hn
    rcases List.mem_cons.1 h with e | e
    · cases e
      simp [mapFind]
    · have hk : k ∈ t.map Prod.fst := List.mem_map.2 ⟨(k, v), e, rfl⟩
      have hak : a ≠ k := fun e' => hn.1 (e' ▸ hk)
      simp only [mapFind, hak, if_false]
      exact ih hn.2 e

theorem mem_mapKeys_of_mem {k : K} {v : V} {m : List (K × V)} (h : (k, v) ∈ m) :
    k ∈ mapKeys m :=
  List.mem_map.2 ⟨(k, v), h, rfl⟩

theorem mapFind_mapSet_self [LinearOrder K] (k : K) (v : V) (m : List (K × V)) :
    mapFind k (mapSet k v m) = some v := by
  induction m with
  | nil => simp [mapSet, mapFind]
  | cons p t ih =>
    obtain ⟨a, b⟩ := p
    by_cases hak : a = k
    · simp [mapSet, mapFind, hak]
    · by_cases hlt : k < a
      · simp [mapSet, mapFind, hak, hlt]
      · simp [mapSet, mapFind, hak, hlt, ih]

theorem mapFind_mapSet_ne [LinearOrder K] {k k' : K} (hne : k' ≠ k) (v : V)
    (m : List (K × V)) : mapFind k' (mapSet k v m) = mapFind k' m := by
  have hne' : ¬ k = k' := fun e => hne e.symm
  induction m with
  | nil => simp [mapSet, mapFind, hne']
  | cons p t ih =>
    obtain ⟨a, b⟩ := p
    by_cases hak : a = k
    · subst hak
      simp [mapSet, mapFind, hne']
    · by_cases hlt : k < a
      · simp [mapSet, mapFind, hak, hlt, hne']
      · simp [mapSet, mapFind, hak, hlt, ih]

theorem mapSet_perm [LinearOrder K] {k : K} (v : V) {m : List (K × V)}
    (h : k ∉ mapKeys m) : (mapSet k v m).Perm ((k, v) :: m) := by
  induction m with
  | nil => simp [mapSet]
  | cons p t ih =>
    obtain ⟨a, b⟩ := p
    simp only [mapKeys, List.map_cons, List.mem_cons, not_or] at h
    have hak : ¬ a = k := fun e => h.1 e.symm
    by_cases hlt : k < a
    · simp [mapSet, hak, hlt]
    · simp only [mapSet, hak, hlt, if_false]
      exact ((ih h.2).cons (a, b)).trans (List.Perm.swap _ _ _)

theorem mem_mapKeys_mapSet [LinearOrder K] {k x : K} {v : V} {m : List (K × V)}
    (h : x ∈ mapKeys (mapSet k v m)) : x = k ∨ x ∈ mapKeys m := by
  induction m with
  | nil => simpa [mapSet, mapKeys] using h
  | cons p t ih =>
    obtain ⟨a, b⟩ := p
    by_cases hak : a = k
    · simp only [mapSet, hak, if_true, mapKeys, List.map_cons, List.mem_cons] at h ⊢
      rcases h with e | e
      · exact Or.inl e
      · exact Or.inr (Or.inr e)
    · by_cases hlt : k < a
      · simp only [mapSet, hak, hlt, if_true, if_false, mapKeys, List.map_cons,
          List.mem_cons] at h ⊢
        exact h
      · simp only [mapSet, hak, hlt, if_false, mapKeys, List.map_cons, List.mem_cons] at h ⊢
        rcases h with e | e
        · exact Or.inr (Or.inl e)
        · rcases ih e with e' | e'
          · exact Or.inl e'
          · exact Or.inr (Or.inr e')

theorem mapKeys_mapSet_sorted [LinearOrder K] (k : K) (v : V) {m : List (K × V)}
    (h : (mapKeys m).Sorted (· < ·)) : (mapKeys (mapSet k v m)).Sorted (· < ·) := by
  induction m with
  | nil => simp [mapSet, mapKeys]
  | cons p t ih =>
    obtain ⟨a, b⟩ := p
    have h' := h
    simp only [mapKeys, List.map_cons, List.sorted_cons] at h'
    by_cases hak : a = k
    · subst hak
      simpa [mapSet, mapKeys] using h
    · by_cases hlt : k < a
      · simp only [mapSet, hak, hlt, if_true, if_false, mapKeys, List.map_cons]
        refine List.sorted_cons.2 ⟨?_, h⟩
        intro x hx
        rcases List.mem_cons.1 hx with e | e
        · exact e ▸ hlt
        · exact lt_trans hlt (h'.1 x e)
      · simp only [mapSet, hak, hlt, if_false, mapKeys, List.map_cons]
        refine List.sorted_cons.2 ⟨?_, ih h'.2⟩
        intro x hx
        rcases mem_mapKeys_mapSet hx with e | e
        · rw [e]
          exact lt_of_le_of_ne (not_lt.1 hlt) hak
        · exact h'.1 x e

theorem mapKeys_mapErase [LinearOrder K] (k : K) (m : List (K × V)) :
    mapKeys (mapErase k m) = (mapKeys m).erase k := by
  induction m with
  | nil => simp [mapErase, mapKeys]
  | cons p t ih =>
    obtain ⟨a, b⟩ := p
    by_cases hak : a = k
    · simp [mapErase, mapKeys, hak]
    · simp only [mapKeys] at ih
      simp [mapErase, mapKeys, hak, List.erase_cons_tail, ih]

theorem mapErase_sublist [LinearOrder K] (k : K) (m : List (K × V)) :
    (mapErase k m).Sublist m := by
  induction m with
  | nil => simp [mapErase]
  | cons p t ih =>
    obtain ⟨a, b⟩ := p
    by_cases hak : a = k
    · simp [mapErase, hak]
    · simp only [mapErase, hak, if_false]
      exact ih.cons₂ _

theorem mapKeys_mapErase_sorted [LinearOrder K] (k : K) {m : List (K × V)}
    (h : (mapKeys m).Sorted (· < ·)) : (mapKeys (mapErase k m)).Sorted (· < ·) :=
  List.Pairwise.sublist ((mapErase_sublist k m).map Prod.fst) h

theorem mapErase_perm [LinearOrder K] {k : K} {v : V} {m : List (K × V)}
    (h : mapFind k m = some v) : m.Perm ((k, v) :: mapErase k m) := by
  induction m with
  | nil => simp [mapFind] at h
  | cons p t ih =>
    obtain ⟨a, b⟩ := p
    by_cases hak : a = k
    · simp [mapFind, hak] at h
      simp [mapErase, hak, h]
    · simp only [mapFind, hak, if_false] at h
      simp only [mapErase, hak, if_false]
      exact ((ih h).cons (a, b)).trans (List.Perm.swap _ _ _)

theorem mapFind_mapErase_ne [LinearOrder K] {k k' : K} (hne : k' ≠ k) (m : List (K × V)) :
    mapFind k' (mapErase k m) = mapFind k' m := by
  induction m with
  | nil => simp [mapErase]
  | cons p t ih =>
    obtain ⟨a, b⟩ := p
    by_cases hak : a = k
    · subst hak
      have : ¬ a = k' := fun e => hne e.symm
      simp [mapErase, mapFind, this]
    · simp [mapErase, mapFind, hak, ih]

theorem mapFind_mapErase_self [LinearOrder K] (k : K) {m : List (K × V)}
    (hn : (mapKeys m).Nodup) : mapFind k (mapErase k m) = none := by
  rw [mapFind_eq_none_iff, mapKeys_mapErase]
  exact fun hmem => (List.Nodup.mem_erase_iff hn).1 hmem |>.1 rfl

theorem mapErase_mapSet [LinearOrder K] {k : K} (v : V) {m : List (K × V)}
    (h : k ∉ mapKeys m) : mapErase k (mapSet k v m) = m := by
  induction m with
  | nil => simp [mapSet, mapErase]
  | cons p t ih =>
    obtain ⟨a, b⟩ := p
    simp only [mapKeys, List.map_cons, List.mem_cons, not_or] at h
    have hak : ¬ a = k := fun e => h.1 e.symm
    by_cases hlt : k < a
    · simp [mapSet, mapErase, hak, hlt]
    · simp only [mapSet, hak, hlt, if_false, mapErase]
      rw [ih h.2]

theorem mapSet_mapSet [LinearOrder K] (k : K) (v v' : V) (m : List (K × V)) :
    mapSet k v' (mapSet k v m) = mapSet k v' m := by
  induction m with
  | nil => simp [mapSet]
  | cons p t ih =>
    obtain ⟨a, b⟩ := p
    by_cases hak : a = k
    · simp [mapSet, hak]
    · by_cases hlt : k < a
      · simp [mapSet, hak, hlt]
      · simp [mapSet, hak, hlt, ih]

theorem mapSet_of_find [LinearOrder K] {k : K} {v : V} {m : List (K × V)}
    (hs : (mapKeys m).Sorted (· < ·)) (h : mapFind k m = some v) : mapSet k v m = m := by
  induction m with
  | nil => simp [mapFind] at h
  | cons p t ih =>
    obtain ⟨a, b⟩ := p
    simp only [mapKeys, List.map_cons, List.sorted_cons] at hs
    by_cases hak : a = k
    · simp [mapFind, hak] at h
      simp [mapSet, hak, h]
    · simp only [mapFind, hak, if_false] at h
      have hk : k ∈ t.map Prod.fst := mem_mapKeys_of_mem (mapFind_some_mem h)
      have hlt : ¬ k < a := not_lt.2 (le_of_lt (hs.1 k hk))
      simp only [mapSet, hak, hlt, if_false]
      rw [ih hs.2 h]

theorem findLastIndex_succ_of_true {p : Nat → Bool} {n : Nat} (h : p n = true) :
    findLastIndex p (n + 1) = some n := by
  simp [findLastIndex, h]

theorem eraseIdx_length_concat {α : Type} (l : List α) (x : α) :
    (l ++ [x]).eraseIdx l.length = l := by
  rw [List.eraseIdx_append_of_length_le (le_refl _)]
  simp

theorem get?_length_concat {α : Type} (l : List α) (x : α) :
    (l ++ [x]).get? l.length = some x := by
  simp

end ContainerFacts

/-! ## Facts about the tree of occupied rooms -/

theorem sorted_node {k : Int} {l r : TreeNode}
    (hs : (inorder (.node k l r)).Sorted (· < ·)) :
    (inorder l).Sorted (· < ·) ∧ (inorder r).Sorted (· < ·) ∧
      (∀ a ∈ inorder l, a < k) ∧ (∀ b ∈ inorder r, k < b) := by
  simp only [inorder, List.Sorted, List.pairwise_append, List.pairwise_cons] at hs
  obtain ⟨hl, ⟨hkr, hr⟩, hlr⟩ := hs
  exact ⟨hl, hr, fun a ha => hlr a ha k (List.mem_cons_self _ _), hkr⟩

theorem filter_lt_of_all_lt {l : List Int} {k : Int} (h : ∀ a ∈ l, a < k) :
    l.filter (fun a => decide (a < k)) = l :=
  List.filter_eq_self.2 fun a ha => by simpa using h a ha

theorem filter_lt_of_all_ge {l : List Int} {k : Int} (h : ∀ a ∈ l, k ≤ a) :
    l.filter (fun a => decide (a < k)) = [] :=
  List.filter_eq_nil_iff.2 fun a ha => by simpa using h a ha

theorem filter_gt_of_all_gt {l : List Int} {k : Int} (h : ∀ a ∈ l, k < a) :
    l.filter (fun a => decide (k < a)) = l :=
  List.filter_eq_self.2 fun a ha => by simpa using h a ha

theorem filter_gt_of_all_le {l : List Int} {k : Int} (h : ∀ a ∈ l, a ≤ k) :
    l.filter (fun a => decide (k < a)) = [] :=
  List.filter_eq_nil_iff.2 fun a ha => by simpa using h a ha

theorem filter_ne_of_all_ne {l : List Int} {k : Int} (h : ∀ a ∈ l, a ≠ k) :
    l.filter (fun a => decide (a ≠ k)) = l :=
  List.filter_eq_self.2 fun a ha => by simpa using h a ha

/-- In-order traversal after `insertRoomInTree` on a search tree: the keys below
the new one, the new key, the keys above it. -/
theorem inorder_insertRoomInTree (t : TreeNode) (k : Int)
    (hs : (inorder t).Sorted (· < ·)) :
    inorder (insertRoomInTree t k) =
      (inorder t).filter (fun a => decide (a < k)) ++
        k :: (inorder t).filter (fun a => decide (k < a)) := by
  induction t with
  | null => simp [insertRoomInTree, inorder]
  | node x l r ihl ihr =>
    obtain ⟨hl, hr, hlx, hxr⟩ := sorted_node hs
    by_cases h1 : k < x
    · have e1 : (x :: inorder r).filter (fun a => decide (a < k)) = [] :=
        filter_lt_of_all_ge fun a ha => by
          rcases List.mem_cons.1 ha with e | e
          · omega
          · have := hxr a e
            omega
      have e2 : (x :: inorder r).filter (fun a => decide (k < a)) = x :: inorder r :=
        filter_gt_of_all_gt fun a ha => by
          rcases List.mem_cons.1 ha with e | e
          · omega
          · have := hxr a e
            omega
      simp only [insertRoomInTree, h1, if_true, inorder, ihl hl, List.filter_append, e1, e2]
      simp
    · by_cases h2 : k > x
      · have e1 : (inorder l).filter (fun a => decide (a < k)) = inorder l :=
          filter_lt_of_all_lt fun a ha => by
            have := hlx a ha
            omega
        have e2 : (inorder l).filter (fun a => decide (k < a)) = [] :=
          filter_gt_of_all_le fun a ha => by
            have := hlx a ha
            omega
        have e3 : decide (x < k) = true := by simpa using h2
        have e4 : decide (k < x) = false := by simpa using h1
        simp only [insertRoomInTree, h1, h2, if_true, if_false, inorder, ihr hr,
          List.filter_append, List.filter_cons, e1, e2, e3, e4]
        simp
      · have hk : k = x := by omega
        subst hk
        have e1 : (inorder l).filter (fun a => decide (a < k)) = inorder l :=
          filter_lt_of_all_lt hlx
        have e2 : (inorder l).filter (fun a => decide (k < a)) = [] :=
          filter_gt_of_all_le fun a ha => le_of_lt (hlx a ha)
        have e3 : (inorder r).filter (fun a => decide (a < k)) = [] :=
          filter_lt_of_all_ge fun a ha => le_of_lt (hxr a ha)
        have e4 : (inorder r).filter (fun a => decide (k < a)) = inorder r :=
          filter_gt_of_all_gt hxr
        simp only [insertRoomInTree, h1, if_false, inorder, List.filter_append,
          List.filter_cons, e1, e2, e3, e4]
        simp

theorem mem_inorder_insertRoomInTree {t : TreeNode} {k : Int}
    (hs : (inorder t).Sorted (· < ·)) (x : Int) :
    x ∈ inorder (insertRoomInTree t k) ↔ x = k ∨ x ∈ inorder t := by
  rw [inorder_insertRoomInTree t k hs]
  simp only [List.mem_append, List.mem_cons, List.mem_filter, decide_eq_true_eq]
  constructor
  · rintro (⟨h, _⟩ | h | ⟨h, _⟩)
    · exact Or.inr h
    · exact Or.inl h
    · exact Or.inr h
  · rintro (h | h)
    · exact Or.inr (Or.inl h)
    · rcases lt_trichotomy x k with c | c | c
      · exact Or.inl ⟨h, c⟩
      · exact Or.inr (Or.inl c)
      · exact Or.inr (Or.inr ⟨h, c⟩)

theorem sorted_inorder_insertRoomInTree {t : TreeNode} (k : Int)
    (hs : (inorder t).Sorted (· < ·)) :
    (inorder (insertRoomInTree t k)).Sorted (· < ·) := by
  rw [inorder_insertRoomInTree t k hs]
  simp only [List.Sorted, List.pairwise_append, List.pairwise_cons]
  refine ⟨List.Pairwise.filter _ hs, ⟨?_, List.Pairwise.filter _ hs⟩, ?_⟩
  · intro a ha
    simpa using (List.mem_filter.1 ha).2
  · intro a ha b hb
    have h1 : a < k := by simpa using (List.mem_filter.1 ha).2
    rcases List.mem_cons.1 hb with e | e
    · omega
    · have h2 : k < b := by simpa using (List.mem_filter.1 e).2
      omega

/-- Removing a key that was just inserted, and was not in the tree before,
gives back the very same tree. -/
theorem removeRoomFromTree_insertRoomInTree (t : TreeNode) (k : Int)
    (h : k ∉ inorder t) : removeRoomFromTree (insertRoomInTree t k) k = t := by
  induction t with
  | null => simp [insertRoomInTree, removeRoomFromTree]
  | node x l r ihl ihr =>
    simp only [inorder, List.mem_append, List.mem_cons, not_or] at h
    obtain ⟨hl, hx, hr⟩ := h
    by_cases h1 : k < x
    · simp [insertRoomInTree, removeRoomFromTree, h1, ihl hl]
    · have h2 : k > x := by omega
      simp [insertRoomInTree, removeRoomFromTree, h1, h2, ihr hr]

theorem findMinNode_node (k : Int) (l r : TreeNode) :
    ∃ s b rest, findMinNode (.node k l r) = .node s .null b ∧
      inorder (.node k l r) = s :: rest := by
  induction l generalizing k r with
  | null => exact ⟨k, r, inorder r, by simp [findMinNode], by simp [inorder]⟩
  | node lk ll lr ihl _ =>
    obtain ⟨s, b, rest, h1, h2⟩ := ihl lk lr
    refine ⟨s, b, rest ++ k :: inorder r, ?_, ?_⟩
    · simpa [findMinNode] using h1
    · simp only [inorder] at h2 ⊢
      rw [h2]
      simp

theorem removeRoomFromTree_two_children (k lk rk : Int) (ll lr rl rr : TreeNode) :
    removeRoomFromTree (.node k (.node lk ll lr) (.node rk rl rr)) k =
      match findMinNode (.node rk rl rr) with
      | .node s _ _ =>
        .node s (.node lk ll lr) (removeRoomFromTree (.node rk rl rr) s)
      | .null => .node k (.node lk ll lr) (.node rk rl rr) := by
  rw [removeRoomFromTree]
  simp only [lt_irrefl, gt_iff_lt, if_false]

/-- In-order traversal after `removeRoomFromTree` on a search tree: the key is
gone and nothing else changes. -/
theorem inorder_removeRoomFromTree (t : TreeNode) (k : Int)
    (hs : (inorder t).Sorted (· < ·)) :
    inorder (removeRoomFromTree t k) = (inorder t).filter (fun a => decide (a ≠ k)) := by
  induction t generalizing k with
  | null => simp [removeRoomFromTree, inorder]
  | node x l r ihl ihr =>
    obtain ⟨hl, hr, hlx, hxr⟩ := sorted_node hs
    by_cases h1 : k < x
    · have e1 : (x :: inorder r).filter (fun a => decide (a ≠ k)) = x :: inorder r :=
        filter_ne_of_all_ne fun a ha => by
          rcases List.mem_cons.1 ha with e | e
          · omega
          · have := hxr a e
            omega
      simp only [removeRoomFromTree, h1, if_true, inorder, ihl k hl, List.filter_append, e1]
    · by_cases h2 : k > x
      · have e1 : (inorder l).filter (fun a => decide (a ≠ k)) = inorder l :=
          filter_ne_of_all_ne fun a ha => by
            have := hlx a ha
            omega
        have e3 : decide (x ≠ k) = true := by
          simp only [ne_eq, decide_eq_true_eq]
          omega
        simp only [removeRoomFromTree, h1, h2, if_true, if_false, inorder, ihr k hr,
          List.filter_append, List.filter_cons, e1, e3]
      · have hk : k = x := by omega
        subst hk
        have e1 : (inorder l).filter (fun a => decide (a ≠ k)) = inorder l :=
          filter_ne_of_all_ne fun a ha => ne_of_lt (hlx a ha)
        have e2 : (inorder r).filter (fun a => decide (a ≠ k)) = inorder r :=
          filter_ne_of_all_ne fun a ha => ne_of_gt (hxr a ha)
        have e3 : decide (k ≠ k) = false := by simp
        have rhs : (inorder (.node k l r)).filter (fun a => decide (a ≠ k)) =
            inorder l ++ inorder r := by
          simp only [inorder, List.filter_append, List.filter_cons, e1, e2, e3]
          simp
        rw [rhs]
        cases l with
        | null => simp [removeRoomFromTree, inorder]
        | node lk ll lr =>
          cases r with
          | null => simp [removeRoomFromTree, inorder]
          | node rk rl rr =>
            obtain ⟨s, b, rest, hm, hin⟩ := findMinNode_node rk rl rr
            have hrest : ∀ a ∈ rest, a ≠ s := by
              have hs' := hr
              rw [hin] at hs'
              intro a ha
              exact ne_of_gt ((List.sorted_cons.1 hs').1 a ha)
            have e4 : decide (s ≠ s) = false := by simp
            rw [removeRoomFromTree_two_children, hm]
            have := ihr s hr
            rw [hin, List.filter_cons, e4] at this
            simp only [Bool.false_eq_true, if_false] at this
            rw [filter_ne_of_all_ne hrest] at this
            show inorder (.node lk ll lr) ++ s :: inorder (removeRoomFromTree (.node rk rl rr) s)
              = inorder (.node lk ll lr) ++ inorder (.node rk rl rr)
            rw [this, hin]

theorem mem_inorder_removeRoomFromTree {t : TreeNode} {k : Int}
    (hs : (inorder t).Sorted (· < ·)) (x : Int) :
    x ∈ inorder (removeRoomFromTree t k) ↔ x ∈ inorder t ∧ x ≠ k := by
  rw [inorder_removeRoomFromTree t k hs]
  simp [List.mem_filter]

theorem sorted_inorder_removeRoomFromTree {t : TreeNode} (k : Int)
    (hs : (inorder t).Sorted (· < ·)) :
    (inorder (removeRoomFromTree t k)).Sorted (· < ·) := by
  rw [inorder_removeRoomFromTree t k hs]
  exact List.Pairwise.filter _ hs

/-! ## Facts about the catalog -/

theorem hiltonCatalog_disjoint :
    hiltonCatalog.Pairwise fun a b => ∀ r ∈ a.allRoomNumbers, r ∉ b.allRoomNumbers := by
  decide!

theorem hiltonCatalog_sorted : ∀ a ∈ hiltonCatalog, a.allRoomNumbers.Sorted (· < ·) := by
  decide!

theorem hiltonCatalog_total :
    ∀ a ∈ hiltonCatalog, a.totalRooms = (a.allRoomNumbers.length : Int) := by
  decide!

theorem hiltonCatalog_price : ∀ a ∈ hiltonCatalog, 0 ≤ a.pricePerNight := by
  decide!

theorem hiltonCatalog_keys :
    hiltonCatalog.map (fun a => a.key) =
      ["Deluxe Suite", "Penthouse", "Standard Room, Scenic", "Standard Rooms, Courtyard"] := by
  decide!

theorem catalog_HiltonHotel (n : Int) : catalog (HiltonHotel n).roomTypes = hiltonCatalog :=
  rfl

theorem catalog_disjoint {rts : List (String × RoomType)} (hc : catalog rts = hiltonCatalog) :
    rts.Pairwise fun p q => ∀ r ∈ p.2.allRoomNumbers, r ∉ q.2.allRoomNumbers := by
  have h := hiltonCatalog_disjoint
  rw [← hc] at h
  exact List.pairwise_map.1 h

theorem catalog_sorted {rts : List (String × RoomType)} (hc : catalog rts = hiltonCatalog)
    {p : String × RoomType} (hp : p ∈ rts) : p.2.allRoomNumbers.Sorted (· < ·) := by
  have h := hiltonCatalog_sorted
  rw [← hc] at h
  exact h (staticOf p) (List.mem_map_of_mem staticOf hp)

theorem catalog_nodup {rts : List (String × RoomType)} (hc : catalog rts = hiltonCatalog)
    {p : String × RoomType} (hp : p ∈ rts) : p.2.allRoomNumbers.Nodup :=
  (catalog_sorted hc hp).nodup

theorem catalog_total {rts : List (String × RoomType)} (hc : catalog rts = hiltonCatalog)
    {p : String × RoomType} (hp : p ∈ rts) :
    p.2.totalRooms = (p.2.allRoomNumbers.length : Int) := by
  have h := hiltonCatalog_total
  rw [← hc] at h
  exact h (staticOf p) (List.mem_map_of_mem staticOf hp)

theorem catalog_price {rts : List (String × RoomType)} (hc : catalog rts = hiltonCatalog)
    {p : String × RoomType} (hp : p ∈ rts) : 0 ≤ p.2.pricePerNight := by
  have h := hiltonCatalog_price
  rw [← hc] at h
  exact h (staticOf p) (List.mem_map_of_mem staticOf hp)

/-- Two entries of `roomTypes` that both own a room number are the same entry. -/
theorem same_owner {rts : List (String × RoomType)} (hc : catalog rts = hiltonCatalog)
    {p q : String × RoomType} (hp : p ∈ rts) (hq : q ∈ rts) {r : Int}
    (h1 : r ∈ p.2.allRoomNumbers) (h2 : r ∈ q.2.allRoomNumbers) : p = q := by
  by_contra hne
  have hsym : Symmetric fun (p q : String × RoomType) =>
      ∀ r ∈ p.2.allRoomNumbers, r ∉ q.2.allRoomNumbers :=
    fun a b hab r hr hr' => hab r hr' hr
  exact (catalog_disjoint hc).forall hsym hp hq hne r h1 h2

/-! ## Facts about the room-type updates -/

theorem staticOf_occupy (key : String) (rt : RoomType) (room : Int) (g : String) :
    staticOf (key, rt.occupy room g) = staticOf (key, rt) := rfl

theorem staticOf_release (key : String) (rt : RoomType) (room : Int) :
    staticOf (key, rt.release room) = staticOf (key, rt) := by
  unfold RoomType.release
  split <;> rfl

theorem bookRoomTypes_some {g : String} {room : Int} {rts rts' : List (String × RoomType)}
    (h : bookRoomTypes g room rts = some rts') :
    ∃ pre key rt post, rts = pre ++ (key, rt) :: post ∧ room ∈ rt.availableRoomNumbers ∧
      (∀ p ∈ pre, room ∉ p.2.availableRoomNumbers) ∧
      rts' = pre ++ (key, rt.occupy room g) :: post := by
  induction rts generalizing rts' with
  | nil => simp [bookRoomTypes] at h
  | cons p t ih =>
    obtain ⟨key, rt⟩ := p
    by_cases hm : room ∈ rt.availableRoomNumbers
    · simp only [bookRoomTypes, hm, if_true, Option.some.injEq] at h
      exact ⟨[], key, rt, t, rfl, hm, by simp, by simp [← h]⟩
    · simp only [bookRoomTypes, hm, if_false, Option.map_eq_some'] at h
      obtain ⟨r, hr, e⟩ := h
      obtain ⟨pre, k2, rt2, post, e1, e2, e3, e4⟩ := ih hr
      refine ⟨(key, rt) :: pre, k2, rt2, post, by simp [e1], e2, ?_, by simp [← e, e4]⟩
      intro p hp
      rcases List.mem_cons.1 hp with e' | e'
      · subst e'
        exact hm
      · exact e3 p e'

theorem bookRoomTypes_eq_none {g : String} {room : Int} {rts : List (String × RoomType)} :
    bookRoomTypes g room rts = none ↔ ∀ p ∈ rts, room ∉ p.2.availableRoomNumbers := by
  induction rts with
  | nil => simp [bookRoomTypes]
  | cons p t ih =>
    obtain ⟨key, rt⟩ := p
    by_cases hm : room ∈ rt.availableRoomNumbers
    · simp [bookRoomTypes, hm]
    · simp [bookRoomTypes, hm, ih]

theorem releaseRoomTypes_some {room : Int} {rts rts' : List (String × RoomType)}
    (h : releaseRoomTypes room rts = some rts') :
    ∃ pre key rt post, rts = pre ++ (key, rt) :: post ∧ room ∈ rt.allRoomNumbers ∧
      (∀ p ∈ pre, room ∉ p.2.allRoomNumbers) ∧
      rts' = pre ++ (key, rt.release room) :: post := by
  induction rts generalizing rts' with
  | nil => simp [releaseRoomTypes] at h
  | cons p t ih =>
    obtain ⟨key, rt⟩ := p
    by_cases hm : room ∈ rt.allRoomNumbers
    · simp only [releaseRoomTypes, hm, if_true, Option.some.injEq] at h
      exact ⟨[], key, rt, t, rfl, hm, by simp, by simp [← h]⟩
    · simp only [releaseRoomTypes, hm, if_false, Option.map_eq_some'] at h
      obtain ⟨r, hr, e⟩ := h
      obtain ⟨pre, k2, rt2, post, e1, e2, e3, e4⟩ := ih hr
      refine ⟨(key, rt) :: pre, k2, rt2, post, by simp [e1], e2, ?_, by simp [← e, e4]⟩
      intro p hp
      rcases List.mem_cons.1 hp with e' | e'
      · subst e'
        exact hm
      · exact e3 p e'

theorem releaseRoomTypes_eq_none {room : Int} {rts : List (String × RoomType)} :
    releaseRoomTypes room rts = none ↔ ∀ p ∈ rts, room ∉ p.2.allRoomNumbers := by
  induction rts with
  | nil => simp [releaseRoomTypes]
  | cons p t ih =>
    obtain ⟨key, rt⟩ := p
    by_cases hm : room ∈ rt.allRoomNumbers
    · simp [releaseRoomTypes, hm]
    · simp [releaseRoomTypes, hm, ih]

theorem catalog_replace (pre post : List (String × RoomType)) (key : String)
    (rt rt' : RoomType) (h : staticOf (key, rt') = staticOf (key, rt)) :
    catalog (pre ++ (key, rt') :: post) = catalog (pre ++ (key, rt) :: post) := by
  simp [catalog, h]

theorem occupied_replace (pre post : List (String × RoomType)) (x : String × RoomType) :
    occupied (pre ++ x :: post) = occupied pre ++ (x.2.guests ++ occupied post) := by
  simp [occupied, List.flatMap_append, List.flatMap_cons]

theorem mem_occupiedRooms {rts : List (String × RoomType)} {r : Int} :
    r ∈ occupiedRooms rts ↔ ∃ p ∈ rts, r ∈ mapKeys p.2.guests := by
  simp only [occupiedRooms, occupied, mapKeys, List.mem_map, List.mem_flatMap]
  constructor
  · rintro ⟨e, ⟨p, hp, he⟩, rfl⟩
    exact ⟨p, hp, e, he, rfl⟩
  · rintro ⟨p, hp, e, he, rfl⟩
    exact ⟨e, ⟨p, hp, he⟩, rfl⟩

theorem TypeWF.avail_subset {rt : RoomType} (h : TypeWF rt) {r : Int}
    (hr : r ∈ rt.availableRoomNumbers) : r ∈ rt.allRoomNumbers :=
  h.perm.subset (List.mem_append_left _ hr)

theorem TypeWF.keys_subset {rt : RoomType} (h : TypeWF rt) {r : Int}
    (hr : r ∈ mapKeys rt.guests) : r ∈ rt.allRoomNumbers :=
  h.perm.subset (List.mem_append_right _ hr)

theorem TypeWF.nodup_append {rt : RoomType} (h : TypeWF rt) (hn : rt.allRoomNumbers.Nodup) :
    (rt.availableRoomNumbers ++ mapKeys rt.guests).Nodup :=
  h.perm.nodup_iff.2 hn

theorem TypeWF.not_both {rt : RoomType} (h : TypeWF rt) (hn : rt.allRoomNumbers.Nodup)
    {r : Int} (h1 : r ∈ rt.availableRoomNumbers) (h2 : r ∈ mapKeys rt.guests) : False :=
  (List.nodup_append.1 (h.nodup_append hn)).2.2 h1 h2

theorem TypeWF.occupy {rt : RoomType} (h : TypeWF rt) (hn : rt.allRoomNumbers.Nodup)
    {room : Int} (g : String) (hr : room ∈ rt.availableRoomNumbers) :
    TypeWF (rt.occupy room g) := by
  have hnk : room ∉ mapKeys rt.guests := fun h2 => h.not_both hn hr h2
  refine ⟨?_, ?_, mapKeys_mapSet_sorted _ _ h.keys_sorted⟩
  · show (rt.availableRoomNumbers.erase room ++ mapKeys (mapSet room g rt.guests)).Perm
      rt.allRoomNumbers
    have p1 : (mapKeys (mapSet room g rt.guests)).Perm (room :: mapKeys rt.guests) :=
      (mapSet_perm g hnk).map Prod.fst
    have p2 : rt.availableRoomNumbers.Perm (room :: rt.availableRoomNumbers.erase room) :=
      List.perm_cons_erase hr
    exact ((List.Perm.append_left _ p1).trans List.perm_middle).trans
      ((p2.append_right _).symm.trans h.perm)
  · show rt.availableRooms - 1 = ((rt.availableRoomNumbers.erase room).length : Int)
    have hpos : 0 < rt.availableRoomNumbers.length := List.length_pos_of_mem hr
    rw [List.length_erase_of_mem hr, h.count]
    omega

theorem TypeWF.release {rt : RoomType} (h : TypeWF rt) (hn : rt.allRoomNumbers.Nodup)
    {room : Int} (hr : room ∈ mapKeys rt.guests) : TypeWF (rt.release room) := by
  have hna : room ∉ rt.availableRoomNumbers := fun h1 => h.not_both hn h1 hr
  unfold RoomType.release
  rw [if_neg hna]
  refine ⟨?_, ?_, mapKeys_mapErase_sorted _ h.keys_sorted⟩
  · show ((rt.availableRoomNumbers ++ [room]) ++ mapKeys (mapErase room rt.guests)).Perm
      rt.allRoomNumbers
    rw [mapKeys_mapErase, List.append_assoc, List.singleton_append]
    exact (List.Perm.append_left _ (List.perm_cons_erase hr).symm).trans h.perm
  · show rt.availableRooms + 1 = ((rt.availableRoomNumbers ++ [room]).length : Int)
    rw [List.length_append, h.count]
    simp

/-- The occupied room numbers of a consistent hotel are pairwise distinct. -/
theorem occupiedRooms_nodup {rts : List (String × RoomType)}
    (hc : catalog rts = hiltonCatalog) (hw : ∀ p ∈ rts, TypeWF p.2) :
    (occupiedRooms rts).Nodup := by
  have hd := catalog_disjoint hc
  clear hc
  induction rts with
  | nil => simp [occupiedRooms, occupied, mapKeys]
  | cons p t ih =>
    have hcons : occupiedRooms (p :: t) = mapKeys p.2.guests ++ occupiedRooms t := by
      simp [occupiedRooms, occupied, mapKeys, List.flatMap_cons]
    rw [hcons, List.nodup_append]
    rw [List.pairwise_cons] at hd
    refine ⟨(hw p (List.mem_cons_self _ _)).keys_sorted.nodup,
      ih (fun q hq => hw q (List.mem_cons_of_mem _ hq)) hd.2, ?_⟩
    intro r h1 h2
    obtain ⟨q, hq, hrq⟩ := mem_occupiedRooms.1 h2
    exact hd.1 q hq r ((hw p (List.mem_cons_self _ _)).keys_subset h1)
      ((hw q (List.mem_cons_of_mem _ hq)).keys_subset hrq)

/-! ## The invariant holds initially and after a reset -/

theorem occupied_reset (rts : List (String × RoomType)) :
    occupied (rts.map fun p =>
      (p.1, { p.2 with
                availableRooms := p.2.totalRooms
                guests := []
                availableRoomNumbers := p.2.allRoomNumbers })) = [] := by
  induction rts with
  | nil => rfl
  | cons p t ih =>
    simp only [occupied, List.map_cons, List.flatMap_cons, List.nil_append] at ih ⊢
    exact ih

theorem roomsOf_nil (g : String) : roomsOf g [] = [] := rfl

theorem Inv.reset {h : Hotel} (hc : catalog h.roomTypes = hiltonCatalog) :
    Inv (resetStateForNewDate h) := by
  have hcat : catalog (resetStateForNewDate h).roomTypes = hiltonCatalog := by
    rw [← hc]
    simp only [resetStateForNewDate, catalog, List.map_map]
    rfl
  refine
    { catalog_eq := hcat
      types_wf := ?_
      stack_perm := ?_
      tree_sorted := by simp [resetStateForNewDate, inorder]
      tree_mem := ?_
      people_eq := rfl
      roomsnums_eq := rfl
      history_eq := rfl
      guest_index := fun g => by simp [resetStateForNewDate, mapFind, roomsOf_nil]
      guest_sorted := by simp [resetStateForNewDate, mapKeys] }
  · intro p hp
    simp only [resetStateForNewDate, List.mem_map] at hp
    obtain ⟨q, hq, rfl⟩ := hp
    refine ⟨?_, ?_, ?_⟩
    · show (q.2.allRoomNumbers ++ mapKeys ([] : List (Int × String))).Perm q.2.allRoomNumbers
      simp [mapKeys]
    · exact catalog_total hc hq
    · show (mapKeys ([] : List (Int × String))).Sorted (· < ·)
      simp [mapKeys]
  · show (List.map _ []).Perm (occupied _)
    simp only [resetStateForNewDate, occupied_reset]
    exact List.Perm.refl _
  · intro r
    simp only [resetStateForNewDate, occupiedRooms, occupied_reset, inorder, mapKeys]
    simp

theorem resetStateForNewDate_HiltonHotel (n : Int) :
    resetStateForNewDate (HiltonHotel n) = HiltonHotel n := by
  have h : (resetStateForNewDate (HiltonHotel 0)).roomTypes = (HiltonHotel 0).roomTypes := by
    decide!
  show Hotel.mk _ _ _ _ _ _ _ _ _ _ _ _ = Hotel.mk _ _ _ _ _ _ _ _ _ _ _ _
  congr 1

theorem Inv.init (n : Int) : Inv (HiltonHotel n) := by
  rw [← resetStateForNewDate_HiltonHotel n]
  exact Inv.reset (catalog_HiltonHotel n)

/-! ## The invariant is kept by a booking -/

theorem roomsOf_cons (g : String) (a : Action) (stack : List Action) :
    roomsOf g (a :: stack) =
      roomsOf g stack ++ (if a.guestName = g then [a.roomNumber] else []) := by
  unfold roomsOf
  rw [List.reverse_cons, List.filter_append, List.map_append]
  by_cases h : a.guestName = g <;> simp [h]

theorem getD_roomsOf (l : List Int) :
    (if l = [] then (none : Option (List Int)) else some l).getD [] = l := by
  by_cases h : l = [] <;> simp [h]

theorem mem_roomsOf {g : String} {stack : List Action} {r : Int} (h : r ∈ roomsOf g stack) :
    r ∈ stack.map fun a => a.roomNumber := by
  unfold roomsOf at h
  obtain ⟨a, ha, rfl⟩ := List.mem_map.1 h
  exact List.mem_map.2 ⟨a, List.mem_reverse.1 (List.mem_filter.1 ha).1, rfl⟩

/-- A room that is free in some type is not occupied anywhere. -/
theorem free_not_occupied {rts : List (String × RoomType)}
    (hc : catalog rts = hiltonCatalog) (hw : ∀ p ∈ rts, TypeWF p.2)
    {p : String × RoomType} (hp : p ∈ rts) {room : Int}
    (hr : room ∈ p.2.availableRoomNumbers) : room ∉ occupiedRooms rts := by
  intro hocc
  obtain ⟨q, hq, hrq⟩ := mem_occupiedRooms.1 hocc
  have e : p = q := same_owner hc hp hq ((hw p hp).avail_subset hr) ((hw q hq).keys_subset hrq)
  subst e
  exact (hw p hp).not_both (catalog_nodup hc hp) hr hrq

theorem occupied_occupy_perm {pre post : List (String × RoomType)} {key : String}
    {rt : RoomType} {room : Int} (g : String) (hnk : room ∉ mapKeys rt.guests) :
    (occupied (pre ++ (key, rt.occupy room g) :: post)).Perm
      ((room, g) :: occupied (pre ++ (key, rt) :: post)) := by
  rw [occupied_replace, occupied_replace]
  show (occupied pre ++ (mapSet room g rt.guests ++ occupied post)).Perm _
  have p1 : (mapSet room g rt.guests ++ occupied post).Perm
      ((room, g) :: (rt.guests ++ occupied post)) :=
    (mapSet_perm g hnk).append_right _
  exact (List.Perm.append_left _ p1).trans List.perm_middle

/-- `bookRoom` followed by the push of a matching undo action keeps the
invariant, whatever happens to the revenue and the ledger. -/
theorem Inv.book_push {h h1 : Hotel} (hi : Inv h) {g d : String} {room : Int}
    (hb : bookRoom h g d room = some h1) (a : Action) (hg : a.guestName = g)
    (hr : a.roomNumber = room) (rev : ℚ) (ledger : List Reservation) :
    Inv { h1 with
          totalRevenue := rev
          bookingHistory := a :: h1.bookingHistory
          reservationsForDay := ledger } := by
  unfold bookRoom at hb
  split at hb
  · exact absurd hb (by simp)
  · rename_i rts' hrts
    simp only [Option.some.injEq] at hb
    subst hb
    obtain ⟨pre, key, rt, post, e1, hfree, _, e2⟩ := bookRoomTypes_some hrts
    have hmem : (key, rt) ∈ h.roomTypes := by
      rw [e1]
      simp
    have hwf := hi.types_wf (key, rt) hmem
    have hnd := catalog_nodup hi.catalog_eq hmem
    have hnk : room ∉ mapKeys rt.guests := fun h2 => hwf.not_both hnd hfree h2
    have hocc : (occupied rts').Perm ((room, g) :: occupied h.roomTypes) := by
      rw [e1, e2]
      exact occupied_occupy_perm g hnk
    refine
      { catalog_eq := ?_
        types_wf := ?_
        stack_perm := ?_
        tree_sorted := sorted_inorder_insertRoomInTree room hi.tree_sorted
        tree_mem := ?_
        people_eq := ?_
        roomsnums_eq := ?_
        history_eq := ?_
        guest_index := ?_
        guest_sorted := mapKeys_mapSet_sorted _ _ hi.guest_sorted }
    · show catalog rts' = hiltonCatalog
      rw [e2, catalog_replace _ _ _ _ _ (staticOf_occupy key rt room g), ← e1]
      exact hi.catalog_eq
    · show ∀ p ∈ rts', TypeWF p.2
      intro p hp
      rw [e2] at hp
      rcases List.mem_append.1 hp with hp | hp
      · exact hi.types_wf p (by rw [e1]; exact List.mem_append_left _ hp)
      · rcases List.mem_cons.1 hp with hp | hp
        · subst hp
          exact hwf.occupy hnd g hfree
        · exact hi.types_wf p (by
            rw [e1]
            exact List.mem_append_right _ (List.mem_cons_of_mem _ hp))
    · show ((a :: h.bookingHistory).map fun a => (a.roomNumber, a.guestName)).Perm
        (occupied rts')
      rw [List.map_cons, hg, hr]
      exact (hi.stack_perm.cons (room, g)).trans hocc.symm
    · intro r
      show r ∈ inorder (insertRoomInTree h.occupiedRoomsRoot room) ↔ r ∈ occupiedRooms rts'
      rw [mem_inorder_insertRoomInTree hi.tree_sorted, hi.tree_mem r]
      have := (hocc.map Prod.fst).mem_iff (a := r)
      simp only [occupiedRooms, mapKeys, List.map_cons, List.mem_cons] at this ⊢
      exact this.symm
    · show h.people ++ [g] = ((a :: h.bookingHistory).map fun a => a.guestName).reverse
      rw [List.map_cons, List.reverse_cons, hg, hi.people_eq]
    · show h.roomsnums ++ [room] =
        ((a :: h.bookingHistory).map fun a => a.roomNumber).reverse
      rw [List.map_cons, List.reverse_cons, hr, hi.roomsnums_eq]
    · show h.guestHistory ++ [g] = h.people ++ [g]
      rw [hi.history_eq]
    · intro g'
      show mapFind g' (mapSet g (((mapFind g h.guestToRooms).getD []) ++ [room])
        h.guestToRooms) = _
      show _ = if roomsOf g' (a :: h.bookingHistory) = [] then none
        else some (roomsOf g' (a :: h.bookingHistory))
      rw [roomsOf_cons, hg, hr]
      by_cases hgg : g' = g
      · subst hgg
        rw [mapFind_mapSet_self, hi.guest_index g', getD_roomsOf]
        simp
      · have hgg' : ¬ g = g' := fun e => hgg e.symm
        rw [mapFind_mapSet_ne hgg, hi.guest_index g']
        simp [hgg']

/-! ## The invariant is kept by an undo -/

theorem eraseFound_last {α : Type} {l : List α} (x : α) {p : Nat → Bool} {n : Nat}
    (hn : n = l.length + 1) (hp : p l.length = true) :
    eraseFound (findLastIndex p n) (l ++ [x]) = l := by
  subst hn
  rw [findLastIndex_succ_of_true hp]
  exact eraseIdx_length_concat l x

theorem eraseFound_of_eq {α : Type} {l l0 : List α} {x : α} {p : Nat → Bool} {n : Nat}
    (hl : l = l0 ++ [x]) (hn : n = l0.length + 1) (hp : p l0.length = true) :
    eraseFound (findLastIndex p n) l = l0 := by
  subst hl
  exact eraseFound_last x hn hp

theorem release_guests (rt : RoomType) (room : Int) :
    (rt.release room).guests = mapErase room rt.guests := by
  unfold RoomType.release
  split <;> rfl

theorem occupied_release_perm {pre post : List (String × RoomType)} {key : String}
    {rt : RoomType} {room : Int} {g : String} (hf : mapFind room rt.guests = some g) :
    (occupied (pre ++ (key, rt) :: post)).Perm
      ((room, g) :: occupied (pre ++ (key, rt.release room) :: post)) := by
  rw [occupied_replace, occupied_replace]
  show (occupied pre ++ (rt.guests ++ occupied post)).Perm
    ((room, g) :: (occupied pre ++ ((rt.release room).guests ++ occupied post)))
  rw [release_guests]
  have p1 : (rt.guests ++ occupied post).Perm
      ((room, g) :: (mapErase room rt.guests ++ occupied post)) :=
    (mapErase_perm hf).append_right _
  exact (List.Perm.append_left _ p1).trans List.perm_middle

/-- The room on top of the undo stack is occupied by the recorded guest in the
type that owns it, and `releaseRoomTypes` releases it there. -/
theorem Inv.release_top {h : Hotel} (hi : Inv h) {last : Action} {stack : List Action}
    (hs : h.bookingHistory = last :: stack) :
    ∃ pre key rt post, h.roomTypes = pre ++ (key, rt) :: post ∧
      mapFind last.roomNumber rt.guests = some last.guestName ∧
      last.roomNumber ∈ rt.allRoomNumbers ∧
      last.roomNumber ∉ rt.availableRoomNumbers ∧
      releaseRoomTypes last.roomNumber h.roomTypes =
        some (pre ++ (key, rt.release last.roomNumber) :: post) := by
  have hmem : (last.roomNumber, last.guestName) ∈ occupied h.roomTypes := by
    apply hi.stack_perm.subset
    rw [hs]
    simp
  obtain ⟨p, hp, hpg⟩ := List.mem_flatMap.1 hmem
  have hk : last.roomNumber ∈ mapKeys p.2.guests := mem_mapKeys_of_mem hpg
  have hall : last.roomNumber ∈ p.2.allRoomNumbers := (hi.types_wf p hp).keys_subset hk
  cases hrel : releaseRoomTypes last.roomNumber h.roomTypes with
  | none => exact absurd hall (releaseRoomTypes_eq_none.1 hrel p hp)
  | some rts' =>
    obtain ⟨pre, key, rt, post, e1, hin, _, e2⟩ := releaseRoomTypes_some hrel
    have hq : (key, rt) ∈ h.roomTypes := by
      rw [e1]
      simp
    have e : p = (key, rt) := same_owner hi.catalog_eq hp hq hall hin
    subst e
    refine ⟨pre, key, rt, post, e1, ?_, hin, ?_, by rw [e2]⟩
    · exact mapFind_of_mem (hi.types_wf _ hp).keys_sorted.nodup hpg
    · exact fun h1 => (hi.types_wf _ hp).not_both (catalog_nodup hi.catalog_eq hp) h1 hk

theorem Inv.stack_rooms_nodup {h : Hotel} (hi : Inv h) :
    (h.bookingHistory.map fun a => a.roomNumber).Nodup := by
  have h1 := (hi.stack_perm.map Prod.fst)
  rw [List.map_map] at h1
  exact h1.nodup_iff.2 (occupiedRooms_nodup hi.catalog_eq hi.types_wf)

theorem Inv.undo {h : Hotel} (hi : Inv h) : Inv (undoLastBooking h).2 := by
  unfold undoLastBooking
  cases hs : h.bookingHistory with
  | nil => exact hi
  | cons last stack =>
    obtain ⟨pre, key, rt, post, e1, hfind, hall, hnot, hrel⟩ := hi.release_top hs
    simp only [hrel, undoCommit, lastMatchingPerson]
    have hmem : (key, rt) ∈ h.roomTypes := by
      rw [e1]
      simp
    have hwf := hi.types_wf (key, rt) hmem
    have hnd := catalog_nodup hi.catalog_eq hmem
    have hk : last.roomNumber ∈ mapKeys rt.guests := mem_mapKeys_of_mem (mapFind_some_mem hfind)
    have hocc : (occupied h.roomTypes).Perm ((last.roomNumber, last.guestName) ::
        occupied (pre ++ (key, rt.release last.roomNumber) :: post)) := by
      rw [e1]
      exact occupied_release_perm hfind
    have hstack : (stack.map fun a => (a.roomNumber, a.guestName)).Perm
        (occupied (pre ++ (key, rt.release last.roomNumber) :: post)) := by
      have := hi.stack_perm
      rw [hs, List.map_cons] at this
      exact (this.trans hocc).cons_inv
    have hnodup := hi.stack_rooms_nodup
    rw [hs, List.map_cons, List.nodup_cons] at hnodup
    have hpeople : h.people = (stack.map fun a => a.guestName).reverse ++ [last.guestName] := by
      rw [hi.people_eq, hs, List.map_cons, List.reverse_cons]
    have hrooms : h.roomsnums =
        (stack.map fun a => a.roomNumber).reverse ++ [last.roomNumber] := by
      rw [hi.roomsnums_eq, hs, List.map_cons, List.reverse_cons]
    have hlen : h.people.length = (stack.map fun a => a.guestName).reverse.length + 1 := by
      rw [hpeople]
      simp
    have hpr : (fun i => decide (h.people.get? i = some last.guestName ∧
        h.roomsnums.get? i = some last.roomNumber))
        (stack.map fun a => a.guestName).reverse.length = true := by
      simp only [decide_eq_true_eq]
      constructor
      · rw [hpeople]
        exact get?_length_concat _ _
      · rw [hrooms]
        have : (stack.map fun a => a.guestName).reverse.length =
            (stack.map fun a => a.roomNumber).reverse.length := by simp
        rw [this]
        exact get?_length_concat _ _
    have hpr2 : (fun i => decide (h.people.get? i = some last.guestName ∧
        h.roomsnums.get? i = some last.roomNumber))
        (stack.map fun a => a.roomNumber).reverse.length = true := by
      have : (stack.map fun a => a.roomNumber).reverse.length =
          (stack.map fun a => a.guestName).reverse.length := by simp
      rw [this]
      exact hpr
    have hlen2 : h.people.length = (stack.map fun a => a.roomNumber).reverse.length + 1 := by
      rw [hlen]
      simp
    have hnewpeople : eraseFound (findLastIndex (fun i =>
        decide (h.people.get? i = some last.guestName ∧
          h.roomsnums.get? i = some last.roomNumber)) h.people.length) h.people =
        (stack.map fun a => a.guestName).reverse := by
      exact eraseFound_of_eq hpeople hlen hpr
    refine
      { catalog_eq := ?_
        types_wf := ?_
        stack_perm := hstack
        tree_sorted := sorted_inorder_removeRoomFromTree _ hi.tree_sorted
        tree_mem := ?_
        people_eq := hnewpeople
        roomsnums_eq := ?_
        history_eq := ?_
        guest_index := ?_
        guest_sorted := ?_ }
    · show catalog (pre ++ (key, rt.release last.roomNumber) :: post) = hiltonCatalog
      rw [catalog_replace _ _ _ _ _ (staticOf_release key rt last.roomNumber), ← e1]
      exact hi.catalog_eq
    · show ∀ p ∈ pre ++ (key, rt.release last.roomNumber) :: post, TypeWF p.2
      intro p hp
      rcases List.mem_append.1 hp with hp | hp
      · exact hi.types_wf p (by rw [e1]; exact List.mem_append_left _ hp)
      · rcases List.mem_cons.1 hp with hp | hp
        · subst hp
          exact hwf.release hnd hk
        · exact hi.types_wf p (by
            rw [e1]
            exact List.mem_append_right _ (List.mem_cons_of_mem _ hp))
    · intro r
      show r ∈ inorder (removeRoomFromTree h.occupiedRoomsRoot last.roomNumber) ↔
        r ∈ occupiedRooms (pre ++ (key, rt.release last.roomNumber) :: post)
      rw [mem_inorder_removeRoomFromTree hi.tree_sorted, hi.tree_mem r]
      have hp1 := (hocc.map Prod.fst)
      have hnd1 := hp1.nodup_iff.1 (occupiedRooms_nodup hi.catalog_eq hi.types_wf)
      have := hp1.mem_iff (a := r)
      simp only [occupiedRooms, mapKeys, List.map_cons, List.mem_cons, List.nodup_cons]
        at this hnd1 ⊢
      constructor
      · rintro ⟨h1, h2⟩
        rcases this.1 h1 with e | e
        · exact absurd e h2
        · exact e
      · intro h1
        exact ⟨this.2 (Or.inr h1), fun e => hnd1.1 (e ▸ h1)⟩
    · show eraseFound (findLastIndex (fun i =>
        decide (h.people.get? i = some last.guestName ∧
          h.roomsnums.get? i = some last.roomNumber)) h.people.length) h.roomsnums =
        (stack.map fun a => a.roomNumber).reverse
      exact eraseFound_of_eq hrooms hlen2 hpr2
    · show eraseFound (findLastIndex (fun i => decide (h.guestHistory.get? i =
        some last.guestName)) h.guestHistory.length) h.guestHistory = _
      rw [hnewpeople]
      have hhist : h.guestHistory =
          (stack.map fun a => a.guestName).reverse ++ [last.guestName] := by
        rw [hi.history_eq, hpeople]
      refine eraseFound_of_eq hhist (by rw [hhist]; simp) ?_
      simp only [decide_eq_true_eq]
      rw [hhist]
      exact get?_length_concat _ _
    · intro g'
      have hgi := hi.guest_index
      rw [hs] at hgi
      have hlast := hgi last.guestName
      rw [roomsOf_cons] at hlast
      simp only [if_true, List.append_eq_nil, List.cons_ne_nil, and_false, if_false]
        at hlast
      have hfilter : (roomsOf last.guestName stack ++ [last.roomNumber]).filter
          (fun r => decide (r ≠ last.roomNumber)) = roomsOf last.guestName stack := by
        rw [List.filter_append, filter_ne_of_all_ne]
        · simp
        · intro r hr e
          exact hnodup.1 (e ▸ mem_roomsOf hr)
      show mapFind g' (match mapFind last.guestName h.guestToRooms with
        | none => h.guestToRooms
        | some vec =>
          if vec.filter (fun r => decide (r ≠ last.roomNumber)) = [] then
            mapErase last.guestName h.guestToRooms
          else mapSet last.guestName (vec.filter fun r => decide (r ≠ last.roomNumber))
            h.guestToRooms) = if roomsOf g' stack = [] then none else some (roomsOf g' stack)
      rw [hlast]
      simp only [hfilter]
      have hother : g' ≠ last.guestName → roomsOf g' (last :: stack) = roomsOf g' stack := by
        intro hne
        rw [roomsOf_cons]
        have : ¬ last.guestName = g' := fun e => hne e.symm
        simp [this]
      by_cases hgg : g' = last.guestName
      · subst hgg
        by_cases hnil : roomsOf last.guestName stack = []
        · simp only [hnil, if_true]
          exact mapFind_mapErase_self _ hi.guest_sorted.nodup
        · simp only [hnil, if_false]
          exact mapFind_mapSet_self _ _ _
      · by_cases hnil : roomsOf last.guestName stack = []
        · simp only [hnil, if_true]
          rw [mapFind_mapErase_ne hgg, hgi g', hother hgg]
        · simp only [hnil, if_false]
          rw [mapFind_mapSet_ne hgg, hgi g', hother hgg]
    · show (mapKeys (match mapFind last.guestName h.guestToRooms with
        | none => h.guestToRooms
        | some vec =>
          if vec.filter (fun r => decide (r ≠ last.roomNumber)) = [] then
            mapErase last.guestName h.guestToRooms
          else mapSet last.guestName (vec.filter fun r => decide (r ≠ last.roomNumber))
            h.guestToRooms)).Sorted (· < ·)
      split
      · exact hi.guest_sorted
      · split
        · exact mapKeys_mapErase_sorted _ hi.guest_sorted
        · exact mapKeys_mapSet_sorted _ _ hi.guest_sorted

/-! ## The invariant holds in every reachable state -/

/-- The invariant does not mention the revenue or the ledger. -/
theorem Inv.with_ledger {h : Hotel} (hi : Inv h) (rev : ℚ) (ledger : List Reservation) :
    Inv { h with totalRevenue := rev, reservationsForDay := ledger } :=
  { catalog_eq := hi.catalog_eq
    types_wf := hi.types_wf
    stack_perm := hi.stack_perm
    tree_sorted := hi.tree_sorted
    tree_mem := hi.tree_mem
    people_eq := hi.people_eq
    roomsnums_eq := hi.roomsnums_eq
    history_eq := hi.history_eq
    guest_index := hi.guest_index
    guest_sorted := hi.guest_sorted }

theorem Inv.reserve {h : Hotel} (hi : Inv h) (option : Int)
    (guestName startDate endDate : String) (startTime durationDays : Int) :
    Inv (reserveRoom h option guestName startDate endDate startTime durationDays).2 := by
  unfold reserveRoom
  split
  · exact hi
  · split
    · exact hi
    · split
      · exact hi
      · split
        · rename_i h1 hb
          exact hi.book_push hb _ rfl rfl _ _
        · exact hi

theorem Inv.restored {h : Hotel} (hi : Inv h) (r : Reservation) :
    Inv (restoreRecord h r) := by
  unfold restoreRecord
  have hi1 := hi.with_ledger h.totalRevenue (h.reservationsForDay ++ [r])
  dsimp only
  split
  · exact hi1
  · rename_i h2 hb
    exact hi1.book_push hb _ rfl rfl h2.totalRevenue h2.reservationsForDay

theorem Inv.restoredLine {h : Hotel} (hi : Inv h) (date line : String) :
    Inv (restoreLine date h line) := by
  unfold restoreLine
  split
  · exact hi.restored _
  · exact hi

theorem Inv.restoredLines {h : Hotel} (hi : Inv h) (date : String) (lines : List String) :
    Inv (lines.foldl (restoreLine date) h) := by
  induction lines generalizing h with
  | nil => exact hi
  | cons l t ih => exact ih (hi.restoredLine date l)

theorem Inv.load {h : Hotel} (hc : catalog h.roomTypes = hiltonCatalog) (date : String)
    (file : Option String) : Inv (loadFromFile h date file) := by
  unfold loadFromFile
  have h0 : Inv (resetStateForNewDate h) := Inv.reset hc
  split
  · exact h0
  · split
    · exact h0
    · exact Inv.restoredLines
        (h0.with_ledger _ (resetStateForNewDate h).reservationsForDay) date _

/-- Every reachable state satisfies the invariant. -/
theorem Reachable.inv {h : Hotel} (hr : Reachable h) : Inv h := by
  induction hr with
  | init n => exact Inv.init n
  | reserve option guestName startDate endDate startTime durationDays _ ih =>
    exact ih.reserve option guestName startDate endDate startTime durationDays
  | undo _ ih => exact ih.undo
  | load date file _ ih => exact Inv.load ih.catalog_eq date file

/-! ## What `reserveRoom` does -/

theorem get?_split {α : Type} {l : List α} {i : Nat} {x : α} (h : l.get? i = some x) :
    ∃ pre post, l = pre ++ x :: post ∧ pre.length = i := by
  induction l generalizing i with
  | nil => simp at h
  | cons a t ih =>
    cases i with
    | zero =>
      simp at h
      exact ⟨[], t, by simp [h], rfl⟩
    | succ j =>
      simp only [List.get?_cons_succ] at h
      obtain ⟨pre, post, e, hl⟩ := ih h
      exact ⟨a :: pre, post, by simp [e], by simp [hl]⟩

theorem get?_of_split {α : Type} (pre post : List α) (x : α) :
    (pre ++ x :: post).get? pre.length = some x := by
  induction pre with
  | nil => rfl
  | cons a t ih => simpa using ih

/-- In a consistent hotel, the types before and after the owner of a room do not
have the room, neither among their rooms nor in their free lists. -/
theorem Inv.others_lack {h : Hotel} (hi : Inv h) {pre post : List (String × RoomType)}
    {key : String} {rt : RoomType} (e : h.roomTypes = pre ++ (key, rt) :: post) {room : Int}
    (hin : room ∈ rt.allRoomNumbers) :
    (∀ p ∈ pre, room ∉ p.2.allRoomNumbers ∧ room ∉ p.2.availableRoomNumbers) ∧
      (∀ p ∈ post, room ∉ p.2.allRoomNumbers ∧ room ∉ p.2.availableRoomNumbers) := by
  have hd := catalog_disjoint hi.catalog_eq
  rw [e, List.pairwise_append, List.pairwise_cons] at hd
  obtain ⟨_, ⟨hpost, _⟩, hpre⟩ := hd
  constructor
  · intro p hp
    have h1 : room ∉ p.2.allRoomNumbers := fun h2 =>
      hpre p hp (key, rt) (List.mem_cons_self _ _) room h2 hin
    exact ⟨h1, fun h2 => h1 ((hi.types_wf p (by rw [e]; exact List.mem_append_left _ hp)).avail_subset h2)⟩
  · intro p hp
    have h1 : room ∉ p.2.allRoomNumbers := hpost p hp room hin
    exact ⟨h1, fun h2 => h1 ((hi.types_wf p (by
      rw [e]
      exact List.mem_append_right _ (List.mem_cons_of_mem _ hp))).avail_subset h2)⟩

theorem bookRoomTypes_at {pre post : List (String × RoomType)} {key : String} {rt : RoomType}
    {room : Int} (g : String) (hpre : ∀ p ∈ pre, room ∉ p.2.availableRoomNumbers)
    (hin : room ∈ rt.availableRoomNumbers) :
    bookRoomTypes g room (pre ++ (key, rt) :: post) =
      some (pre ++ (key, rt.occupy room g) :: post) := by
  induction pre with
  | nil => simp [bookRoomTypes, hin]
  | cons p t ih =>
    obtain ⟨k, r⟩ := p
    have h1 : room ∉ r.availableRoomNumbers := hpre (k, r) (List.mem_cons_self _ _)
    have h2 := ih fun q hq => hpre q (List.mem_cons_of_mem _ hq)
    simp [bookRoomTypes, h1, h2]

theorem releaseRoomTypes_at {pre post : List (String × RoomType)} {key : String}
    {rt : RoomType} {room : Int} (hpre : ∀ p ∈ pre, room ∉ p.2.allRoomNumbers)
    (hin : room ∈ rt.allRoomNumbers) :
    releaseRoomTypes room (pre ++ (key, rt) :: post) =
      some (pre ++ (key, rt.release room) :: post) := by
  induction pre with
  | nil => simp [releaseRoomTypes, hin]
  | cons p t ih =>
    obtain ⟨k, r⟩ := p
    have h1 : room ∉ r.allRoomNumbers := hpre (k, r) (List.mem_cons_self _ _)
    have h2 := ih fun q hq => hpre q (List.mem_cons_of_mem _ hq)
    simp [releaseRoomTypes, h1, h2]

/-- `reserveRoom` on a consistent hotel, for a valid option whose type has the
free list `room :: rest`: the call completes and books `room` in that type. -/
theorem reserveRoom_complete {h : Hotel} (hi : Inv h) {option : Int}
    {pre post : List (String × RoomType)} {key : String} {rt : RoomType}
    (e : h.roomTypes = pre ++ (key, rt) :: post) (hopt : (option - 1).toNat = pre.length)
    (h1 : 1 ≤ option) {room : Int} {rest : List Int}
    (hfree : rt.availableRoomNumbers = room :: rest)
    (guestName startDate endDate : String) (startTime durationDays : Int) :
    reserveRoom h option guestName startDate endDate startTime durationDays =
      (.complete,
        reservedState h pre post key rt room guestName startDate startTime durationDays) := by
  have hmem : (key, rt) ∈ h.roomTypes := by
    rw [e]
    simp
  have hroom : room ∈ rt.availableRoomNumbers := by
    rw [hfree]
    exact List.mem_cons_self _ _
  have hall : room ∈ rt.allRoomNumbers := (hi.types_wf _ hmem).avail_subset hroom
  have hbook : bookRoomTypes guestName room h.roomTypes =
      some (pre ++ (key, rt.occupy room guestName) :: post) := by
    rw [e]
    exact bookRoomTypes_at guestName (fun p hp => ((hi.others_lack e hall).1 p hp).2) hroom
  have hlen : ¬ (option < 1 ∨ option > (h.roomTypes.length : Int)) := by
    rw [e]
    simp only [List.length_append, List.length_cons]
    omega
  have hget : h.roomTypes.get? (option - 1).toNat = some (key, rt) := by
    rw [hopt, e]
    exact get?_of_split _ _ _
  have hprice : (pre ++ (key, rt.occupy room guestName) :: post).get? (option - 1).toNat =
      some (key, rt.occupy room guestName) := by
    rw [hopt]
    exact get?_of_split _ _ _
  unfold reserveRoom
  rw [if_neg hlen]
  simp only [hget, hfree, bookRoom, hbook, priceAt, hprice]
  rfl

theorem reserveRoom_invalid {h : Hotel} {option : Int}
    (hopt : option < 1 ∨ option > (h.roomTypes.length : Int))
    (guestName startDate endDate : String) (startTime durationDays : Int) :
    reserveRoom h option guestName startDate endDate startTime durationDays =
      (.invalidOption, h) := by
  unfold reserveRoom
  rw [if_pos hopt]

theorem reserveRoom_exhausted {h : Hotel} {option : Int} {key : String} {rt : RoomType}
    (hopt : ¬ (option < 1 ∨ option > (h.roomTypes.length : Int)))
    (hget : h.roomTypes.get? (option - 1).toNat = some (key, rt))
    (hfree : rt.availableRoomNumbers = [])
    (guestName startDate endDate : String) (startTime durationDays : Int) :
    reserveRoom h option guestName startDate endDate startTime durationDays =
      (.noAvailableRooms, h) := by
  unfold reserveRoom
  rw [if_neg hopt]
  simp only [hget, hfree]

theorem get?_isSome_of_valid {h : Hotel} {option : Int}
    (hopt : ¬ (option < 1 ∨ option > (h.roomTypes.length : Int))) :
    ∃ key rt, h.roomTypes.get? (option - 1).toNat = some (key, rt) := by
  have hlt : (option - 1).toNat < h.roomTypes.length := by omega
  cases hg : h.roomTypes.get? (option - 1).toNat with
  | none =>
    rw [List.get?_eq_none] at hg
    omega
  | some p => exact ⟨p.1, p.2, rfl⟩

/-- A `reserveRoom` call that completes on a consistent hotel booked the front
room of the free list of the type at position `option`. -/
theorem reserveRoom_of_complete {h : Hotel} (hi : Inv h) {option : Int}
    {guestName startDate endDate : String} {startTime durationDays : Int}
    (hok : (reserveRoom h option guestName startDate endDate startTime durationDays).1 =
      ReserveOutcome.complete) :
    ∃ pre key rt post room rest, h.roomTypes = pre ++ (key, rt) :: post ∧
      (option - 1).toNat = pre.length ∧ 1 ≤ option ∧
      rt.availableRoomNumbers = room :: rest ∧
      reserveRoom h option guestName startDate endDate startTime durationDays =
        (.complete,
          reservedState h pre post key rt room guestName startDate startTime durationDays) := by
  by_cases hopt : option < 1 ∨ option > (h.roomTypes.length : Int)
  · rw [reserveRoom_invalid hopt] at hok
    exact absurd hok (by simp)
  · obtain ⟨key, rt, hget⟩ := get?_isSome_of_valid hopt
    obtain ⟨pre, post, e, hlen⟩ := get?_split hget
    cases hfree : rt.availableRoomNumbers with
    | nil =>
      rw [reserveRoom_exhausted hopt hget hfree] at hok
      exact absurd hok (by simp)
    | cons room rest =>
      have h1 : 1 ≤ option := by omega
      exact ⟨pre, key, rt, post, room, rest, e, hlen.symm, h1, hfree,
        reserveRoom_complete hi e hlen.symm h1 hfree _ _ _ _ _⟩

/-! ## What `undoLastBooking` does -/

/-- `undoLastBooking` on a consistent hotel with a non-empty undo stack: the
room type owning the room of the top action is found, the room is occupied
there by the recorded guest, and the undo is carried out. -/
theorem undoLastBooking_of_inv {h : Hotel} (hi : Inv h) {last : Action}
    {stack : List Action} (hs : h.bookingHistory = last :: stack) :
    ∃ pre key rt post, h.roomTypes = pre ++ (key, rt) :: post ∧
      mapFind last.roomNumber rt.guests = some last.guestName ∧
      last.roomNumber ∈ rt.allRoomNumbers ∧
      last.roomNumber ∉ rt.availableRoomNumbers ∧
      undoLastBooking h =
        (.undone, undoCommit h last stack (pre ++ (key, rt.release last.roomNumber) :: post)) := by
  obtain ⟨pre, key, rt, post, e1, hfind, hall, hnot, hrel⟩ := hi.release_top hs
  refine ⟨pre, key, rt, post, e1, hfind, hall, hnot, ?_⟩
  unfold undoLastBooking
  rw [hs]
  simp only [hrel]

theorem occupy_release {rt : RoomType} (hw : TypeWF rt) (hn : rt.allRoomNumbers.Nodup)
    {room : Int} (g : String) (hr : room ∈ rt.availableRoomNumbers) :
    (rt.occupy room g).release room =
      { rt with availableRoomNumbers := rt.availableRoomNumbers.erase room ++ [room] } := by
  have hnk : room ∉ mapKeys rt.guests := fun h2 => hw.not_both hn hr h2
  have hav : rt.availableRoomNumbers.Nodup :=
    (List.nodup_append.1 (hw.nodup_append hn)).1
  have hne : room ∉ rt.availableRoomNumbers.erase room := fun hm =>
    ((List.Nodup.mem_erase_iff hav).1 hm).1 rfl
  unfold RoomType.release
  rw [if_neg (by exact hne)]
  show RoomType.mk _ _ _ _ _ _ _ _ = RoomType.mk _ _ _ _ _ _ _ _
  congr 1
  · show rt.availableRooms - 1 + 1 = rt.availableRooms
    ring
  · exact mapErase_mapSet g hnk

theorem lastMatchingReservation_concat (a : Action) (ledger : List Reservation)
    (r : Reservation) (h1 : r.guestName = a.guestName) (h2 : r.roomNumber = a.roomNumber)
    (h3 : r.stayDate = a.date) :
    eraseFound (lastMatchingReservation a (ledger ++ [r])) (ledger ++ [r]) = ledger := by
  unfold lastMatchingReservation
  refine eraseFound_last r (by simp) ?_
  simp [h1, h2, h3]

/-- On a consistent hotel, undoing right after a completed reservation gives
back the state before the reservation in every index but three: in the free
list of the type the room has moved from the front to the back, the revenue is
floored at zero, and the per-date map `reservations` is not compared. -/
theorem reserve_undo_fields {s : Hotel} (hi : Inv s) {pre post : List (String × RoomType)}
    {key : String} {rt : RoomType} (e : s.roomTypes = pre ++ (key, rt) :: post)
    {room : Int} {rest : List Int} (hfree : rt.availableRoomNumbers = room :: rest)
    (g d : String) (t n : Int) :
    ∃ s2, undoLastBooking (reservedState s pre post key rt room g d t n) = (.undone, s2) ∧
      s2.roomTypes = pre ++
        (key, { rt with availableRoomNumbers := rest ++ [room] }) :: post ∧
      s2.occupiedRoomsRoot = s.occupiedRoomsRoot ∧
      s2.guestToRooms = s.guestToRooms ∧
      s2.guestHistory = s.guestHistory ∧
      s2.people = s.people ∧
      s2.roomsnums = s.roomsnums ∧
      s2.reservationsForDay = s.reservationsForDay ∧
      s2.bookingHistory = s.bookingHistory ∧
      s2.totalRevenue = max s.totalRevenue 0 := by
  have hmem : (key, rt) ∈ s.roomTypes := by
    rw [e]
    simp
  have hroom : room ∈ rt.availableRoomNumbers := by
    rw [hfree]
    exact List.mem_cons_self _ _
  have hwf := hi.types_wf _ hmem
  have hnd := catalog_nodup hi.catalog_eq hmem
  have hall : room ∈ rt.allRoomNumbers := hwf.avail_subset hroom
  have hrel : releaseRoomTypes room (pre ++ (key, rt.occupy room g) :: post) =
      some (pre ++ (key, (rt.occupy room g).release room) :: post) :=
    releaseRoomTypes_at (fun p hp => ((hi.others_lack e hall).1 p hp).1) hall
  have hfreeocc : room ∉ occupiedRooms s.roomTypes :=
    free_not_occupied hi.catalog_eq hi.types_wf hmem hroom
  have hnotstack : room ∉ s.bookingHistory.map fun a => a.roomNumber := by
    intro hm
    apply hfreeocc
    have := (hi.stack_perm.map Prod.fst).mem_iff (a := room)
    rw [List.map_map] at this
    exact this.1 hm
  refine ⟨undoCommit (reservedState s pre post key rt room g d t n)
    { guestName := g, date := d, roomNumber := room, nights := n,
      pricePerNight := rt.pricePerNight, totalCost := rt.pricePerNight * (n : ℚ) }
    s.bookingHistory (pre ++ (key, (rt.occupy room g).release room) :: post),
    ?_, ?_, ?_, ?_, ?_, ?_, ?_, ?_, rfl, ?_⟩
  · unfold undoLastBooking
    simp only [reservedState, hrel]
  · show pre ++ (key, (rt.occupy room g).release room) :: post = _
    rw [occupy_release hwf hnd g hroom, hfree, List.erase_cons_head]
  · show removeRoomFromTree (insertRoomInTree s.occupiedRoomsRoot room) room = _
    exact removeRoomFromTree_insertRoomInTree _ _ (fun hm => hfreeocc ((hi.tree_mem room).1 hm))
  · show (match mapFind g (mapSet g (((mapFind g s.guestToRooms).getD []) ++ [room])
        s.guestToRooms) with
      | none => mapSet g (((mapFind g s.guestToRooms).getD []) ++ [room]) s.guestToRooms
      | some vec =>
        if (vec.filter fun r => decide (r ≠ room)) = [] then
          mapErase g (mapSet g (((mapFind g s.guestToRooms).getD []) ++ [room])
            s.guestToRooms)
        else mapSet g (vec.filter fun r => decide (r ≠ room))
          (mapSet g (((mapFind g s.guestToRooms).getD []) ++ [room]) s.guestToRooms)) = _
    rw [mapFind_mapSet_self]
    have hgi := hi.guest_index g
    have hL : (mapFind g s.guestToRooms).getD [] = roomsOf g s.bookingHistory := by
      rw [hgi, getD_roomsOf]
    have hfilter : ((roomsOf g s.bookingHistory ++ [room]).filter
        fun r => decide (r ≠ room)) = roomsOf g s.bookingHistory := by
      rw [List.filter_append, filter_ne_of_all_ne]
      · simp
      · intro r hr e'
        exact hnotstack (e' ▸ mem_roomsOf hr)
    simp only [hL, hfilter]
    by_cases hnil : roomsOf g s.bookingHistory = []
    · rw [if_pos hnil]
      rw [hnil, if_pos rfl] at hgi
      exact mapErase_mapSet _ ((mapFind_eq_none_iff _ _).1 hgi)
    · rw [if_neg hnil, mapSet_mapSet]
      rw [if_neg hnil] at hgi
      exact mapSet_of_find hi.guest_sorted hgi
  · show eraseFound (findLastIndex (fun i => decide ((s.guestHistory ++ [g]).get? i = some g))
      (s.guestHistory ++ [g]).length) (s.guestHistory ++ [g]) = _
    exact eraseFound_last g (by simp) (by simp)
  · show eraseFound (findLastIndex (fun i => decide ((s.people ++ [g]).get? i = some g ∧
      (s.roomsnums ++ [room]).get? i = some room)) (s.people ++ [g]).length)
      (s.people ++ [g]) = _
    have hlen : s.people.length = s.roomsnums.length := by
      rw [hi.people_eq, hi.roomsnums_eq]
      simp
    refine eraseFound_last g (by simp) ?_
    simp only [decide_eq_true_eq]
    refine ⟨get?_length_concat _ _, ?_⟩
    rw [hlen]
    exact get?_length_concat _ _
  · show eraseFound (findLastIndex (fun i => decide ((s.people ++ [g]).get? i = some g ∧
      (s.roomsnums ++ [room]).get? i = some room)) (s.people ++ [g]).length)
      (s.roomsnums ++ [room]) = _
    have hlen : s.people.length = s.roomsnums.length := by
      rw [hi.people_eq, hi.roomsnums_eq]
      simp
    refine eraseFound_last room (by simp [hlen]) ?_
    simp only [decide_eq_true_eq]
    refine ⟨?_, get?_length_concat _ _⟩
    rw [← hlen]
    exact get?_length_concat _ _
  · show eraseFound (lastMatchingReservation _ (s.reservationsForDay ++ [_]))
      (s.reservationsForDay ++ [_]) = _
    exact lastMatchingReservation_concat _ _ _ rfl rfl rfl
  · show (if s.totalRevenue + rt.pricePerNight * (n : ℚ) - rt.pricePerNight * (n : ℚ) < 0
      then 0 else s.totalRevenue + rt.pricePerNight * (n : ℚ) - rt.pricePerNight * (n : ℚ)) = _
    rw [add_sub_cancel_right]
    by_cases hneg : s.totalRevenue < 0
    · rw [if_pos hneg, max_eq_right (le_of_lt hneg)]
    · rw [if_neg hneg, max_eq_left (not_lt.1 hneg)]

theorem occupied_with_avail (pre post : List (String × RoomType)) (key : String)
    (rt : RoomType) (l : List Int) :
    occupied (pre ++ (key, { rt with availableRoomNumbers := l }) :: post) =
      occupied (pre ++ (key, rt) :: post) := by
  rw [occupied_replace, occupied_replace]

/-- After an undo on a consistent hotel the room of the undone action is free. -/
theorem undo_room_free {h : Hotel} (hi : Inv h) {last : Action} {stack : List Action}
    (hs : h.bookingHistory = last :: stack) :
    isFree (undoLastBooking h).2 last.roomNumber ∧
      (occupied h.roomTypes).Perm
        ((last.roomNumber, last.guestName) :: occupied (undoLastBooking h).2.roomTypes) ∧
      (undoLastBooking h).1 = UndoOutcome.undone ∧
      (undoLastBooking h).2.bookingHistory = stack ∧
      (undoLastBooking h).2.reservationsForDay =
        eraseFound (lastMatchingReservation last h.reservationsForDay) h.reservationsForDay := by
  have hi' := hi.undo
  obtain ⟨pre, key, rt, post, e, hfind, hall, hnot, hundo⟩ := undoLastBooking_of_inv hi hs
  rw [hundo] at hi' ⊢
  have hfree : last.roomNumber ∈ (rt.release last.roomNumber).availableRoomNumbers := by
    unfold RoomType.release
    rw [if_neg hnot]
    show last.roomNumber ∈ rt.availableRoomNumbers ++ [last.roomNumber]
    simp
  have hmem : (key, rt.release last.roomNumber) ∈
      pre ++ (key, rt.release last.roomNumber) :: post := by simp
  refine ⟨⟨⟨_, hmem, hfree⟩, ?_⟩, ?_, rfl, rfl, rfl⟩
  · exact free_not_occupied hi'.catalog_eq hi'.types_wf hmem hfree
  · rw [e]
    exact occupied_release_perm hfind

/-! ## Sample states are reachable -/

theorem reachable_hilton : Reachable hilton :=
  Reachable.init 122

theorem reachable_afterAlice : Reachable afterAlice :=
  Reachable.reserve 1 "Alice" "07-01-2025" "07-01-2025" 15 2 reachable_hilton

theorem reachable_afterAliceBob : Reachable afterAliceBob :=
  Reachable.reserve 2 "Bob" "07-01-2025" "07-01-2025" 12 1 reachable_afterAlice

/-! ## Availability invariants (C1, C2) and the tree of occupied rooms (C10) -/

/-- C1: in every state reachable from a freshly constructed `HiltonHotel` by
`reserveRoom`, `undoLastBooking` and `loadFromFile` calls, for every room type
the counter `availableRooms` plus the number of entries of the type's `guests`
map equals the type's `totalRooms`. -/
theorem C1_available_plus_occupied_eq_total (h : Hotel) (hr : Reachable h) :
    ∀ p ∈ h.roomTypes,
      p.2.availableRooms + (p.2.guests.length : Int) = p.2.totalRooms := by
  intro p hp
  have hi := hr.inv
  have hw := hi.types_wf p hp
  have hl := hw.perm.length_eq
  rw [List.length_append] at hl
  have hk : (mapKeys p.2.guests).length = p.2.guests.length := by simp [mapKeys]
  rw [hw.count, catalog_total hi.catalog_eq hp, ← hl, hk]
  push_cast
  ring

/-- Witness for C1: the state after Alice's and Bob's bookings is reachable, and
the count identity holds there. -/
theorem C1_available_plus_occupied_eq_total_witness :
    Reachable afterAliceBob ∧
      ∀ p ∈ afterAliceBob.roomTypes,
        p.2.availableRooms + (p.2.guests.length : Int) = p.2.totalRooms :=
  ⟨reachable_afterAliceBob,
    C1_available_plus_occupied_eq_total afterAliceBob reachable_afterAliceBob⟩

/-- C2: in every reachable state, every room number of a room type's
`allRoomNumbers` is in exactly one of the two sets "available" (it occurs in the
type's `availableRoomNumbers`) and "occupied" (it is a key of the type's
`guests` map): in at least one, and never in both. -/
theorem C2_available_xor_occupied (h : Hotel) (hr : Reachable h) :
    ∀ p ∈ h.roomTypes, ∀ r ∈ p.2.allRoomNumbers,
      (r ∈ p.2.availableRoomNumbers ∨ r ∈ mapKeys p.2.guests) ∧
        ¬ (r ∈ p.2.availableRoomNumbers ∧ r ∈ mapKeys p.2.guests) := by
  intro p hp r hrm
  have hi := hr.inv
  have hw := hi.types_wf p hp
  refine ⟨?_, fun hb => hw.not_both (catalog_nodup hi.catalog_eq hp) hb.1 hb.2⟩
  exact List.mem_append.1 (hw.perm.mem_iff.2 hrm)

/-- Witness for C2: the state after Alice's and Bob's bookings. -/
theorem C2_available_xor_occupied_witness :
    Reachable afterAliceBob ∧
      ∀ p ∈ afterAliceBob.roomTypes, ∀ r ∈ p.2.allRoomNumbers,
        (r ∈ p.2.availableRoomNumbers ∨ r ∈ mapKeys p.2.guests) ∧
          ¬ (r ∈ p.2.availableRoomNumbers ∧ r ∈ mapKeys p.2.guests) :=
  ⟨reachable_afterAliceBob, C2_available_xor_occupied afterAliceBob reachable_afterAliceBob⟩

/-- C10: in every reachable state, the in-order traversal of the tree of
occupied rooms (what `displayOccupiedRoomsInOrder` prints) is strictly ascending
and is a rearrangement of the occupied room numbers, i.e. of the keys of all
room types' `guests` maps: it lists exactly those numbers, each once. -/
theorem C10_inorder_ascending_occupied (h : Hotel) (hr : Reachable h) :
    (inorder h.occupiedRoomsRoot).Sorted (· < ·) ∧
      (inorder h.occupiedRoomsRoot).Perm (occupiedRooms h.roomTypes) ∧
      (inorder h.occupiedRoomsRoot).Nodup := by
  have hi := hr.inv
  refine ⟨hi.tree_sorted, ?_, hi.tree_sorted.nodup⟩
  exact (List.perm_ext_iff_of_nodup hi.tree_sorted.nodup
    (occupiedRooms_nodup hi.catalog_eq hi.types_wf)).2 hi.tree_mem

/-- Witness for C10: after Alice's and Bob's bookings the tree lists 236, 301. -/
theorem C10_inorder_ascending_occupied_witness :
    Reachable afterAliceBob ∧ inorder afterAliceBob.occupiedRoomsRoot = [236, 301] ∧
      (inorder afterAliceBob.occupiedRoomsRoot).Sorted (· < ·) ∧
      (inorder afterAliceBob.occupiedRoomsRoot).Perm (occupiedRooms afterAliceBob.roomTypes) ∧
      (inorder afterAliceBob.occupiedRoomsRoot).Nodup :=
  ⟨reachable_afterAliceBob, by decide!,
    C10_inorder_ascending_occupied afterAliceBob reachable_afterAliceBob⟩

/-! ## Reserve then undo (C3) -/

/-- Counterexample to C3 as stated: from a state whose revenue is -5 (loaded from
a file), reserving and undoing ends with revenue 0, not -5. -/
theorem C3_counterexample :
    Reachable negativeRevenueState ∧
      (reserveRoom negativeRevenueState 1 "Alice" "07-01-2025" "07-01-2025" 15 2).1 =
        ReserveOutcome.complete ∧
      negativeRevenueState.totalRevenue = -5 ∧
      (undoLastBooking
        (reserveRoom negativeRevenueState 1 "Alice" "07-01-2025" "07-01-2025" 15 2).2).2.totalRevenue
        = 0 ∧
      (undoLastBooking
        (reserveRoom negativeRevenueState 1 "Alice" "07-01-2025" "07-01-2025" 15 2).2).2.totalRevenue
        ≠ negativeRevenueState.totalRevenue :=
  ⟨Reachable.load "07-01-2025" (some "TOTAL_REVENUE=-5") reachable_hilton,
    by decide!, by decide!, by decide!, by decide!⟩

/-- C3 (amended): for every reachable state `s` and every `reserveRoom` call that
completes in `s`, an `undoLastBooking` right afterwards succeeds and yields a
state whose per-type `availableRooms` counts, tree of occupied rooms (the tree
itself, hence its in-order sequence), `guestToRooms` index and `guestHistory`
sequence are exactly those of `s`, and whose `totalRevenue` is
`max s.totalRevenue 0`: the value in `s` when that is not negative, and `0`
otherwise, because the undo floors the revenue at zero. -/
theorem C3_reserve_undo_roundtrip (s : Hotel) (hs : Reachable s) (option : Int)
    (guestName startDate endDate : String) (startTime durationDays : Int)
    (hok : (reserveRoom s option guestName startDate endDate startTime durationDays).1 =
      ReserveOutcome.complete) :
    (undoLastBooking
      (reserveRoom s option guestName startDate endDate startTime durationDays).2).1 =
        UndoOutcome.undone ∧
    (undoLastBooking
      (reserveRoom s option guestName startDate endDate startTime durationDays).2).2.roomTypes.map
        (fun p => (p.1, p.2.availableRooms)) =
      s.roomTypes.map (fun p => (p.1, p.2.availableRooms)) ∧
    (undoLastBooking
      (reserveRoom s option guestName startDate endDate startTime durationDays).2).2.occupiedRoomsRoot
        = s.occupiedRoomsRoot ∧
    inorder (undoLastBooking
      (reserveRoom s option guestName startDate endDate startTime durationDays).2).2.occupiedRoomsRoot
        = inorder s.occupiedRoomsRoot ∧
    (undoLastBooking
      (reserveRoom s option guestName startDate endDate startTime durationDays).2).2.guestToRooms
        = s.guestToRooms ∧
    (undoLastBooking
      (reserveRoom s option guestName startDate endDate startTime durationDays).2).2.guestHistory
        = s.guestHistory ∧
    (undoLastBooking
      (reserveRoom s option guestName startDate endDate startTime durationDays).2).2.totalRevenue
        = max s.totalRevenue 0 := by
  have hi := hs.inv
  obtain ⟨pre, key, rt, post, room, rest, e, _, _, hfree, hres⟩ := reserveRoom_of_complete hi hok
  obtain ⟨s2, hundo, h1, h2, h3, h4, _, _, _, _, h5⟩ :=
    reserve_undo_fields hi e hfree guestName startDate startTime durationDays
  rw [hres]
  simp only [hundo]
  refine ⟨trivial, ?_, h2, by rw [h2], h3, h4, h5⟩
  rw [h1, e]
  simp

/-- Witness for C3: Bob's Penthouse booking after Alice's, then undone. -/
theorem C3_reserve_undo_roundtrip_witness :
    Reachable afterAlice ∧
      (reserveRoom afterAlice 2 "Bob" "07-01-2025" "07-01-2025" 12 1).1 =
        ReserveOutcome.complete ∧
      (undoLastBooking (reserveRoom afterAlice 2 "Bob" "07-01-2025" "07-01-2025" 12 1).2).2.guestHistory
        = afterAlice.guestHistory ∧
      (undoLastBooking (reserveRoom afterAlice 2 "Bob" "07-01-2025" "07-01-2025" 12 1).2).2.totalRevenue
        = max afterAlice.totalRevenue 0 :=
  have h := C3_reserve_undo_roundtrip afterAlice reachable_afterAlice 2 "Bob" "07-01-2025"
    "07-01-2025" 12 1 (by decide!)
  ⟨reachable_afterAlice, by decide!, h.2.2.2.2.2.1, h.2.2.2.2.2.2⟩

/-- The scenario of the specification: after Alice's booking of a Deluxe Suite is
undone, no room is occupied, the tree is empty, and the Deluxe Suite counter is
back at 15. -/
theorem alice_undo_scenario :
    (undoLastBooking afterAlice).1 = UndoOutcome.undone ∧
      occupied afterAliceUndo.roomTypes = [] ∧
      inorder afterAliceUndo.occupiedRoomsRoot = [] ∧
      (afterAliceUndo.roomTypes.head?.map fun p => (p.1, p.2.availableRooms)) =
        some ("Deluxe Suite", 15) ∧
      afterAliceUndo.totalRevenue = 0 ∧ afterAliceUndo.reservationsForDay = [] :=
  ⟨by decide!, by decide!, by decide!, by decide!, by decide!, by decide!⟩

/-! ## The effect of a reservation (C5) -/

/-- C5: in every reachable state, `reserveRoom` completes if and only if the
option is between 1 and the number of room types and the type at that position
(in name order: "Deluxe Suite", "Penthouse", "Standard Room, Scenic",
"Standard Rooms, Courtyard") has a free room; the "Failed to reserve room"
branch is never taken; and when the selected type `(key, rt)` has the free list
`f :: rest`, the call enters the guest under room `f` in that type's `guests`
map, leaves `rest` as its free list, appends exactly one `Reservation` with the
given guest, room `f`, type name, date, nights, hour, the type's price and
`totalCost = pricePerNight * nights`, pushes the matching undo `Action` and adds
`totalCost` to `totalRevenue`. From the fresh hotel, option 1 for Alice with 2
nights books room 236 at a total cost of 700. -/
theorem C5_reserveRoom_effect :
    (∀ h : Hotel, Reachable h → ∀ (option : Int) (guest date endDate : String)
        (hour nights : Int),
      mapKeys h.roomTypes =
        ["Deluxe Suite", "Penthouse", "Standard Room, Scenic", "Standard Rooms, Courtyard"] ∧
      ((reserveRoom h option guest date endDate hour nights).1 = ReserveOutcome.complete ↔
        1 ≤ option ∧ option ≤ (h.roomTypes.length : Int) ∧
          ∃ p, h.roomTypes.get? (option - 1).toNat = some p ∧
            p.2.availableRoomNumbers ≠ []) ∧
      (reserveRoom h option guest date endDate hour nights).1 ≠ ReserveOutcome.failed ∧
      ∀ (key : String) (rt : RoomType) (f : Int) (rest : List Int), 1 ≤ option →
        h.roomTypes.get? (option - 1).toNat = some (key, rt) →
        rt.availableRoomNumbers = f :: rest →
        (reserveRoom h option guest date endDate hour nights).1 = ReserveOutcome.complete ∧
        (∃ rt', (reserveRoom h option guest date endDate hour nights).2.roomTypes.get?
            (option - 1).toNat = some (key, rt') ∧
          mapFind f rt'.guests = some guest ∧ rt'.availableRoomNumbers = rest ∧
          rt'.availableRooms = rt.availableRooms - 1) ∧
        (reserveRoom h option guest date endDate hour nights).2.reservationsForDay =
          h.reservationsForDay ++
            [{ guestName := guest, roomNumber := f, roomType := key, stayDate := date,
               nights := nights, checkInHour := hour, pricePerNight := rt.pricePerNight,
               totalCost := rt.pricePerNight * (nights : ℚ) }] ∧
        (reserveRoom h option guest date endDate hour nights).2.bookingHistory =
          { guestName := guest, date := date, roomNumber := f, nights := nights,
            pricePerNight := rt.pricePerNight,
            totalCost := rt.pricePerNight * (nights : ℚ) } :: h.bookingHistory ∧
        (reserveRoom h option guest date endDate hour nights).2.totalRevenue =
          h.totalRevenue + rt.pricePerNight * (nights : ℚ)) ∧
    ((reserveRoom hilton 1 "Alice" "07-01-2025" "07-01-2025" 15 2).1 =
        ReserveOutcome.complete ∧
      (reserveRoom hilton 1 "Alice" "07-01-2025" "07-01-2025" 15 2).2.reservationsForDay =
        [{ guestName := "Alice", roomNumber := 236, roomType := "Deluxe Suite",
           stayDate := "07-01-2025", nights := 2, checkInHour := 15, pricePerNight := 350,
           totalCost := 700 }] ∧
      (reserveRoom hilton 1 "Alice" "07-01-2025" "07-01-2025" 15 2).2.bookingHistory =
        [{ guestName := "Alice", date := "07-01-2025", roomNumber := 236, nights := 2,
           pricePerNight := 350, totalCost := 700 }] ∧
      (reserveRoom hilton 1 "Alice" "07-01-2025" "07-01-2025" 15 2).2.totalRevenue = 700 ∧
      occupied (reserveRoom hilton 1 "Alice" "07-01-2025" "07-01-2025" 15 2).2.roomTypes =
        [(236, "Alice")]) := by
  refine ⟨?_, by decide!, by decide!, by decide!, by decide!, by decide!⟩
  intro h hr option guest date endDate hour nights
  have hi := hr.inv
  have hspec : ∀ (key : String) (rt : RoomType) (f : Int) (rest : List Int), 1 ≤ option →
      h.roomTypes.get? (option - 1).toNat = some (key, rt) →
      rt.availableRoomNumbers = f :: rest →
      ∃ pre post, reserveRoom h option guest date endDate hour nights =
        (.complete, reservedState h pre post key rt f guest date hour nights) ∧
        (option - 1).toNat = pre.length := by
    intro key rt f rest h1 hget hfree
    obtain ⟨pre, post, e, hlen⟩ := get?_split hget
    exact ⟨pre, post, reserveRoom_complete hi e hlen.symm h1 hfree _ _ _ _ _, hlen.symm⟩
  refine ⟨?_, ?_, ?_, ?_⟩
  · have hk := hiltonCatalog_keys
    rw [← hi.catalog_eq] at hk
    simpa [catalog, mapKeys, staticOf, List.map_map, Function.comp_def] using hk
  · constructor
    · intro hok
      obtain ⟨pre, key, rt, post, room, rest, e, hlen, h1, hfree, _⟩ :=
        reserveRoom_of_complete hi hok
      refine ⟨h1, ?_, (key, rt), ?_, ?_⟩
      · rw [e]
        simp only [List.length_append, List.length_cons]
        omega
      · rw [hlen, e]
        exact get?_of_split _ _ _
      · rw [hfree]
        exact List.cons_ne_nil _ _
    · rintro ⟨h1, h2, p, hget, hne⟩
      obtain ⟨key, rt⟩ := p
      cases hfree : rt.availableRoomNumbers with
      | nil => exact absurd hfree hne
      | cons f rest =>
        obtain ⟨pre, post, hres, _⟩ := hspec key rt f rest h1 hget hfree
        rw [hres]
  · by_cases hopt : option < 1 ∨ option > (h.roomTypes.length : Int)
    · rw [reserveRoom_invalid hopt]
      simp
    · obtain ⟨key, rt, hget⟩ := get?_isSome_of_valid hopt
      cases hfree : rt.availableRoomNumbers with
      | nil =>
        rw [reserveRoom_exhausted hopt hget hfree]
        simp
      | cons f rest =>
        obtain ⟨pre, post, hres, _⟩ := hspec key rt f rest (by omega) hget hfree
        rw [hres]
        simp
  · intro key rt f rest h1 hget hfree
    obtain ⟨pre, post, hres, hlen⟩ := hspec key rt f rest h1 hget hfree
    rw [hres]
    refine ⟨rfl, ⟨rt.occupy f guest, ?_, ?_, ?_, rfl⟩, rfl, rfl, rfl⟩
    · rw [hlen]
      exact get?_of_split _ _ _
    · exact mapFind_mapSet_self _ _ _
    · show rt.availableRoomNumbers.erase f = rest
      rw [hfree, List.erase_cons_head]

/-- Witness for C5: the general statement applied to the state after Alice's
booking, for Carol taking option 2 (the Penthouse, free list 301, 302). -/
theorem C5_reserveRoom_effect_witness :
    Reachable afterAlice ∧ (1 : Int) ≤ 2 ∧
      afterAlice.roomTypes.get? ((2 : Int) - 1).toNat =
        some ("Penthouse", seedRoomType "Penthouse" 2 2 1135 "301 and 302" [301, 302]) ∧
      (seedRoomType "Penthouse" 2 2 1135 "301 and 302" [301, 302]).availableRoomNumbers =
        301 :: [302] ∧
      (reserveRoom afterAlice 2 "Carol" "07-02-2025" "07-02-2025" 9 3).1 =
        ReserveOutcome.complete ∧
      (reserveRoom afterAlice 2 "Carol" "07-02-2025" "07-02-2025" 9 3).2.totalRevenue =
        afterAlice.totalRevenue +
          (seedRoomType "Penthouse" 2 2 1135 "301 and 302" [301, 302]).pricePerNight *
            ((3 : Int) : ℚ) :=
  have hget : afterAlice.roomTypes.get? ((2 : Int) - 1).toNat =
      some ("Penthouse", seedRoomType "Penthouse" 2 2 1135 "301 and 302" [301, 302]) := by
    decide!
  have hfree : (seedRoomType "Penthouse" 2 2 1135 "301 and 302"
      [301, 302]).availableRoomNumbers = 301 :: [302] := rfl
  have h := (C5_reserveRoom_effect.1 afterAlice reachable_afterAlice 2 "Carol" "07-02-2025"
    "07-02-2025" 9 3).2.2.2 "Penthouse" _ 301 [302] (by decide) hget hfree
  ⟨reachable_afterAlice, by decide, hget, hfree, h.1, h.2.2.2.2⟩

/-! ## Undo is last-in-first-out (C4) -/

/-- C4: undo is LIFO. For every reachable state `s` and two completed
`reserveRoom` calls, A (giving `s1`) then B (giving `s2`), with undo actions
`actA`, `actB` and ledger entries `resA`, `resB`: the first `undoLastBooking`
frees exactly B's room (the occupied entries are again those of `s1`) and
removes B's reservation, while A's room stays occupied by A's guest and A's
reservation stays in the ledger; a second `undoLastBooking` then frees A's room
and removes A's reservation, leaving the ledger and the undo stack of `s`. -/
theorem C4_undo_lifo (s s1 s2 : Hotel) (hs : Reachable s)
    (optA : Int) (guestA dateA endA : String) (hourA nightsA : Int)
    (optB : Int) (guestB dateB endB : String) (hourB nightsB : Int)
    (hA : reserveRoom s optA guestA dateA endA hourA nightsA = (ReserveOutcome.complete, s1))
    (hB : reserveRoom s1 optB guestB dateB endB hourB nightsB =
      (ReserveOutcome.complete, s2)) :
    ∃ (actA actB : Action) (resA resB : Reservation),
      s1.bookingHistory = actA :: s.bookingHistory ∧
      s1.reservationsForDay = s.reservationsForDay ++ [resA] ∧
      s2.bookingHistory = actB :: actA :: s.bookingHistory ∧
      s2.reservationsForDay = s.reservationsForDay ++ [resA, resB] ∧
      actA.guestName = guestA ∧ resA.guestName = guestA ∧
      resA.roomNumber = actA.roomNumber ∧
      actB.guestName = guestB ∧ resB.guestName = guestB ∧
      resB.roomNumber = actB.roomNumber ∧
      occupiedBy s2 actA.roomNumber guestA ∧ occupiedBy s2 actB.roomNumber guestB ∧
      (undoLastBooking s2).1 = UndoOutcome.undone ∧
      isFree (undoLastBooking s2).2 actB.roomNumber ∧
      occupied (undoLastBooking s2).2.roomTypes = occupied s1.roomTypes ∧
      occupiedBy (undoLastBooking s2).2 actA.roomNumber guestA ∧
      (undoLastBooking s2).2.reservationsForDay = s.reservationsForDay ++ [resA] ∧
      (undoLastBooking s2).2.bookingHistory = actA :: s.bookingHistory ∧
      (undoLastBooking (undoLastBooking s2).2).1 = UndoOutcome.undone ∧
      isFree (undoLastBooking (undoLastBooking s2).2).2 actA.roomNumber ∧
      (occupied (undoLastBooking (undoLastBooking s2).2).2.roomTypes).Perm
        (occupied s.roomTypes) ∧
      (undoLastBooking (undoLastBooking s2).2).2.reservationsForDay = s.reservationsForDay ∧
      (undoLastBooking (undoLastBooking s2).2).2.bookingHistory = s.bookingHistory := by
  have hi := hs.inv
  have hokA : (reserveRoom s optA guestA dateA endA hourA nightsA).1 =
      ReserveOutcome.complete := by rw [hA]
  obtain ⟨preA, keyA, rtA, postA, roomA, restA, eA, _, _, hfreeA, hresA⟩ :=
    reserveRoom_of_complete hi hokA
  have e1 : s1 = reservedState s preA postA keyA rtA roomA guestA dateA hourA nightsA := by
    rw [hA] at hresA
    exact (Prod.mk.inj hresA).2
  have hi1 : Inv s1 := by
    have := hi.reserve optA guestA dateA endA hourA nightsA
    rw [hA] at this
    exact this
  have hokB : (reserveRoom s1 optB guestB dateB endB hourB nightsB).1 =
      ReserveOutcome.complete := by rw [hB]
  obtain ⟨preB, keyB, rtB, postB, roomB, restB, eB, _, _, hfreeB, hresB⟩ :=
    reserveRoom_of_complete hi1 hokB
  have e2 : s2 = reservedState s1 preB postB keyB rtB roomB guestB dateB hourB nightsB := by
    rw [hB] at hresB
    exact (Prod.mk.inj hresB).2
  have hi2 : Inv s2 := by
    have := hi1.reserve optB guestB dateB endB hourB nightsB
    rw [hB] at this
    exact this
  have hmemA : (keyA, rtA) ∈ s.roomTypes := by
    rw [eA]
    simp
  have hmemB : (keyB, rtB) ∈ s1.roomTypes := by
    rw [eB]
    simp
  have hroomA : roomA ∈ rtA.availableRoomNumbers := by
    rw [hfreeA]
    exact List.mem_cons_self _ _
  have hroomB : roomB ∈ rtB.availableRoomNumbers := by
    rw [hfreeB]
    exact List.mem_cons_self _ _
  have hnkA : roomA ∉ mapKeys rtA.guests := fun h2 =>
    (hi.types_wf _ hmemA).not_both (catalog_nodup hi.catalog_eq hmemA) hroomA h2
  have hnkB : roomB ∉ mapKeys rtB.guests := fun h2 =>
    (hi1.types_wf _ hmemB).not_both (catalog_nodup hi1.catalog_eq hmemB) hroomB h2
  have hocc1 : (occupied s1.roomTypes).Perm ((roomA, guestA) :: occupied s.roomTypes) := by
    rw [e1, eA]
    exact occupied_occupy_perm guestA hnkA
  have hocc2 : (occupied s2.roomTypes).Perm ((roomB, guestB) :: occupied s1.roomTypes) := by
    rw [e2, eB]
    exact occupied_occupy_perm guestB hnkB
  obtain ⟨s3, hundo, h3types, _, _, _, _, _, h3ledger, h3stack, _⟩ :=
    reserve_undo_fields hi1 eB hfreeB guestB dateB hourB nightsB
  rw [← e2] at hundo
  have hs1stack : s1.bookingHistory =
      { guestName := guestA, date := dateA, roomNumber := roomA, nights := nightsA,
        pricePerNight := rtA.pricePerNight,
        totalCost := rtA.pricePerNight * (nightsA : ℚ) } :: s.bookingHistory := by
    rw [e1]
    rfl
  have hs1ledger : s1.reservationsForDay = s.reservationsForDay ++
      [{ guestName := guestA, roomNumber := roomA, roomType := keyA, stayDate := dateA,
         nights := nightsA, checkInHour := hourA, pricePerNight := rtA.pricePerNight,
         totalCost := rtA.pricePerNight * (nightsA : ℚ) }] := by
    rw [e1]
    rfl
  have hocc3 : occupied s3.roomTypes = occupied s1.roomTypes := by
    rw [h3types, eB]
    exact occupied_with_avail _ _ _ _ _
  have hi3 : Inv s3 := by
    have := hi2.undo
    rw [hundo] at this
    exact this
  have hs3stack : s3.bookingHistory =
      { guestName := guestA, date := dateA, roomNumber := roomA, nights := nightsA,
        pricePerNight := rtA.pricePerNight,
        totalCost := rtA.pricePerNight * (nightsA : ℚ) } :: s.bookingHistory := by
    rw [h3stack, hs1stack]
  obtain ⟨hfree4, hperm4, hout4, hstack4, hledger4⟩ := undo_room_free hi3 hs3stack
  refine ⟨_,
    Action.mk guestB dateB roomB nightsB rtB.pricePerNight
      (rtB.pricePerNight * (nightsB : ℚ)),
    _,
    Reservation.mk guestB roomB keyB dateB nightsB hourB rtB.pricePerNight
      (rtB.pricePerNight * (nightsB : ℚ)),
    hs1stack, hs1ledger, ?_, ?_, rfl, rfl, rfl, rfl, rfl, rfl, ?_, ?_, ?_⟩
  · rw [e2, ← hs1stack]
    rfl
  · rw [e2]
    show s1.reservationsForDay ++ [_] = _
    rw [hs1ledger]
    simp
  · exact hocc2.symm.subset
      (List.mem_cons_of_mem _ (hocc1.symm.subset (List.mem_cons_self _ _)))
  · exact hocc2.symm.subset (List.mem_cons_self _ _)
  · rw [hundo]
    refine ⟨rfl, ?_, hocc3, ?_, ?_, hs3stack, hout4, hfree4, ?_, ?_, hstack4⟩
    · refine ⟨⟨(keyB, { rtB with availableRoomNumbers := restB ++ [roomB] }), ?_, ?_⟩, ?_⟩
      · show _ ∈ s3.roomTypes
        rw [h3types]
        simp
      · show roomB ∈ restB ++ [roomB]
        simp
      · show roomB ∉ occupiedRooms s3.roomTypes
        unfold occupiedRooms
        rw [hocc3]
        exact free_not_occupied hi1.catalog_eq hi1.types_wf hmemB hroomB
    · show (roomA, guestA) ∈ occupied s3.roomTypes
      rw [hocc3]
      exact hocc1.symm.subset (List.mem_cons_self _ _)
    · show s3.reservationsForDay = _
      rw [h3ledger, hs1ledger]
    · show (occupied (undoLastBooking s3).2.roomTypes).Perm (occupied s.roomTypes)
      rw [hocc3] at hperm4
      exact ((hperm4.symm.trans hocc1).cons_inv)
    · show (undoLastBooking s3).2.reservationsForDay = s.reservationsForDay
      rw [hledger4, h3ledger, hs1ledger]
      exact lastMatchingReservation_concat _ _ _ rfl rfl rfl

/-- Witness for C4: Alice books a Deluxe Suite, Bob a Penthouse, then two undos. -/
theorem C4_undo_lifo_witness :
    Reachable hilton ∧
      reserveRoom hilton 1 "Alice" "07-01-2025" "07-01-2025" 15 2 =
        (ReserveOutcome.complete, afterAlice) ∧
      reserveRoom afterAlice 2 "Bob" "07-01-2025" "07-01-2025" 12 1 =
        (ReserveOutcome.complete, afterAliceBob) ∧
      occupied (undoLastBooking afterAliceBob).2.roomTypes = [(236, "Alice")] ∧
      occupied (undoLastBooking (undoLastBooking afterAliceBob).2).2.roomTypes = [] ∧
      ∃ (actA actB : Action) (resA resB : Reservation),
        afterAlice.bookingHistory = actA :: hilton.bookingHistory ∧
        afterAlice.reservationsForDay = hilton.reservationsForDay ++ [resA] ∧
        afterAliceBob.bookingHistory = actB :: actA :: hilton.bookingHistory ∧
        afterAliceBob.reservationsForDay = hilton.reservationsForDay ++ [resA, resB] ∧
        actA.guestName = "Alice" ∧ resA.guestName = "Alice" ∧
        resA.roomNumber = actA.roomNumber ∧
        actB.guestName = "Bob" ∧ resB.guestName = "Bob" ∧
        resB.roomNumber = actB.roomNumber ∧
        occupiedBy afterAliceBob actA.roomNumber "Alice" ∧
        occupiedBy afterAliceBob actB.roomNumber "Bob" ∧
        (undoLastBooking afterAliceBob).1 = UndoOutcome.undone ∧
        isFree (undoLastBooking afterAliceBob).2 actB.roomNumber ∧
        occupied (undoLastBooking afterAliceBob).2.roomTypes = occupied afterAlice.roomTypes ∧
        occupiedBy (undoLastBooking afterAliceBob).2 actA.roomNumber "Alice" ∧
        (undoLastBooking afterAliceBob).2.reservationsForDay =
          hilton.reservationsForDay ++ [resA] ∧
        (undoLastBooking afterAliceBob).2.bookingHistory = actA :: hilton.bookingHistory ∧
        (undoLastBooking (undoLastBooking afterAliceBob).2).1 = UndoOutcome.undone ∧
        isFree (undoLastBooking (undoLastBooking afterAliceBob).2).2 actA.roomNumber ∧
        (occupied (undoLastBooking (undoLastBooking afterAliceBob).2).2.roomTypes).Perm
          (occupied hilton.roomTypes) ∧
        (undoLastBooking (undoLastBooking afterAliceBob).2).2.reservationsForDay =
          hilton.reservationsForDay ∧
        (undoLastBooking (undoLastBooking afterAliceBob).2).2.bookingHistory =
          hilton.bookingHistory :=
  ⟨reachable_hilton, by decide!, by decide!, by decide!, by decide!,
    C4_undo_lifo hilton afterAlice afterAliceBob reachable_hilton
      1 "Alice" "07-01-2025" "07-01-2025" 15 2 2 "Bob" "07-01-2025" "07-01-2025" 12 1
      (by decide!) (by decide!)⟩

/-! ## Allocation order (C6) -/

theorem ReachableNoUndo.noUndo_reachable {h : Hotel} (hr : ReachableNoUndo h) : Reachable h := by
  induction hr with
  | init n => exact Reachable.init n
  | reserve option guestName startDate endDate startTime durationDays _ ih =>
    exact Reachable.reserve option guestName startDate endDate startTime durationDays ih
  | load date file hr => exact Reachable.load date file hr

theorem bookRoom_free_sorted {h : Hotel} (h1 : Hotel) {g d : String} {room : Int}
    (hb : bookRoom h g d room = some h1)
    (hs : ∀ p ∈ h.roomTypes, p.2.availableRoomNumbers.Sorted (· < ·)) :
    ∀ p ∈ h1.roomTypes, p.2.availableRoomNumbers.Sorted (· < ·) := by
  unfold bookRoom at hb
  split at hb
  · exact absurd hb (by simp)
  · rename_i rts' hrts
    simp only [Option.some.injEq] at hb
    subst hb
    obtain ⟨pre, key, rt, post, e1, _, _, e2⟩ := bookRoomTypes_some hrts
    intro p hp
    change p ∈ rts' at hp
    rw [e2] at hp
    rcases List.mem_append.1 hp with hp | hp
    · exact hs p (by rw [e1]; exact List.mem_append_left _ hp)
    · rcases List.mem_cons.1 hp with hp | hp
      · subst hp
        exact List.Pairwise.sublist (List.erase_sublist _ _)
          (hs (key, rt) (by rw [e1]; simp))
      · exact hs p (by
          rw [e1]
          exact List.mem_append_right _ (List.mem_cons_of_mem _ hp))

theorem reserveRoom_free_sorted (h : Hotel) (option : Int)
    (guestName startDate endDate : String) (startTime durationDays : Int)
    (hs : ∀ p ∈ h.roomTypes, p.2.availableRoomNumbers.Sorted (· < ·)) :
    ∀ p ∈ (reserveRoom h option guestName startDate endDate startTime durationDays).2.roomTypes,
      p.2.availableRoomNumbers.Sorted (· < ·) := by
  unfold reserveRoom
  split
  · exact hs
  · split
    · exact hs
    · split
      · exact hs
      · split
        · rename_i h1 hb
          exact bookRoom_free_sorted h1 hb hs
        · exact hs

theorem restoreLines_free_sorted (date : String) (lines : List String) (h : Hotel)
    (hs : ∀ p ∈ h.roomTypes, p.2.availableRoomNumbers.Sorted (· < ·)) :
    ∀ p ∈ (lines.foldl (restoreLine date) h).roomTypes,
      p.2.availableRoomNumbers.Sorted (· < ·) := by
  induction lines generalizing h with
  | nil => exact hs
  | cons l t ih =>
    apply ih
    unfold restoreLine
    split
    · unfold restoreRecord
      dsimp only
      split
      · exact hs
      · rename_i h2 hb
        exact bookRoom_free_sorted h2 hb hs
    · exact hs

theorem loadFromFile_free_sorted {h : Hotel} (hc : catalog h.roomTypes = hiltonCatalog)
    (date : String) (file : Option String) :
    ∀ p ∈ (loadFromFile h date file).roomTypes, p.2.availableRoomNumbers.Sorted (· < ·) := by
  have h0 : ∀ p ∈ (resetStateForNewDate h).roomTypes,
      p.2.availableRoomNumbers.Sorted (· < ·) := by
    intro p hp
    simp only [resetStateForNewDate, List.mem_map] at hp
    obtain ⟨q, hq, rfl⟩ := hp
    exact catalog_sorted hc hq
  unfold loadFromFile
  split
  · exact h0
  · split
    · exact h0
    · exact restoreLines_free_sorted date _ _ h0

theorem ReachableNoUndo.free_sorted {h : Hotel} (hr : ReachableNoUndo h) :
    ∀ p ∈ h.roomTypes, p.2.availableRoomNumbers.Sorted (· < ·) := by
  induction hr with
  | init n =>
    intro p hp
    have : p ∈ (resetStateForNewDate (HiltonHotel n)).roomTypes := by
      rw [resetStateForNewDate_HiltonHotel]
      exact hp
    simp only [resetStateForNewDate, List.mem_map] at this
    obtain ⟨q, hq, rfl⟩ := this
    exact catalog_sorted (catalog_HiltonHotel n) hq
  | reserve option guestName startDate endDate startTime durationDays _ ih =>
    exact reserveRoom_free_sorted _ _ _ _ _ _ _ ih
  | load date file hr => exact loadFromFile_free_sorted hr.inv.catalog_eq date file

/-- Counterexample to C6 as stated: after Alice's booking is undone, the Deluxe
Suite free list is 237, ..., 250, 236, which is not ascending, and the next
reservation gets room 237 although 236 is free. -/
theorem C6_counterexample :
    Reachable afterAliceUndo ∧
      (afterAliceUndo.roomTypes.head?.map fun p => (p.1, p.2.availableRoomNumbers)) =
        some ("Deluxe Suite",
          [237, 238, 239, 240, 241, 242, 243, 244, 245, 246, 247, 248, 249, 250, 236]) ∧
      ¬ (∀ p ∈ afterAliceUndo.roomTypes, p.2.availableRoomNumbers.Sorted (· < ·)) ∧
      (reserveRoom afterAliceUndo 1 "Bob" "07-01-2025" "07-01-2025" 12 1).1 =
        ReserveOutcome.complete ∧
      ((reserveRoom afterAliceUndo 1 "Bob" "07-01-2025" "07-01-2025" 12 1).2.bookingHistory.map
        fun a => a.roomNumber) = [237] :=
  ⟨Reachable.undo reachable_afterAlice, by decide!, by decide!, by decide!, by decide!⟩

/-- C6 (amended): allocation takes the front of the free sequence. In every
state reached without an `undoLastBooking` since the hotel was constructed or a
file was last loaded, each room type's free sequence is in ascending order, and
a `reserveRoom` call on a valid option whose type has a free room completes and
assigns the front of that sequence, which is then the lowest-numbered free room
of the selected type. (`undoLastBooking` puts the released room at the back of
the sequence, so after an undo the order need not be ascending.) -/
theorem C6_allocation_lowest_free (h : Hotel) (hr : ReachableNoUndo h) :
    (∀ p ∈ h.roomTypes, p.2.availableRoomNumbers.Sorted (· < ·)) ∧
      ∀ (option : Int) (guest date endDate : String) (hour nights : Int) (key : String)
        (rt : RoomType) (f : Int) (rest : List Int), 1 ≤ option →
        h.roomTypes.get? (option - 1).toNat = some (key, rt) →
        rt.availableRoomNumbers = f :: rest →
        (reserveRoom h option guest date endDate hour nights).1 = ReserveOutcome.complete ∧
        ((reserveRoom h option guest date endDate hour nights).2.bookingHistory.head?.map
          fun a => a.roomNumber) = some f ∧
        ((reserveRoom h option guest date endDate hour nights).2.reservationsForDay.getLast?.map
          fun r => r.roomNumber) = some f ∧
        ∀ r ∈ rt.availableRoomNumbers, f ≤ r := by
  have hsorted := hr.free_sorted
  refine ⟨hsorted, ?_⟩
  intro option guest date endDate hour nights key rt f rest h1 hget hfree
  have hi := hr.noUndo_reachable.inv
  obtain ⟨pre, post, e, hlen⟩ := get?_split hget
  rw [reserveRoom_complete hi e hlen.symm h1 hfree]
  refine ⟨rfl, rfl, ?_, ?_⟩
  · show ((h.reservationsForDay ++ [_]).getLast?.map fun (r : Reservation) => r.roomNumber)
      = some f
    simp
  · have hs := hsorted (key, rt) (by rw [e]; simp)
    rw [hfree] at hs ⊢
    intro r hrm
    rcases List.mem_cons.1 hrm with e' | e'
    · exact le_of_eq e'.symm
    · exact le_of_lt ((List.sorted_cons.1 hs).1 r e')

/-- Witness for C6: in the state after Alice's booking (no undo so far) the
free lists are ascending, and option 1 assigns room 237, the lowest free Deluxe
Suite. -/
theorem C6_allocation_lowest_free_witness :
    ReachableNoUndo afterAlice ∧ (1 : Int) ≤ 1 ∧
      (afterAlice.roomTypes.get? ((1 : Int) - 1).toNat).map
        (fun p => (p.1, p.2.availableRoomNumbers)) =
        some ("Deluxe Suite",
          237 :: [238, 239, 240, 241, 242, 243, 244, 245, 246, 247, 248, 249, 250]) ∧
      (∀ p ∈ afterAlice.roomTypes, p.2.availableRoomNumbers.Sorted (· < ·)) ∧
      ((reserveRoom afterAlice 1 "Bob" "07-01-2025" "07-01-2025" 12
        1).2.bookingHistory.head?.map fun a => a.roomNumber) = some 237 :=
  have hr : ReachableNoUndo afterAlice :=
    ReachableNoUndo.reserve 1 "Alice" "07-01-2025" "07-01-2025" 15 2
      (ReachableNoUndo.init 122)
  have hget : afterAlice.roomTypes.get? ((1 : Int) - 1).toNat =
      some ("Deluxe Suite",
        (seedRoomType "Deluxe Suite" 15 15 350 "236 thru 250"
          (roomNumbersFromTo 236 250)).occupy 236 "Alice") := by
    decide!
  have hfree : ((seedRoomType "Deluxe Suite" 15 15 350 "236 thru 250"
      (roomNumbersFromTo 236 250)).occupy 236 "Alice").availableRoomNumbers =
      237 :: [238, 239, 240, 241, 242, 243, 244, 245, 246, 247, 248, 249, 250] := by
    decide!
  have h := C6_allocation_lowest_free afterAlice hr
  ⟨hr, by decide, by rw [hget]; exact congrArg (fun l => some ("Deluxe Suite", l)) hfree, h.1,
    (h.2 1 "Bob" "07-01-2025" "07-01-2025" 12 1 "Deluxe Suite" _ 237 _ (by decide) hget
      hfree).2.1⟩

/-! ## Revenue and the ledger (C7) -/

theorem ReachableNoData.noData_reachable {h : Hotel} (hr : ReachableNoData h) : Reachable h := by
  induction hr with
  | init n => exact Reachable.init n
  | reserve option guestName startDate endDate startTime durationDays _ _ ih =>
    exact Reachable.reserve option guestName startDate endDate startTime durationDays ih
  | undo _ ih => exact Reachable.undo ih
  | loadMissing date hr => exact Reachable.load date none hr
  | loadEmpty date hr => exact Reachable.load date (some "") hr

/-- A `reserveRoom` call that does not complete leaves the state as it is. -/
theorem reserveRoom_unchanged (h : Hotel) (option : Int)
    (guestName startDate endDate : String) (startTime durationDays : Int)
    (hne : (reserveRoom h option guestName startDate endDate startTime durationDays).1 ≠
      ReserveOutcome.complete) :
    (reserveRoom h option guestName startDate endDate startTime durationDays).2 = h := by
  by_cases hopt : option < 1 ∨ option > (h.roomTypes.length : Int)
  · rw [reserveRoom_invalid hopt]
  · obtain ⟨key, rt, hget⟩ := get?_isSome_of_valid hopt
    cases hfree : rt.availableRoomNumbers with
    | nil => rw [reserveRoom_exhausted hopt hget hfree]
    | cons room rest =>
      cases hb : bookRoom h guestName startDate room with
      | none =>
        have : reserveRoom h option guestName startDate endDate startTime durationDays =
            (.failed, h) := by
          unfold reserveRoom
          rw [if_neg hopt]
          simp only [hget, hfree, hb]
        rw [this]
      | some h1 =>
        have : (reserveRoom h option guestName startDate endDate startTime durationDays).1 =
            ReserveOutcome.complete := by
          unfold reserveRoom
          rw [if_neg hopt]
          simp only [hget, hfree, hb]
        exact absurd this hne

theorem LedgerExact.after_reset (h : Hotel) : LedgerExact (resetStateForNewDate h) :=
  { ledger_stack := rfl
    cost_nonneg := fun r hr => by simp [resetStateForNewDate] at hr
    revenue_eq := by simp [resetStateForNewDate, ledgerTotal] }

theorem loadFromFile_none (h : Hotel) (date : String) :
    loadFromFile h date none = resetStateForNewDate h := rfl

theorem loadFromFile_empty (h : Hotel) (date : String) :
    loadFromFile h date (some "") = resetStateForNewDate h := rfl

theorem LedgerExact.after_reserve {h : Hotel} (hi : Inv h) (hl : LedgerExact h) (option : Int)
    (guestName startDate endDate : String) (startTime durationDays : Int)
    (hn : 0 ≤ durationDays) :
    LedgerExact (reserveRoom h option guestName startDate endDate startTime durationDays).2 := by
  by_cases hok : (reserveRoom h option guestName startDate endDate startTime durationDays).1 =
      ReserveOutcome.complete
  · obtain ⟨pre, key, rt, post, room, rest, e, _, _, _, hres⟩ := reserveRoom_of_complete hi hok
    rw [hres]
    have hprice : 0 ≤ rt.pricePerNight :=
      catalog_price hi.catalog_eq (p := (key, rt)) (by rw [e]; simp)
    have hcost : 0 ≤ rt.pricePerNight * (durationDays : ℚ) :=
      mul_nonneg hprice (by exact_mod_cast hn)
    refine ⟨?_, ?_, ?_⟩
    · show (h.reservationsForDay ++ [_]).map actionOf = (_ :: h.bookingHistory).reverse
      rw [List.map_append, List.reverse_cons, hl.ledger_stack]
      rfl
    · intro r hr
      change r ∈ h.reservationsForDay ++ [_] at hr
      rcases List.mem_append.1 hr with hr | hr
      · exact hl.cost_nonneg r hr
      · rw [List.mem_singleton] at hr
        subst hr
        exact hcost
    · have hrev := hl.revenue_eq
      simp only [ledgerTotal] at hrev
      simp only [ledgerTotal, reservedState, List.map_append, List.sum_append, List.map_cons,
        List.map_nil, List.sum_cons, List.sum_nil, add_zero, hrev]
  · rw [reserveRoom_unchanged _ _ _ _ _ _ _ hok]
    exact hl

theorem map_eq_concat {α β : Type} {f : α → β} {l : List α} {m : List β} {b : β}
    (h : l.map f = m ++ [b]) : ∃ l0 a, l = l0 ++ [a] ∧ l0.map f = m ∧ f a = b := by
  induction m generalizing l with
  | nil =>
    cases l with
    | nil => simp at h
    | cons a t =>
      simp only [List.map_cons, List.nil_append, List.cons.injEq, List.map_eq_nil_iff] at h
      exact ⟨[], a, by simp [h.2], rfl, h.1⟩
  | cons c m ih =>
    cases l with
    | nil => simp at h
    | cons a t =>
      simp only [List.map_cons, List.cons_append, List.cons.injEq] at h
      obtain ⟨l0, a', e1, e2, e3⟩ := ih h.2
      exact ⟨a :: l0, a', by simp [e1], by simp [h.1, e2], e3⟩

theorem LedgerExact.after_undo {h : Hotel} (hi : Inv h) (hl : LedgerExact h) :
    LedgerExact (undoLastBooking h).2 := by
  cases hs : h.bookingHistory with
  | nil =>
    have : undoLastBooking h = (.nothingToUndo, h) := by
      unfold undoLastBooking
      rw [hs]
    rw [this]
    exact hl
  | cons last stack =>
    obtain ⟨pre, key, rt, post, _, _, _, _, hundo⟩ := undoLastBooking_of_inv hi hs
    rw [hundo]
    have hls := hl.ledger_stack
    rw [hs, List.reverse_cons] at hls
    obtain ⟨l0, r, e1, e2, e3⟩ := map_eq_concat hls
    have hledger : eraseFound (lastMatchingReservation last h.reservationsForDay)
        h.reservationsForDay = l0 := by
      rw [e1]
      exact lastMatchingReservation_concat _ _ _ (by rw [← e3]; rfl) (by rw [← e3]; rfl)
        (by rw [← e3]; rfl)
    have hcost : last.totalCost = r.totalCost := by
      rw [← e3]
      rfl
    have hsum : ledgerTotal h = (l0.map fun r => r.totalCost).sum + r.totalCost := by
      unfold ledgerTotal
      rw [e1, List.map_append, List.sum_append]
      simp
    have hnn : 0 ≤ (l0.map fun r => r.totalCost).sum := by
      apply List.sum_nonneg
      intro x hx
      obtain ⟨q, hq, rfl⟩ := List.mem_map.1 hx
      exact hl.cost_nonneg q (by rw [e1]; exact List.mem_append_left _ hq)
    refine ⟨?_, ?_, ?_⟩
    · show (eraseFound (lastMatchingReservation last h.reservationsForDay)
        h.reservationsForDay).map actionOf = stack.reverse
      rw [hledger, e2]
    · intro q hq
      change q ∈ eraseFound (lastMatchingReservation last h.reservationsForDay)
        h.reservationsForDay at hq
      rw [hledger] at hq
      exact hl.cost_nonneg q (by rw [e1]; exact List.mem_append_left _ hq)
    · show (if h.totalRevenue - last.totalCost < 0 then 0
        else h.totalRevenue - last.totalCost) =
        ((eraseFound (lastMatchingReservation last h.reservationsForDay)
          h.reservationsForDay).map fun r => r.totalCost).sum
      rw [hledger, hl.revenue_eq, hsum, hcost, add_sub_cancel_right]
      rw [if_neg (not_lt.2 hnn)]

theorem ReachableNoData.ledgerExact {h : Hotel} (hr : ReachableNoData h) :
    LedgerExact h := by
  induction hr with
  | init n =>
    rw [← resetStateForNewDate_HiltonHotel n]
    exact LedgerExact.after_reset _
  | reserve option guestName startDate endDate startTime durationDays hn hr ih =>
    exact ih.after_reserve hr.noData_reachable.inv option guestName startDate endDate startTime
      durationDays hn
  | undo hr ih => exact ih.after_undo hr.noData_reachable.inv
  | loadMissing date _ =>
    rw [loadFromFile_none]
    exact LedgerExact.after_reset _
  | loadEmpty date _ =>
    rw [loadFromFile_empty]
    exact LedgerExact.after_reset _

/-- Counterexample to C7 as stated: after loading the legacy file with the lines
`$500` and `Alice,236`, the revenue is 500 while the only ledger entry costs 0.
And without any file: when a booking with a negative number of nights is in the
ledger, the floor at zero applied by an undo separates the two totals. -/
theorem C7_counterexample :
    Reachable legacyLoaded ∧ legacyLoaded.totalRevenue = 500 ∧
      legacyLoaded.reservationsForDay =
        [{ guestName := "Alice", roomNumber := 236, roomType := "", stayDate := "07-01-2025",
           nights := 1, checkInHour := 15, pricePerNight := 0, totalCost := 0 }] ∧
      ledgerTotal legacyLoaded = 0 ∧
      legacyLoaded.totalRevenue ≠ ledgerTotal legacyLoaded ∧
      Reachable negativeNightsUndone ∧ negativeNightsUndone.totalRevenue = 0 ∧
      ledgerTotal negativeNightsUndone = -350 :=
  ⟨Reachable.load "07-01-2025" (some "$500\nAlice,236") reachable_hilton,
    by decide!, by decide!, by decide!, by decide!,
    Reachable.undo
      (Reachable.reserve 2 "Bob" "07-01-2025" "07-01-2025" 12 1
        (Reachable.reserve 1 "Alice" "07-01-2025" "07-01-2025" 15 (-1) reachable_hilton)),
    by decide!, by decide!⟩

/-- C7 (amended): in every state reached by `reserveRoom` calls with a
non-negative number of nights and by `undoLastBooking` calls, starting from the
constructed hotel or from a `loadFromFile` that found no file or an empty file,
`totalRevenue` equals the sum of `totalCost` over the reservations in the ledger
`reservationsForDay`. (After loading a file with content, `totalRevenue` is the
value written on the file's first line.) -/
theorem C7_revenue_eq_ledger_total (h : Hotel) (hr : ReachableNoData h) :
    h.totalRevenue = ledgerTotal h :=
  hr.ledgerExact.revenue_eq

/-- Witness for C7: Alice's and Bob's bookings on the fresh hotel, revenue 1835. -/
theorem C7_revenue_eq_ledger_total_witness :
    ReachableNoData afterAliceBob ∧ afterAliceBob.totalRevenue = 1835 ∧
      afterAliceBob.totalRevenue = ledgerTotal afterAliceBob :=
  have hr : ReachableNoData afterAliceBob :=
    ReachableNoData.reserve 2 "Bob" "07-01-2025" "07-01-2025" 12 1 (by decide)
      (ReachableNoData.reserve 1 "Alice" "07-01-2025" "07-01-2025" 15 2 (by decide)
        (ReachableNoData.init 122))
  ⟨hr, by decide!, C7_revenue_eq_ledger_total afterAliceBob hr⟩

/-! ## Records that cannot be restored (C9) -/

/-- What `loadFromFile` does with a record whose room no type has free (already
occupied, or of no room type): nothing but the ledger changes, and the ledger
receives the record. -/
theorem restoreRecord_of_unbookable (h : Hotel) (r : Reservation)
    (hb : bookRoomTypes r.guestName r.roomNumber h.roomTypes = none) :
    restoreRecord h r = { h with reservationsForDay := h.reservationsForDay ++ [r] } := by
  unfold restoreRecord bookRoom
  simp only [hb]

/-- C9 (evaluation at the failing input): loading a file whose second record
names the room of the first one (or a room of no room type) restores only the
first booking, yet the ledger `reservationsForDay` also receives the record that
could not be restored, so the state differs from the one obtained from the file
without that line. -/
theorem C9_unrestorable_record_stays_in_ledger :
    (loadFromFile hilton "07-01-2025" (some duplicateRoomFile)).reservationsForDay =
      [{ guestName := "Alice", roomNumber := 236, roomType := "Deluxe Suite",
         stayDate := "07-01-2025", nights := 2, checkInHour := 15, pricePerNight := 350,
         totalCost := 700 },
       { guestName := "Bob", roomNumber := 236, roomType := "Deluxe Suite",
         stayDate := "07-01-2025", nights := 1, checkInHour := 15, pricePerNight := 350,
         totalCost := 350 }] ∧
    (loadFromFile hilton "07-01-2025" (some singleRecordFile)).reservationsForDay =
      [{ guestName := "Alice", roomNumber := 236, roomType := "Deluxe Suite",
         stayDate := "07-01-2025", nights := 2, checkInHour := 15, pricePerNight := 350,
         totalCost := 700 }] ∧
    loadFromFile hilton "07-01-2025" (some duplicateRoomFile) ≠
      loadFromFile hilton "07-01-2025" (some singleRecordFile) ∧
    occupied (loadFromFile hilton "07-01-2025" (some duplicateRoomFile)).roomTypes =
      [(236, "Alice")] ∧
    ((loadFromFile hilton "07-01-2025" (some duplicateRoomFile)).bookingHistory.map
      fun a => (a.guestName, a.roomNumber)) = [("Alice", 236)] ∧
    (loadFromFile hilton "07-01-2025" (some unknownRoomFile)).reservationsForDay.length = 2 ∧
    loadFromFile hilton "07-01-2025" (some unknownRoomFile) ≠
      loadFromFile hilton "07-01-2025" (some singleRecordFile) := by
  refine ⟨by decide!, by decide!, by decide!, by decide!, by decide!, by decide!, by decide!⟩

/-! ## Printing and reading numbers -/

theorem not_isSpace_of_isDigit {c : Char} (h : c.isDigit = true) : isSpace c = false := by
  unfold isSpace
  have h1 : c ≠ ' ' := by rintro rfl; exact absurd h (by decide)
  have h2 : c ≠ '\t' := by rintro rfl; exact absurd h (by decide)
  have h3 : c ≠ '\n' := by rintro rfl; exact absurd h (by decide)
  have h4 : c ≠ '\x0b' := by rintro rfl; exact absurd h (by decide)
  have h5 : c ≠ '\x0c' := by rintro rfl; exact absurd h (by decide)
  have h6 : c ≠ '\r' := by rintro rfl; exact absurd h (by decide)
  simp [h1, h2, h3, h4, h5, h6]

theorem takeSign_of_isDigit {c : Char} (h : c.isDigit = true) (r : List Char) :
    takeSign (c :: r) = (false, c :: r) := by
  have h1 : c ≠ '-' := by rintro rfl; exact absurd h (by decide)
  have h2 : c ≠ '+' := by rintro rfl; exact absurd h (by decide)
  simp [takeSign, h1, h2]

theorem bookRoom_ledger {h h2 : Hotel} {g d : String} {room : Int}
    (hb : bookRoom h g d room = some h2) :
    h2.reservationsForDay = h.reservationsForDay ∧ h2.totalRevenue = h.totalRevenue := by
  unfold bookRoom at hb
  split at hb
  · exact absurd hb (by simp)
  · simp only [Option.some.injEq] at hb
    subst hb
    exact ⟨rfl, rfl⟩

theorem restoreRecord_ledger (h : Hotel) (r : Reservation) :
    (restoreRecord h r).reservationsForDay = h.reservationsForDay ++ [r] ∧
      (restoreRecord h r).totalRevenue = h.totalRevenue := by
  unfold restoreRecord
  dsimp only
  split
  · exact ⟨rfl, rfl⟩
  · rename_i h2 hb
    exact bookRoom_ledger hb

/-- The comma in the seeded room type name "Standard Room, Scenic" shifts the
fields of a saved record when it is read back: the reservation comes back with
room type "Standard Room", stay date " Scenic", 7 nights, check-in hour 2,
price 15 and total cost 145. -/
theorem scenic_record_garbled :
    selectedFor afterScenic "07-01-2025" =
        [{ guestName := "Bob", roomNumber := 201, roomType := "Standard Room, Scenic",
           stayDate := "07-01-2025", nights := 2, checkInHour := 15, pricePerNight := 145,
           totalCost := 290 }] ∧
      (loadFromFile afterScenic "07-01-2025"
        (saveToFile afterScenic "07-01-2025")).reservationsForDay =
        [{ guestName := "Bob", roomNumber := 201, roomType := "Standard Room",
           stayDate := " Scenic", nights := 7, checkInHour := 2, pricePerNight := 15,
           totalCost := 145 }] :=
  ⟨by decide!, by decide!⟩

theorem removeRoomFromTree_of_not_mem (t : TreeNode) (k : Int) (h : k ∉ inorder t) :
    removeRoomFromTree t k = t := by
  induction t with
  | null => rfl
  | node x l r ihl ihr =>
    simp only [inorder, List.mem_append, List.mem_cons, not_or] at h
    obtain ⟨hl, hx, hr⟩ := h
    by_cases h1 : k < x
    · simp only [removeRoomFromTree, h1, if_true, ihl hl]
    · have h2 : k > x := lt_of_le_of_ne (not_lt.mp h1) (Ne.symm hx)
      simp only [removeRoomFromTree, h1, h2, if_true, if_false, ihr hr]

theorem insertRoomInTree_of_mem (t : TreeNode) (k : Int)
    (hs : (inorder t).Sorted (· < ·)) (h : k ∈ inorder t) :
    insertRoomInTree t k = t := by
  induction t with
  | null => simp [inorder] at h
  | node x l r ihl ihr =>
    obtain ⟨hsl, hsr, hlt, hgt⟩ := sorted_node hs
    simp only [inorder, List.mem_append, List.mem_cons] at h
    rw [insertRoomInTree]
    by_cases h1 : k < x
    · rw [if_pos h1]
      rcases h with h | h | h
      · rw [ihl hsl h]
      · exact absurd h (ne_of_lt h1)
      · exact absurd (hgt k h) (not_lt.mpr (le_of_lt h1))
    · rw [if_neg h1]
      by_cases h2 : k > x
      · rw [if_pos h2]
        rcases h with h | h | h
        · exact absurd (hlt k h) (not_lt.mpr (le_of_lt h2))
        · exact absurd h (ne_of_gt h2)
        · rw [ihr hsr h]
      · rw [if_neg h2]

theorem filter_ne_eq_erase {l : List Int} (hs : l.Sorted (· < ·)) (k : Int) :
    l.filter (fun a => decide (a ≠ k)) = l.erase k := by
  have hn : l.Nodup := hs.nodup
  rw [hn.erase_eq_filter]
  apply List.filter_congr
  intro a _
  by_cases h : a = k <;> simp [h]

theorem orderedInsert_eq_filter {l : List Int} (hs : l.Sorted (· < ·)) {k : Int}
    (hk : k ∉ l) :
    l.orderedInsert (· ≤ ·) k =
      l.filter (fun a => decide (a < k)) ++ k :: l.filter (fun a => decide (k < a)) := by
  induction l with
  | nil => rfl
  | cons a t ih =>
    have hst : t.Sorted (· < ·) := hs.of_cons
    have hat : ∀ b ∈ t, a < b := fun b hb => List.rel_of_sorted_cons hs b hb
    simp only [List.mem_cons, not_or] at hk
    rw [List.orderedInsert]
    by_cases h1 : k ≤ a
    · have hka : k < a := lt_of_le_of_ne h1 hk.1
      have hall : ∀ b ∈ a :: t, k < b := by
        intro b hb
        rcases List.mem_cons.mp hb with rfl | hb
        · exact hka
        · exact lt_trans hka (hat b hb)
      rw [if_pos h1, filter_gt_of_all_gt hall,
        filter_lt_of_all_ge (fun b hb => le_of_lt (hall b hb))]
      rfl
    · have hak : a < k := not_le.mp h1
      rw [if_neg h1, ih hst hk.2]
      simp [List.filter_cons, hak, not_lt.mpr (le_of_lt hak)]

/-- C11: for a tree `t` whose in-order traversal is strictly ascending and any
key `k`, `removeRoomFromTree t k` (a total function) returns a tree whose
in-order traversal is that of `t` with `k` deleted, still strictly ascending;
when the node holding `k` is the root and has two children, the minimum `s` of
the right subtree is promoted and removed from the right subtree; when `k` does
not occur in `t`, the tree is returned unchanged. -/
theorem C11_removeRoomFromTree_deletes_key (t : TreeNode) (k : Int)
    (hs : (inorder t).Sorted (· < ·)) :
    inorder (removeRoomFromTree t k) = (inorder t).erase k ∧
    k ∉ inorder (removeRoomFromTree t k) ∧
    (inorder (removeRoomFromTree t k)).Sorted (· < ·) ∧
    (k ∉ inorder t → removeRoomFromTree t k = t) ∧
    (∀ lk ll lr rk rl rr, t = .node k (.node lk ll lr) (.node rk rl rr) →
      ∃ s b rest, findMinNode (.node rk rl rr) = .node s .null b ∧
        inorder (.node rk rl rr) = s :: rest ∧
        removeRoomFromTree t k =
          .node s (.node lk ll lr) (removeRoomFromTree (.node rk rl rr) s)) := by
  refine ⟨?_, ?_, sorted_inorder_removeRoomFromTree k hs,
    removeRoomFromTree_of_not_mem t k, ?_⟩
  · rw [inorder_removeRoomFromTree t k hs, filter_ne_eq_erase hs]
  · intro h
    exact ((mem_inorder_removeRoomFromTree hs k).mp h).2 rfl
  · intro lk ll lr rk rl rr ht
    obtain ⟨s, b, rest, hmin, hin⟩ := findMinNode_node rk rl rr
    refine ⟨s, b, rest, hmin, hin, ?_⟩
    rw [ht, removeRoomFromTree_two_children, hmin]

theorem C11_removeRoomFromTree_deletes_key_witness :
    (inorder sampleTree).Sorted (· < ·) ∧
    inorder sampleTree = [101, 236, 250, 301] ∧
    inorder (removeRoomFromTree sampleTree 236) = [101, 250, 301] ∧
    removeRoomFromTree sampleTree 236 =
      .node 250 (.node 101 .null .null) (.node 301 .null .null) ∧
    inorder (removeRoomFromTree sampleTree 236) = (inorder sampleTree).erase 236 :=
  ⟨by decide, by decide, by decide, by decide,
    (C11_removeRoomFromTree_deletes_key sampleTree 236 (by decide)).1⟩

/-- C12: for a tree `t` whose in-order traversal is strictly ascending and any
key `k`, `insertRoomInTree t k` returns `t` itself when `k` already occurs in
`t`; otherwise the in-order traversal of the result is that of `t` with `k`
inserted at its sorted position; in both cases it is strictly ascending. -/
theorem C12_insertRoomInTree_sorted_position (t : TreeNode) (k : Int)
    (hs : (inorder t).Sorted (· < ·)) :
    (k ∈ inorder t → insertRoomInTree t k = t) ∧
    (k ∉ inorder t →
      inorder (insertRoomInTree t k) = (inorder t).orderedInsert (· ≤ ·) k ∧
      inorder (insertRoomInTree t k) =
        (inorder t).filter (fun a => decide (a < k)) ++
          k :: (inorder t).filter (fun a => decide (k < a))) ∧
    (inorder (insertRoomInTree t k)).Sorted (· < ·) := by
  refine ⟨insertRoomInTree_of_mem t k hs, ?_, sorted_inorder_insertRoomInTree k hs⟩
  intro hk
  rw [orderedInsert_eq_filter hs hk]
  exact ⟨inorder_insertRoomInTree t k hs, inorder_insertRoomInTree t k hs⟩

theorem C12_insertRoomInTree_sorted_position_witness :
    (inorder sampleTree).Sorted (· < ·) ∧
    insertRoomInTree sampleTree 250 = sampleTree ∧
    inorder (insertRoomInTree sampleTree 240) = [101, 236, 240, 250, 301] ∧
    (240 ∉ inorder sampleTree →
      inorder (insertRoomInTree sampleTree 240) =
          (inorder sampleTree).orderedInsert (· ≤ ·) 240 ∧
        inorder (insertRoomInTree sampleTree 240) =
          (inorder sampleTree).filter (fun a => decide (a < 240)) ++
            240 :: (inorder sampleTree).filter (fun a => decide (240 < a))) :=
  ⟨by decide, by decide, by decide,
    (C12_insertRoomInTree_sorted_position sampleTree 240 (by decide)).2.1⟩

/-! ## Failed reservations and undo without effect (C15, C16) -/

/-- C15: a failed reservation changes nothing. For every state, `reserveRoom`
with an option below 1 or above the number of room types returns the state it
was given, and so does `reserveRoom` with a valid option whose room type has an
empty free list; the state returned is equal to the one before the call in
every field. -/
theorem C15_failed_reservation_changes_nothing (h : Hotel) (option : Int)
    (guestName startDate endDate : String) (startTime durationDays : Int) :
    ((option < 1 ∨ option > (h.roomTypes.length : Int)) →
      reserveRoom h option guestName startDate endDate startTime durationDays =
        (.invalidOption, h)) ∧
    (1 ≤ option → option ≤ (h.roomTypes.length : Int) →
      (h.roomTypes.get? (option - 1).toNat).map (fun p => p.2.availableRoomNumbers) =
        some [] →
      reserveRoom h option guestName startDate endDate startTime durationDays =
        (.noAvailableRooms, h)) := by
  refine ⟨fun hopt =>
    reserveRoom_invalid hopt guestName startDate endDate startTime durationDays, ?_⟩
  intro h1 h2 hfree
  have hopt : ¬ (option < 1 ∨ option > (h.roomTypes.length : Int)) := by omega
  obtain ⟨key, rt, hget⟩ := get?_isSome_of_valid hopt
  rw [hget] at hfree
  simp only [Option.map_some', Option.some.injEq] at hfree
  exact reserveRoom_exhausted hopt hget hfree guestName startDate endDate startTime
    durationDays

theorem C15_failed_reservation_changes_nothing_witness :
    reserveRoom hilton 0 "Carol" "07-01-2025" "07-02-2025" 15 1 =
      (.invalidOption, hilton) ∧
    reserveRoom hilton 5 "Carol" "07-01-2025" "07-02-2025" 15 1 =
      (.invalidOption, hilton) ∧
    reserveRoom penthouseFull 2 "Carol" "07-01-2025" "07-02-2025" 15 1 =
      (.noAvailableRooms, penthouseFull) :=
  ⟨(C15_failed_reservation_changes_nothing hilton 0 "Carol" "07-01-2025" "07-02-2025"
      15 1).1 (Or.inl (by decide)),
   (C15_failed_reservation_changes_nothing hilton 5 "Carol" "07-01-2025" "07-02-2025"
      15 1).1 (Or.inr (by decide!)),
   (C15_failed_reservation_changes_nothing penthouseFull 2 "Carol" "07-01-2025"
      "07-02-2025" 15 1).2 (by decide) (by decide!) (by decide!)⟩

/-- C16: `undoLastBooking` on a state whose undo stack `bookingHistory` is empty
returns that state, equal in every field, and reports that there is nothing to
undo. -/
theorem C16_undo_on_empty_stack_is_noop (h : Hotel) (hs : h.bookingHistory = []) :
    undoLastBooking h = (.nothingToUndo, h) := by
  unfold undoLastBooking
  rw [hs]

theorem C16_undo_on_empty_stack_is_noop_witness :
    hilton.bookingHistory = [] ∧ undoLastBooking hilton = (.nothingToUndo, hilton) :=
  ⟨by decide!, C16_undo_on_empty_stack_is_noop hilton (by decide!)⟩

/-! ## The revenue after an undo (C17) -/

theorem undoLastBooking_revenue {h : Hotel} {last : Action} {stack : List Action}
    (hs : h.bookingHistory = last :: stack)
    (hrel : releaseRoomTypes last.roomNumber h.roomTypes ≠ none) :
    (undoLastBooking h).1 = .undone ∧
    (undoLastBooking h).2.bookingHistory = stack ∧
    (undoLastBooking h).2.totalRevenue = max 0 (h.totalRevenue - last.totalCost) := by
  cases hr : releaseRoomTypes last.roomNumber h.roomTypes with
  | none => exact absurd hr hrel
  | some rts =>
    unfold undoLastBooking
    rw [hs]
    simp only [hr, undoCommit, true_and]
    by_cases hneg : h.totalRevenue - last.totalCost < 0
    · rw [if_pos hneg, max_eq_left (le_of_lt hneg)]
    · rw [if_neg hneg, max_eq_right (not_lt.mp hneg)]

theorem reachable_undoTimes {h : Hotel} (hr : Reachable h) (n : Nat) :
    Reachable (undoTimes n h) := by
  induction n with
  | zero => exact hr
  | succ n ih => exact Reachable.undo ih

theorem undoTimes_stack {h : Hotel} (hr : Reachable h) (n : Nat)
    (hn : n ≤ h.bookingHistory.length) :
    (undoTimes n h).bookingHistory = h.bookingHistory.drop n := by
  induction n with
  | zero => rfl
  | succ n ih =>
    have e := ih (Nat.le_of_succ_le hn)
    have hlt : n < h.bookingHistory.length := hn
    obtain ⟨last, stack, hd⟩ : ∃ last stack, h.bookingHistory.drop n = last :: stack := by
      cases hd : h.bookingHistory.drop n with
      | nil =>
        have := congrArg List.length hd
        simp at this
        omega
      | cons a t => exact ⟨a, t, rfl⟩
    have hs : (undoTimes n h).bookingHistory = last :: stack := by rw [e, hd]
    obtain ⟨pre, key, rt, post, _, _, _, _, hrel⟩ := (reachable_undoTimes hr n).inv.release_top hs
    have hrel2 : releaseRoomTypes last.roomNumber (undoTimes n h).roomTypes ≠ none := by
      rw [hrel]
      simp
    have hstep := (undoLastBooking_revenue hs hrel2).2.1
    show (undoLastBooking (undoTimes n h)).2.bookingHistory = _
    rw [hstep, ← List.drop_drop, hd]
    rfl

/-- C17: when `undoLastBooking` pops an action `last` whose room belongs to a
room type, the resulting `totalRevenue` is `max 0 (totalRevenue - last.totalCost)`
and so is not negative; in every reachable state with at least `n + 1` stacked
actions, `totalRevenue` is not negative after `n + 1` undos in a row. -/
theorem C17_undo_revenue_floored_at_zero (h : Hotel) (last : Action) (stack : List Action)
    (hs : h.bookingHistory = last :: stack)
    (hrel : releaseRoomTypes last.roomNumber h.roomTypes ≠ none) :
    (undoLastBooking h).2.totalRevenue = max 0 (h.totalRevenue - last.totalCost) ∧
    0 ≤ (undoLastBooking h).2.totalRevenue ∧
    (Reachable h → ∀ n, n < h.bookingHistory.length →
      0 ≤ (undoTimes (n + 1) h).totalRevenue) := by
  have h1 := (undoLastBooking_revenue hs hrel).2.2
  refine ⟨h1, ?_, ?_⟩
  · rw [h1]
    exact le_max_left _ _
  · intro hr n hn
    have e := undoTimes_stack hr n (le_of_lt hn)
    obtain ⟨a, t, hd⟩ : ∃ a t, h.bookingHistory.drop n = a :: t := by
      cases hd : h.bookingHistory.drop n with
      | nil =>
        have := congrArg List.length hd
        simp at this
        omega
      | cons a t => exact ⟨a, t, rfl⟩
    have hs2 : (undoTimes n h).bookingHistory = a :: t := by rw [e, hd]
    obtain ⟨pre, key, rt, post, _, _, _, _, hrel1⟩ :=
      (reachable_undoTimes hr n).inv.release_top hs2
    have hrel2 : releaseRoomTypes a.roomNumber (undoTimes n h).roomTypes ≠ none := by
      rw [hrel1]
      simp
    show 0 ≤ (undoLastBooking (undoTimes n h)).2.totalRevenue
    rw [(undoLastBooking_revenue hs2 hrel2).2.2]
    exact le_max_left _ _

theorem C17_undo_revenue_floored_at_zero_witness :
    lowRevenueLoaded.totalRevenue = 100 ∧
    lowRevenueLoaded.bookingHistory = [Action.mk "Alice" "07-01-2025" 236 2 350 700] ∧
    (undoLastBooking lowRevenueLoaded).2.totalRevenue = max 0 (100 - 700) ∧
    (undoLastBooking lowRevenueLoaded).2.totalRevenue = 0 :=
  have hrev : lowRevenueLoaded.totalRevenue = 100 := by decide!
  have hs : lowRevenueLoaded.bookingHistory =
      [Action.mk "Alice" "07-01-2025" 236 2 350 700] := by decide!
  have hres := C17_undo_revenue_floored_at_zero lowRevenueLoaded
    (Action.mk "Alice" "07-01-2025" 236 2 350 700) [] hs (by decide!)
  ⟨hrev, hs, by
    have := hres.1
    rw [hrev] at this
    exact this, by decide!⟩

/-! ## The ledger entry removed by an undo (C13) -/

theorem findLastIndex_congr {p p' : Nat → Bool} {n : Nat} (h : ∀ i < n, p i = p' i) :
    findLastIndex p n = findLastIndex p' n := by
  induction n with
  | zero => rfl
  | succ n ih =>
    simp only [findLastIndex, h n (Nat.lt_succ_self n),
      ih fun i hi => h i (Nat.lt_succ_of_lt hi)]

/-- A backward scan of a list for the elements satisfying `q` finds the last of
them: either no element satisfies `q`, or the list splits around the found
position into a front part, the found element, and a back part free of `q`. -/
theorem findLastIndex_last_match {α : Type} (q : α → Bool) (l : List α) (p : Nat → Bool)
    (hp : ∀ i r, l.get? i = some r → p i = q r) :
    (findLastIndex p l.length = none ∧ ∀ r ∈ l, q r = false) ∨
    (∃ A r B, l = A ++ r :: B ∧ q r = true ∧ (∀ b ∈ B, q b = false) ∧
      findLastIndex p l.length = some A.length) := by
  induction l using List.reverseRecOn generalizing p with
  | nil => exact Or.inl ⟨rfl, by simp⟩
  | append_singleton l x ih =>
    have hx : p l.length = q x := hp l.length x (get?_length_concat l x)
    have hlen : (l ++ [x]).length = l.length + 1 := by simp
    rw [hlen]
    cases hq : q x with
    | true =>
      refine Or.inr ⟨l, x, [], rfl, hq, by simp, ?_⟩
      exact findLastIndex_succ_of_true (hx.trans hq)
    | false =>
      have hstep : findLastIndex p (l.length + 1) = findLastIndex p l.length := by
        simp only [findLastIndex, hx, hq, Bool.false_eq_true, if_false]
      rw [hstep]
      have hp2 : ∀ i r, l.get? i = some r → p i = q r := by
        intro i r hi
        apply hp i r
        have hlt : i < l.length := by
          by_contra hc
          rw [List.get?_eq_none.2 (not_lt.mp hc)] at hi
          exact absurd hi (by simp)
        rw [List.get?_eq_getElem?] at hi ⊢
        rw [List.getElem?_append_left hlt]
        exact hi
      rcases ih p hp2 with ⟨hnone, hall⟩ | ⟨A, r, B, e, hr, hB, hidx⟩
      · refine Or.inl ⟨hnone, ?_⟩
        intro r hr
        rcases List.mem_append.1 hr with h1 | h1
        · exact hall r h1
        · rw [List.mem_singleton.1 h1]
          exact hq
      · refine Or.inr ⟨A, r, B ++ [x], by rw [e]; simp, hr, ?_, hidx⟩
        intro b hb
        rcases List.mem_append.1 hb with h1 | h1
        · exact hB b h1
        · rw [List.mem_singleton.1 h1]
          exact hq

theorem eraseIdx_split {α : Type} (A B : List α) (r : α) :
    (A ++ r :: B).eraseIdx A.length = A ++ B := by
  induction A with
  | nil => rfl
  | cons a t ih => simp [List.eraseIdx, ih]

/-- What `undoLastBooking` does to the ledger: the last entry carrying the key
of the action is removed, and nothing is removed when there is none. -/
theorem eraseFound_lastMatchingReservation (last : Action) (ledger : List Reservation) :
    ((∀ r ∈ ledger, r.key ≠ last.key) ∧
      eraseFound (lastMatchingReservation last ledger) ledger = ledger) ∨
    (∃ A r B, ledger = A ++ r :: B ∧ r.key = last.key ∧ (∀ b ∈ B, b.key ≠ last.key) ∧
      eraseFound (lastMatchingReservation last ledger) ledger = A ++ B) := by
  have hkey : ∀ r : Reservation, decide (r.key = last.key) = true ↔ r.key = last.key :=
    fun r => decide_eq_true_iff
  have hfalse : ∀ r : Reservation, decide (r.key = last.key) = false ↔ r.key ≠ last.key :=
    fun r => decide_eq_false_iff_not
  have hp : ∀ i r, ledger.get? i = some r →
      (match ledger.get? i with
        | some r =>
          decide (r.guestName = last.guestName ∧ r.roomNumber = last.roomNumber ∧
            r.stayDate = last.date)
        | none => false) = decide (r.key = last.key) := by
    intro i r hi
    rw [hi]
    simp only [Reservation.key, Action.key, Prod.mk.injEq]
  rcases findLastIndex_last_match (fun r => decide (r.key = last.key)) ledger _ hp with
    ⟨hnone, hall⟩ | ⟨A, r, B, e, hr, hB, hidx⟩
  · left
    refine ⟨fun r hr => (hfalse r).1 (hall r hr), ?_⟩
    unfold lastMatchingReservation
    rw [hnone]
    rfl
  · right
    refine ⟨A, r, B, e, (hkey r).1 hr, fun b hb => (hfalse b).1 (hB b hb), ?_⟩
    unfold lastMatchingReservation
    rw [hidx]
    show ledger.eraseIdx A.length = A ++ B
    rw [e, eraseIdx_split]

theorem sublist_drop_found {α : Type} {a : α} {l A : List α} :
    ∀ {B : List α}, a ∉ B → (a :: l).Sublist (B ++ a :: A) → l.Sublist (B ++ A)
  | [], _, h => by
    simp only [List.nil_append] at h ⊢
    exact List.Sublist.of_cons_cons h
  | b :: B, hb, h => by
    have hne : a ≠ b := fun e => hb (by simp [e])
    have hB : a ∉ B := fun e => hb (List.mem_cons_of_mem _ e)
    rw [List.cons_append] at h ⊢
    rcases List.sublist_cons_iff.1 h with h1 | ⟨r, e, _⟩
    · exact (sublist_drop_found hB h1).cons b
    · exact absurd (List.cons.inj e).1 hne

theorem bookRoom_stack {h h2 : Hotel} {g d : String} {room : Int}
    (hb : bookRoom h g d room = some h2) : h2.bookingHistory = h.bookingHistory := by
  unfold bookRoom at hb
  split at hb
  · exact absurd hb (by simp)
  · simp only [Option.some.injEq] at hb
    subst hb
    rfl

theorem ledgerCovers_push {h h2 : Hotel} (hc : LedgerCovers h) (r : Reservation) (a : Action)
    (hk : a.key = r.key)
    (hl : h2.reservationsForDay = h.reservationsForDay ++ [r])
    (hs : h2.bookingHistory = a :: h.bookingHistory) : LedgerCovers h2 := by
  unfold LedgerCovers at hc ⊢
  rw [hl, hs, List.reverse_append, List.reverse_singleton, List.singleton_append,
    List.map_cons, List.map_cons, hk]
  exact hc.cons₂ _

theorem ledgerCovers_append {h h2 : Hotel} (hc : LedgerCovers h) (r : Reservation)
    (hl : h2.reservationsForDay = h.reservationsForDay ++ [r])
    (hs : h2.bookingHistory = h.bookingHistory) : LedgerCovers h2 := by
  unfold LedgerCovers at hc ⊢
  rw [hl, hs, List.reverse_append, List.reverse_singleton, List.singleton_append,
    List.map_cons]
  exact hc.cons _

theorem ledgerCovers_reset (h : Hotel) : LedgerCovers (resetStateForNewDate h) := by
  unfold LedgerCovers
  exact List.nil_sublist _

theorem ledgerCovers_reserve {h : Hotel} (hc : LedgerCovers h) (option : Int)
    (guestName startDate endDate : String) (startTime durationDays : Int) :
    LedgerCovers (reserveRoom h option guestName startDate endDate startTime durationDays).2 := by
  by_cases hopt : option < 1 ∨ option > (h.roomTypes.length : Int)
  · rw [reserveRoom_invalid hopt]
    exact hc
  · obtain ⟨key, rt, hget⟩ := get?_isSome_of_valid hopt
    cases hfree : rt.availableRoomNumbers with
    | nil =>
      rw [reserveRoom_exhausted hopt hget hfree]
      exact hc
    | cons room rest =>
      unfold reserveRoom
      rw [if_neg hopt]
      simp only [hget, hfree]
      cases hb : bookRoom h guestName startDate room with
      | none => exact hc
      | some h1 =>
        exact ledgerCovers_push hc
          (Reservation.mk guestName room key startDate durationDays startTime
            (priceAt h1 (option - 1).toNat)
            (priceAt h1 (option - 1).toNat * (durationDays : ℚ)))
          (Action.mk guestName startDate room durationDays (priceAt h1 (option - 1).toNat)
            (priceAt h1 (option - 1).toNat * (durationDays : ℚ)))
          rfl
          (by
            show h1.reservationsForDay ++ _ = _
            rw [(bookRoom_ledger hb).1])
          (by
            show _ :: h1.bookingHistory = _
            rw [bookRoom_stack hb])

theorem ledgerCovers_undo {h : Hotel} (hc : LedgerCovers h) :
    LedgerCovers (undoLastBooking h).2 := by
  cases hs : h.bookingHistory with
  | nil =>
    have e : undoLastBooking h = (.nothingToUndo, h) := by
      unfold undoLastBooking
      rw [hs]
    rw [e]
    exact hc
  | cons last stack =>
    unfold LedgerCovers at hc
    rw [hs, List.map_cons] at hc
    cases hr : releaseRoomTypes last.roomNumber h.roomTypes with
    | none =>
      have e : undoLastBooking h = (.typeNotFound, { h with bookingHistory := stack }) := by
        unfold undoLastBooking
        rw [hs]
        simp only [hr]
      rw [e]
      exact (List.sublist_cons_self _ _).trans hc
    | some rts =>
      have e : undoLastBooking h = (.undone, undoCommit h last stack rts) := by
        unfold undoLastBooking
        rw [hs]
        simp only [hr]
      rw [e]
      show (stack.map Action.key).Sublist
        ((eraseFound (lastMatchingReservation last h.reservationsForDay)
          h.reservationsForDay).reverse.map Reservation.key)
      rcases eraseFound_lastMatchingReservation last h.reservationsForDay with
        ⟨hall, _⟩ | ⟨A, r, B, e, hk, hB, herase⟩
      · exfalso
        have hmem : last.key ∈ h.reservationsForDay.reverse.map Reservation.key :=
          hc.subset (List.mem_cons_self _ _)
        obtain ⟨r, hr1, hr2⟩ := List.mem_map.1 hmem
        exact hall r (List.mem_reverse.1 hr1) hr2
      · rw [herase]
        rw [e] at hc
        simp only [List.reverse_append, List.reverse_cons, List.map_append, List.map_cons,
          List.map_nil, List.append_assoc, List.singleton_append, hk] at hc ⊢
        apply sublist_drop_found _ hc
        intro hin
        obtain ⟨b, hb1, hb2⟩ := List.mem_map.1 hin
        exact hB b (List.mem_reverse.1 hb1) hb2

theorem ledgerCovers_restoreRecord {h : Hotel} (hc : LedgerCovers h) (r : Reservation) :
    LedgerCovers (restoreRecord h r) := by
  unfold restoreRecord
  dsimp only
  split
  · exact ledgerCovers_append hc r rfl rfl
  · rename_i h2 hb
    exact ledgerCovers_push hc r (actionOf r) rfl (bookRoom_ledger hb).1
      (by
        show _ :: h2.bookingHistory = _
        rw [bookRoom_stack hb]
        rfl)

theorem ledgerCovers_restoreLines (date : String) (lines : List String) :
    ∀ h : Hotel, LedgerCovers h → LedgerCovers (lines.foldl (restoreLine date) h) := by
  induction lines with
  | nil => exact fun _ hc => hc
  | cons line t ih =>
    intro h hc
    rw [List.foldl_cons]
    apply ih
    unfold restoreLine
    split
    · exact ledgerCovers_restoreRecord hc _
    · exact hc

theorem ledgerCovers_load (h : Hotel) (date : String) (file : Option String) :
    LedgerCovers (loadFromFile h date file) := by
  unfold loadFromFile
  dsimp only
  split
  · exact ledgerCovers_reset h
  · split
    · exact ledgerCovers_reset h
    · apply ledgerCovers_restoreLines
      exact ledgerCovers_reset h

/-- Every reachable state has a ledger entry for every stacked action. -/
theorem ledgerCovers_of_reachable {h : Hotel} (hr : Reachable h) : LedgerCovers h := by
  induction hr with
  | init n =>
    unfold LedgerCovers
    exact List.nil_sublist _
  | reserve option guestName startDate endDate startTime durationDays _ ih =>
    exact ledgerCovers_reserve ih option guestName startDate endDate startTime durationDays
  | undo _ ih => exact ledgerCovers_undo ih
  | load date file _ _ => exact ledgerCovers_load _ date file

/-- C13: when `undoLastBooking` pops an action `last` whose room belongs to a
room type, it removes from the ledger `reservationsForDay` the last entry whose
guest, room and stay date are those of `last`: the ledger splits into a front
part, that entry, and a back part without matching entries, and afterwards it
is the front part followed by the back part; a ledger without a matching entry
is left as it is. In every reachable state a matching entry exists, so the
ledger becomes shorter by exactly one. -/
theorem C13_undo_removes_last_matching_ledger_entry (h : Hotel) (last : Action)
    (stack : List Action) (hs : h.bookingHistory = last :: stack)
    (hrel : releaseRoomTypes last.roomNumber h.roomTypes ≠ none) :
    ((∃ r ∈ h.reservationsForDay, r.key = last.key) →
      ∃ A r B, h.reservationsForDay = A ++ r :: B ∧ r.key = last.key ∧
        (∀ b ∈ B, b.key ≠ last.key) ∧
        (undoLastBooking h).2.reservationsForDay = A ++ B) ∧
    ((∀ r ∈ h.reservationsForDay, r.key ≠ last.key) →
      (undoLastBooking h).2.reservationsForDay = h.reservationsForDay) ∧
    (Reachable h →
      (∃ r ∈ h.reservationsForDay, r.key = last.key) ∧
      (undoLastBooking h).2.reservationsForDay.length + 1 =
        h.reservationsForDay.length) := by
  have hledger : (undoLastBooking h).2.reservationsForDay =
      eraseFound (lastMatchingReservation last h.reservationsForDay)
        h.reservationsForDay := by
    cases hr : releaseRoomTypes last.roomNumber h.roomTypes with
    | none => exact absurd hr hrel
    | some rts =>
      unfold undoLastBooking
      rw [hs]
      simp only [hr, undoCommit]
  have hsplit : (∃ r ∈ h.reservationsForDay, r.key = last.key) →
      ∃ A r B, h.reservationsForDay = A ++ r :: B ∧ r.key = last.key ∧
        (∀ b ∈ B, b.key ≠ last.key) ∧
        (undoLastBooking h).2.reservationsForDay = A ++ B := by
    rintro ⟨r, hr1, hr2⟩
    rcases eraseFound_lastMatchingReservation last h.reservationsForDay with
      ⟨hall, _⟩ | ⟨A, r, B, e, hk, hB, herase⟩
    · exact absurd hr2 (hall r hr1)
    · exact ⟨A, r, B, e, hk, hB, hledger.trans herase⟩
  refine ⟨hsplit, ?_, ?_⟩
  · intro hall
    rcases eraseFound_lastMatchingReservation last h.reservationsForDay with
      ⟨_, hsame⟩ | ⟨A, r, B, e, hk, _, _⟩
    · exact hledger.trans hsame
    · exact absurd hk (hall r (by rw [e]; simp))
  · intro hreach
    have hc := ledgerCovers_of_reachable hreach
    unfold LedgerCovers at hc
    rw [hs, List.map_cons] at hc
    have hmem : last.key ∈ h.reservationsForDay.reverse.map Reservation.key :=
      hc.subset (List.mem_cons_self _ _)
    obtain ⟨r, hr1, hr2⟩ := List.mem_map.1 hmem
    have hex : ∃ r ∈ h.reservationsForDay, r.key = last.key :=
      ⟨r, List.mem_reverse.1 hr1, hr2⟩
    refine ⟨hex, ?_⟩
    obtain ⟨A, r, B, e, _, _, herase⟩ := hsplit hex
    rw [herase, e]
    simp
    omega

theorem C13_undo_removes_last_matching_ledger_entry_witness :
    twiceAliceLoaded.bookingHistory = [Action.mk "Alice" "07-01-2025" 236 2 350 700] ∧
    twiceAliceLoaded.reservationsForDay =
      [Reservation.mk "Alice" 236 "Deluxe Suite" "07-01-2025" 2 15 350 700,
       Reservation.mk "Alice" 236 "Deluxe Suite" "07-01-2025" 5 15 350 1750] ∧
    (undoLastBooking twiceAliceLoaded).2.reservationsForDay =
      [Reservation.mk "Alice" 236 "Deluxe Suite" "07-01-2025" 2 15 350 700] ∧
    (undoLastBooking twiceAliceLoaded).2.reservationsForDay.length + 1 =
      twiceAliceLoaded.reservationsForDay.length :=
  have hs : twiceAliceLoaded.bookingHistory =
      [Action.mk "Alice" "07-01-2025" 236 2 350 700] := by decide!
  ⟨hs, by decide!, by decide!,
    ((C13_undo_removes_last_matching_ledger_entry twiceAliceLoaded
      (Action.mk "Alice" "07-01-2025" 236 2 350 700) [] hs (by decide!)).2.2
        (Reachable.load "07-01-2025" _ reachable_hilton)).2⟩

/-! ## The guest index and the history after an undo (C14) -/

theorem roomsOf_nodup {h : Hotel} (hi : Inv h) (g : String) :
    (roomsOf g h.bookingHistory).Nodup := by
  have hsub : (roomsOf g h.bookingHistory).Sublist
      (h.bookingHistory.reverse.map fun a => a.roomNumber) :=
    (List.filter_sublist _).map _
  apply hsub.nodup
  rw [List.map_reverse]
  exact List.nodup_reverse.2 hi.stack_rooms_nodup

theorem filter_ne_of_count_one {vec : List Int} {room : Int} (hc : vec.count room = 1) :
    ∃ A B, vec = A ++ room :: B ∧ room ∉ A ∧ room ∉ B ∧
      vec.filter (fun r => decide (r ≠ room)) = A ++ B := by
  have hmem : room ∈ vec := List.count_pos_iff.1 (by omega)
  obtain ⟨A, B, e⟩ := List.append_of_mem hmem
  subst e
  rw [List.count_append, List.count_cons_self] at hc
  have hA : room ∉ A := List.count_eq_zero.1 (by omega)
  have hB : room ∉ B := List.count_eq_zero.1 (by omega)
  refine ⟨A, B, rfl, hA, hB, ?_⟩
  rw [List.filter_append, List.filter_cons,
    filter_ne_of_all_ne (fun a ha (e : a = room) => hA (by rw [← e]; exact ha)),
    filter_ne_of_all_ne (fun a ha (e : a = room) => hB (by rw [← e]; exact ha))]
  simp

/-- What `undoLastBooking` does to `guestHistory`: the last occurrence of the
guest is removed. -/
theorem eraseFound_last_name (g : String) (history : List String) (hg : g ∈ history) :
    ∃ A B, history = A ++ g :: B ∧ g ∉ B ∧
      eraseFound (findLastIndex (fun i => history.get? i = some g) history.length) history =
        A ++ B := by
  have hp : ∀ i r, history.get? i = some r →
      decide (history.get? i = some g) = decide (r = g) := by
    intro i r hi
    rw [hi]
    simp
  rcases findLastIndex_last_match (fun s => decide (s = g)) history _ hp with
    ⟨_, hall⟩ | ⟨A, r, B, e, hr, hB, hidx⟩
  · exact absurd (hall g hg) (by simp)
  · have hrg : r = g := of_decide_eq_true hr
    subst hrg
    refine ⟨A, B, e, fun hin => absurd (hB r hin) (by simp), ?_⟩
    rw [hidx]
    show history.eraseIdx A.length = A ++ B
    rw [e, eraseIdx_split]

/-- Counterexample to C14 as stated: in a state where Alice's list in
`guestToRooms` is 236, 237, 236, undoing her booking of room 236 leaves the list
237; both occurrences of 236 are removed, not exactly one. -/
theorem C14_counterexample :
    repeatedRoomState.bookingHistory = [Action.mk "Alice" "07-01-2025" 236 2 350 700] ∧
    releaseRoomTypes 236 repeatedRoomState.roomTypes ≠ none ∧
    mapFind "Alice" repeatedRoomState.guestToRooms = some [236, 237, 236] ∧
    "Alice" ∈ repeatedRoomState.guestHistory ∧
    mapFind "Alice" (undoLastBooking repeatedRoomState).2.guestToRooms = some [237] ∧
    ¬ ∃ A B : List Int, [236, 237, 236] = A ++ 236 :: B ∧
        mapFind "Alice" (undoLastBooking repeatedRoomState).2.guestToRooms =
          some (A ++ B) := by
  have hres : mapFind "Alice" (undoLastBooking repeatedRoomState).2.guestToRooms =
      some [237] := by decide!
  refine ⟨by decide!, by decide!, by decide!, by decide!, hres, ?_⟩
  rintro ⟨A, B, e1, e2⟩
  rw [hres, Option.some.injEq] at e2
  have h1 := congrArg List.length e1
  have h2 := congrArg List.length e2
  simp at h1 h2
  omega

/-- C14 (amended): when `undoLastBooking` pops an action `last` whose room
belongs to a room type, in a state where the keys of `guestToRooms` are distinct
and the guest's list is `vec`, afterwards the guest's list is `vec` without
every occurrence of the room, and the guest's entry is gone when nothing is
left; the lists of the other guests are untouched. When the room occurs exactly
once in `vec`, which is the case in every reachable state, this removes exactly
one occurrence and keeps the others in order. When `guestHistory` contains the
guest's name, exactly one occurrence of it is removed, the last one. -/
theorem C14_undo_guest_index_and_history (h : Hotel) (last : Action) (stack : List Action)
    (vec : List Int) (hs : h.bookingHistory = last :: stack)
    (hrel : releaseRoomTypes last.roomNumber h.roomTypes ≠ none)
    (hkeys : (mapKeys h.guestToRooms).Nodup)
    (hvec : mapFind last.guestName h.guestToRooms = some vec) :
    mapFind last.guestName (undoLastBooking h).2.guestToRooms =
      (if vec.filter (fun r => decide (r ≠ last.roomNumber)) = [] then none
        else some (vec.filter fun r => decide (r ≠ last.roomNumber))) ∧
    (∀ g, g ≠ last.guestName →
      mapFind g (undoLastBooking h).2.guestToRooms = mapFind g h.guestToRooms) ∧
    (vec.count last.roomNumber = 1 →
      ∃ A B, vec = A ++ last.roomNumber :: B ∧
        last.roomNumber ∉ A ∧ last.roomNumber ∉ B ∧
        vec.filter (fun r => decide (r ≠ last.roomNumber)) = A ++ B) ∧
    (Reachable h → vec.count last.roomNumber = 1) ∧
    (last.guestName ∈ h.guestHistory →
      ∃ A B, h.guestHistory = A ++ last.guestName :: B ∧ last.guestName ∉ B ∧
        (undoLastBooking h).2.guestHistory = A ++ B) := by
  obtain ⟨rts, hr⟩ : ∃ rts, releaseRoomTypes last.roomNumber h.roomTypes = some rts := by
    cases hr : releaseRoomTypes last.roomNumber h.roomTypes with
    | none => exact absurd hr hrel
    | some rts => exact ⟨rts, rfl⟩
  have e : undoLastBooking h = (.undone, undoCommit h last stack rts) := by
    unfold undoLastBooking
    rw [hs]
    simp only [hr]
  have hidx : (undoLastBooking h).2.guestToRooms =
      if vec.filter (fun r => decide (r ≠ last.roomNumber)) = [] then
        mapErase last.guestName h.guestToRooms
      else mapSet last.guestName (vec.filter fun r => decide (r ≠ last.roomNumber))
        h.guestToRooms := by
    rw [e]
    simp only [undoCommit, hvec]
  refine ⟨?_, ?_, filter_ne_of_count_one, ?_, ?_⟩
  · rw [hidx]
    by_cases hempty : vec.filter (fun r => decide (r ≠ last.roomNumber)) = []
    · rw [if_pos hempty, if_pos hempty, mapFind_mapErase_self _ hkeys]
    · rw [if_neg hempty, if_neg hempty, mapFind_mapSet_self]
  · intro g hg
    rw [hidx]
    by_cases hempty : vec.filter (fun r => decide (r ≠ last.roomNumber)) = []
    · rw [if_pos hempty, mapFind_mapErase_ne hg]
    · rw [if_neg hempty, mapFind_mapSet_ne hg]
  · intro hreach
    have hi := hreach.inv
    have hg := hi.guest_index last.guestName
    rw [hvec] at hg
    have hvec2 : vec = roomsOf last.guestName h.bookingHistory := by
      by_cases hnil : roomsOf last.guestName h.bookingHistory = []
      · rw [if_pos hnil] at hg
        exact absurd hg (by simp)
      · rw [if_neg hnil] at hg
        exact Option.some.inj hg
    have hnd : vec.Nodup := hvec2 ▸ roomsOf_nodup hi last.guestName
    have hmem : last.roomNumber ∈ vec := by
      rw [hvec2, hs, roomsOf_cons]
      simp
    exact List.count_eq_one_of_mem hnd hmem
  · intro hhist
    obtain ⟨A, B, e1, hB, he⟩ := eraseFound_last_name last.guestName h.guestHistory hhist
    refine ⟨A, B, e1, hB, ?_⟩
    rw [e]
    exact he

theorem C14_undo_guest_index_and_history_witness :
    aliceTwoRooms.bookingHistory =
      [Action.mk "Alice" "07-01-2025" 301 1 1135 1135,
       Action.mk "Alice" "07-01-2025" 236 2 350 700] ∧
    mapFind "Alice" aliceTwoRooms.guestToRooms = some [236, 301] ∧
    aliceTwoRooms.guestHistory = ["Alice", "Alice"] ∧
    mapFind "Alice" (undoLastBooking aliceTwoRooms).2.guestToRooms = some [236] ∧
    (undoLastBooking aliceTwoRooms).2.guestHistory = ["Alice"] ∧
    mapFind "Alice" (undoLastBooking aliceTwoRooms).2.guestToRooms =
      (if [236, 301].filter (fun r => decide (r ≠ (301 : Int))) = [] then none
        else some ([236, 301].filter fun r => decide (r ≠ (301 : Int)))) :=
  have hs : aliceTwoRooms.bookingHistory =
      [Action.mk "Alice" "07-01-2025" 301 1 1135 1135,
       Action.mk "Alice" "07-01-2025" 236 2 350 700] := by decide!
  ⟨hs, by decide!, by decide!, by decide!, by decide!,
    (C14_undo_guest_index_and_history aliceTwoRooms
      (Action.mk "Alice" "07-01-2025" 301 1 1135 1135)
      [Action.mk "Alice" "07-01-2025" 236 2 350 700] [236, 301] hs (by decide!)
      (by decide!) (by decide!)).1⟩

/-! ## Reading a file: the header test (C18) -/

theorem loadFromFile_lines (h : Hotel) (date content first : String) (rest : List String)
    (hl : fileLines content = first :: rest) :
    loadFromFile h date (some content) =
      (dataLines rest).foldl (restoreLine date)
        { resetStateForNewDate h with totalRevenue := parseRevenue first } := by
  unfold loadFromFile
  simp only [hl]

/-- Counterexample to C18 as stated: a second line that is a full record of a
guest called "GuestName" is not the header line, yet it is consumed as header:
the load restores nothing, although the same line read as data gives a
reservation for room 236. -/
theorem C18_counterexample :
    fileLines headerLikeRecordFile =
      ["TOTAL_REVENUE=700", "GuestName,236,Deluxe Suite,07-01-2025,2,15,350,700"] ∧
    "GuestName,236,Deluxe Suite,07-01-2025,2,15,350,700" ≠ headerLine ∧
    (loadFromFile hilton "07-01-2025" (some headerLikeRecordFile)).reservationsForDay = [] ∧
    occupied (loadFromFile hilton "07-01-2025" (some headerLikeRecordFile)).roomTypes = [] ∧
    (restoreLine "07-01-2025" (resetStateForNewDate hilton)
        "GuestName,236,Deluxe Suite,07-01-2025,2,15,350,700").reservationsForDay =
      [Reservation.mk "GuestName" 236 "Deluxe Suite" "07-01-2025" 2 15 350 700] := by
  refine ⟨by decide!, by decide!, by decide!, by decide!, by decide!⟩

/-- C18 (amended): in `loadFromFile`, the second line of the file is consumed
without producing a reservation if and only if splitting it at commas gives
exactly eight fields of which the first is "GuestName"; the fixed header line is
such a line; every other second line is read again and processed as a data
record, followed by the remaining lines. -/
theorem C18_header_line_test (h : Hotel) (date content first second : String)
    (more : List String) (hl : fileLines content = first :: second :: more) :
    (((split second ',').length = 8 ∧ (split second ',').head? = some "GuestName") →
      loadFromFile h date (some content) =
        more.foldl (restoreLine date)
          { resetStateForNewDate h with totalRevenue := parseRevenue first }) ∧
    (¬ ((split second ',').length = 8 ∧ (split second ',').head? = some "GuestName") →
      loadFromFile h date (some content) =
        more.foldl (restoreLine date)
          (restoreLine date
            { resetStateForNewDate h with totalRevenue := parseRevenue first } second)) ∧
    ((split headerLine ',').length = 8 ∧ (split headerLine ',').head? = some "GuestName") := by
  refine ⟨?_, ?_, by decide!⟩
  · intro htest
    rw [loadFromFile_lines h date content first _ hl]
    have : isHeaderLine second = true := by
      unfold isHeaderLine
      simp [htest.1, htest.2]
    simp only [dataLines, this, if_true]
  · intro htest
    rw [loadFromFile_lines h date content first _ hl]
    have : isHeaderLine second = false := by
      unfold isHeaderLine
      simp only [decide_eq_false_iff_not]
      exact htest
    simp only [dataLines, this, Bool.false_eq_true, if_false, List.foldl_cons]

theorem C18_header_line_test_witness :
    fileLines singleRecordFile =
      ["TOTAL_REVENUE=700", headerLine, "Alice,236,Deluxe Suite,07-01-2025,2,15,350,700"] ∧
    loadFromFile hilton "07-01-2025" (some singleRecordFile) =
      ["Alice,236,Deluxe Suite,07-01-2025,2,15,350,700"].foldl (restoreLine "07-01-2025")
        { resetStateForNewDate hilton with totalRevenue := parseRevenue "TOTAL_REVENUE=700" } ∧
    (loadFromFile hilton "07-01-2025" (some singleRecordFile)).reservationsForDay =
      [Reservation.mk "Alice" 236 "Deluxe Suite" "07-01-2025" 2 15 350 700] :=
  have hl : fileLines singleRecordFile =
      ["TOTAL_REVENUE=700", headerLine,
        "Alice,236,Deluxe Suite,07-01-2025,2,15,350,700"] := by decide!
  ⟨hl, (C18_header_line_test hilton "07-01-2025" singleRecordFile "TOTAL_REVENUE=700"
      headerLine ["Alice,236,Deluxe Suite,07-01-2025,2,15,350,700"] hl).1 (by decide!),
    by decide!⟩

/-! ## Reading a file: data lines by field count (C19) -/

theorem parseRecord_full (date : String) {line f0 f1 f2 f3 f4 f5 f6 f7 : String}
    {rest : List String} {roomNumber nights checkInHour : Int} {pricePerNight totalCost : ℚ}
    (hne : line ≠ "")
    (hf : split line ',' = f0 :: f1 :: f2 :: f3 :: f4 :: f5 :: f6 :: f7 :: rest)
    (h1 : stoi f1 = some roomNumber) (h4 : stoi f4 = some nights)
    (h5 : stoi f5 = some checkInHour) (h6 : stod f6 = some pricePerNight)
    (h7 : stod f7 = some totalCost) :
    parseRecord date line =
      some (Reservation.mk f0 roomNumber f2 f3 nights checkInHour pricePerNight totalCost) := by
  unfold parseRecord
  rw [if_neg hne, hf]
  simp only [h1, h4, h5, h6, h7]

theorem parseRecord_legacy (date : String) {line f0 f1 : String} {rest : List String}
    {roomNumber : Int} (hne : line ≠ "") (hf : split line ',' = f0 :: f1 :: rest)
    (hlen : rest.length ≤ 5) (h1 : stoi f1 = some roomNumber) :
    parseRecord date line = some (Reservation.mk f0 roomNumber "" date 1 15 0 0) := by
  unfold parseRecord
  rw [if_neg hne, hf]
  rcases rest with _ | ⟨a, _ | ⟨b, _ | ⟨c, _ | ⟨d, _ | ⟨e, _ | ⟨f, t⟩⟩⟩⟩⟩⟩
  · simp only [h1]
  · simp only [h1]
  · simp only [h1]
  · simp only [h1]
  · simp only [h1]
  · simp only [h1]
  · simp only [List.length_cons] at hlen
    omega

theorem parseRecord_short {date line : String} (hlen : (split line ',').length < 2) :
    parseRecord date line = none := by
  unfold parseRecord
  split
  · rfl
  · rcases hf : split line ',' with _ | ⟨a, _ | ⟨b, t⟩⟩
    · rfl
    · rfl
    · rw [hf] at hlen
      simp only [List.length_cons] at hlen
      omega

theorem restoreLine_of_parse {date line : String} {r : Reservation}
    (hp : parseRecord date line = some r) (h : Hotel) :
    restoreLine date h line = restoreRecord h r := by
  unfold restoreLine
  rw [hp]

theorem restoreLine_of_none {date line : String} (hp : parseRecord date line = none)
    (h : Hotel) : restoreLine date h line = h := by
  unfold restoreLine
  rw [hp]

/-- C19: in `loadFromFile`, a non-empty data line is interpreted by the number
of its comma-separated fields. With eight or more fields whose numbers parse, it
yields the reservation made of field 0, the integer of field 1, fields 2 and 3,
the integers of fields 4 and 5 and the numbers of fields 6 and 7. With two to
seven fields, of which field 1 parses as an integer, it yields the legacy
reservation: guest field 0, room the integer of field 1, empty room type, the
date of the load as stay date, 1 night, check-in hour 15, price and cost 0. The
reservation is appended to the ledger. With fewer than two fields the line
yields nothing. Loading the example file restores one reservation for Alice in
room 236. -/
theorem C19_data_line_by_field_count (h : Hotel) (date line : String) (hne : line ≠ "") :
    (∀ f0 f1 f2 f3 f4 f5 f6 f7 rest roomNumber nights checkInHour pricePerNight totalCost,
      split line ',' = f0 :: f1 :: f2 :: f3 :: f4 :: f5 :: f6 :: f7 :: rest →
      stoi f1 = some roomNumber → stoi f4 = some nights → stoi f5 = some checkInHour →
      stod f6 = some pricePerNight → stod f7 = some totalCost →
      restoreLine date h line =
        restoreRecord h
          (Reservation.mk f0 roomNumber f2 f3 nights checkInHour pricePerNight totalCost) ∧
      (restoreLine date h line).reservationsForDay =
        h.reservationsForDay ++
          [Reservation.mk f0 roomNumber f2 f3 nights checkInHour pricePerNight totalCost]) ∧
    (∀ f0 f1 rest roomNumber,
      split line ',' = f0 :: f1 :: rest → rest.length ≤ 5 → stoi f1 = some roomNumber →
      restoreLine date h line = restoreRecord h (Reservation.mk f0 roomNumber "" date 1 15 0 0) ∧
      (restoreLine date h line).reservationsForDay =
        h.reservationsForDay ++ [Reservation.mk f0 roomNumber "" date 1 15 0 0]) ∧
    ((split line ',').length < 2 → restoreLine date h line = h) ∧
    ((loadFromFile hilton "07-01-2025" (some singleRecordFile)).reservationsForDay =
        [Reservation.mk "Alice" 236 "Deluxe Suite" "07-01-2025" 2 15 350 700] ∧
      occupied (loadFromFile hilton "07-01-2025" (some singleRecordFile)).roomTypes =
        [(236, "Alice")] ∧
      (loadFromFile hilton "07-01-2025" (some singleRecordFile)).totalRevenue = 700) := by
  refine ⟨?_, ?_, ?_, by decide!, by decide!, by decide!⟩
  · intro f0 f1 f2 f3 f4 f5 f6 f7 rest roomNumber nights checkInHour pricePerNight totalCost
      hf h1 h4 h5 h6 h7
    have hr := restoreLine_of_parse (parseRecord_full date hne hf h1 h4 h5 h6 h7) h
    exact ⟨hr, by rw [hr]; exact (restoreRecord_ledger h _).1⟩
  · intro f0 f1 rest roomNumber hf hlen h1
    have hr := restoreLine_of_parse (parseRecord_legacy date hne hf hlen h1) h
    exact ⟨hr, by rw [hr]; exact (restoreRecord_ledger h _).1⟩
  · intro hlen
    exact restoreLine_of_none (parseRecord_short hlen) h

theorem C19_data_line_by_field_count_witness :
    "Alice,236,Deluxe Suite,07-01-2025,2,15,350,700" ≠ "" ∧
    (restoreLine "07-01-2025" (resetStateForNewDate hilton)
        "Alice,236,Deluxe Suite,07-01-2025,2,15,350,700").reservationsForDay =
      (resetStateForNewDate hilton).reservationsForDay ++
        [Reservation.mk "Alice" 236 "Deluxe Suite" "07-01-2025" 2 15 350 700] ∧
    (restoreLine "07-01-2025" (resetStateForNewDate hilton) "Alice,236").reservationsForDay =
      (resetStateForNewDate hilton).reservationsForDay ++
        [Reservation.mk "Alice" 236 "" "07-01-2025" 1 15 0 0] ∧
    restoreLine "07-01-2025" (resetStateForNewDate hilton) "Alice" =
      resetStateForNewDate hilton :=
  ⟨by decide,
    ((C19_data_line_by_field_count (resetStateForNewDate hilton) "07-01-2025"
      "Alice,236,Deluxe Suite,07-01-2025,2,15,350,700" (by decide)).1
        "Alice" "236" "Deluxe Suite" "07-01-2025" "2" "15" "350" "700" [] 236 2 15 350 700
        (by decide!) (by decide!) (by decide!) (by decide!) (by decide!) (by decide!)).2,
    ((C19_data_line_by_field_count (resetStateForNewDate hilton) "07-01-2025"
      "Alice,236" (by decide)).2.1 "Alice" "236" [] 236 (by decide!) (by decide)
        (by decide!)).2,
    (C19_data_line_by_field_count (resetStateForNewDate hilton) "07-01-2025"
      "Alice" (by decide)).2.2.1 (by decide!)⟩

/-! ## Reading a file: malformed lines (C20) -/

/-- C25: the catalog seeded by the `HiltonHotel` constructor. The four room
types hold the rooms 236..250 (Deluxe Suite), 301 and 302 (Penthouse), 201..235
(Standard Room, Scenic) and 101..170 (Standard Rooms, Courtyard); all these room
numbers together have no repetition, so the types are pairwise disjoint and
each is duplicate-free; `totalRooms` and the initial `availableRooms` of each
type are the length of its `allRoomNumbers` (15, 2, 35, 70); the initial free
sequence of each type is its `allRoomNumbers`, in ascending order, and no room
has a guest. -/
theorem C25_seeded_catalog (totalRooms : Int) :
    (HiltonHotel totalRooms).roomTypes.map (fun p => (p.1, p.2.allRoomNumbers)) =
      [("Deluxe Suite", (List.range' 236 15).map Int.ofNat),
       ("Penthouse", [301, 302]),
       ("Standard Room, Scenic", (List.range' 201 35).map Int.ofNat),
       ("Standard Rooms, Courtyard", (List.range' 101 70).map Int.ofNat)] ∧
    ((HiltonHotel totalRooms).roomTypes.flatMap fun p => p.2.allRoomNumbers).Nodup ∧
    ((HiltonHotel totalRooms).roomTypes.Pairwise fun p q =>
      ∀ r ∈ p.2.allRoomNumbers, r ∉ q.2.allRoomNumbers) ∧
    (HiltonHotel totalRooms).roomTypes.map (fun p => (p.2.totalRooms, p.2.availableRooms)) =
      [(15, 15), (2, 2), (35, 35), (70, 70)] ∧
    (∀ p ∈ (HiltonHotel totalRooms).roomTypes,
      p.2.totalRooms = (p.2.allRoomNumbers.length : Int) ∧
      p.2.availableRooms = (p.2.allRoomNumbers.length : Int) ∧
      p.2.availableRoomNumbers = p.2.allRoomNumbers ∧
      p.2.allRoomNumbers.Sorted (· < ·) ∧
      p.2.guests = []) := by
  have e : (HiltonHotel totalRooms).roomTypes = hilton.roomTypes := rfl
  rw [e]
  refine ⟨by decide!, by decide!, by decide!, by decide!, by decide!⟩

/-! ## The undo stack, the chronological indexes and the guest index (C26, C27, C28) -/

theorem occupied_iff_guests {rts : List (String × RoomType)}
    (hw : ∀ p ∈ rts, TypeWF p.2) (r : Int) (g : String) :
    (r, g) ∈ occupied rts ↔ ∃ p ∈ rts, mapFind r p.2.guests = some g := by
  unfold occupied
  rw [List.mem_flatMap]
  constructor
  · rintro ⟨p, hp, hm⟩
    exact ⟨p, hp, mapFind_of_mem (hw p hp).keys_sorted.nodup hm⟩
  · rintro ⟨p, hp, hm⟩
    exact ⟨p, hp, mapFind_some_mem hm⟩

theorem Inv.stack_room_known {h : Hotel} (hi : Inv h) {a : Action}
    (ha : a ∈ h.bookingHistory) :
    occupiedBy h a.roomNumber a.guestName ∧
      ∃ p ∈ h.roomTypes, a.roomNumber ∈ p.2.allRoomNumbers ∧
        a.roomNumber ∉ p.2.availableRoomNumbers ∧
        mapFind a.roomNumber p.2.guests = some a.guestName := by
  have hocc : (a.roomNumber, a.guestName) ∈ occupied h.roomTypes :=
    hi.stack_perm.subset (List.mem_map.2 ⟨a, ha, rfl⟩)
  refine ⟨hocc, ?_⟩
  obtain ⟨p, hp, hf⟩ := (occupied_iff_guests hi.types_wf _ _).1 hocc
  have hk : a.roomNumber ∈ mapKeys p.2.guests := mem_mapKeys_of_mem (mapFind_some_mem hf)
  have hw := hi.types_wf p hp
  refine ⟨p, hp, hw.keys_subset hk, ?_, hf⟩
  intro hav
  have hnd : (p.2.availableRoomNumbers ++ mapKeys p.2.guests).Nodup :=
    hw.perm.nodup_iff.2 (catalog_sorted hi.catalog_eq hp).nodup
  exact (List.nodup_append.1 hnd).2.2 hav hk

/-- C26: in every reachable state, every action on the undo stack names a room
that belongs to the `allRoomNumbers` of some room type and is occupied (by the
guest of the action) and not free; no two actions name the same room; the type
lookup of `undoLastBooking` succeeds for every stacked action, so the call never
takes the branch that drops the popped action without reversing it. -/
theorem C26_stack_actions_name_occupied_rooms (h : Hotel) (hr : Reachable h) :
    (∀ a ∈ h.bookingHistory,
      (∃ p ∈ h.roomTypes, a.roomNumber ∈ p.2.allRoomNumbers) ∧
      occupiedBy h a.roomNumber a.guestName ∧
      ¬ isFree h a.roomNumber ∧
      releaseRoomTypes a.roomNumber h.roomTypes ≠ none) ∧
    (h.bookingHistory.map fun a => a.roomNumber).Nodup ∧
    (undoLastBooking h).1 ≠ UndoOutcome.typeNotFound := by
  have hi := hr.inv
  refine ⟨?_, hi.stack_rooms_nodup, ?_⟩
  · intro a ha
    obtain ⟨hocc, p, hp, hall, _, _⟩ := hi.stack_room_known ha
    refine ⟨⟨p, hp, hall⟩, hocc, ?_, ?_⟩
    · intro hfree
      apply hfree.2
      exact List.mem_map.2 ⟨(a.roomNumber, a.guestName), hocc, rfl⟩
    · intro hnone
      exact (releaseRoomTypes_eq_none.1 hnone) p hp hall
  · cases hs : h.bookingHistory with
    | nil =>
      have e : undoLastBooking h = (.nothingToUndo, h) := by
        unfold undoLastBooking
        rw [hs]
      rw [e]
      exact fun hne => UndoOutcome.noConfusion hne
    | cons last stack =>
      obtain ⟨pre, key, rt, post, _, _, _, _, hundo⟩ := undoLastBooking_of_inv hi hs
      rw [hundo]
      exact fun hne => UndoOutcome.noConfusion hne

theorem C26_stack_actions_name_occupied_rooms_witness :
    afterAliceBob.bookingHistory.map (fun a => (a.guestName, a.roomNumber)) =
      [("Bob", 301), ("Alice", 236)] ∧
    (afterAliceBob.bookingHistory.map fun a => a.roomNumber).Nodup ∧
    (undoLastBooking afterAliceBob).1 ≠ UndoOutcome.typeNotFound :=
  ⟨by decide!, (C26_stack_actions_name_occupied_rooms afterAliceBob reachable_afterAliceBob).2⟩

/-- C27: in every reachable state, `people` and `roomsnums` have equal length;
`people`, `guestHistory` and the guest names of the undo stack read from bottom
to top are the same sequence, and so are `roomsnums` and the room numbers of the
stack; their common length is the number of occupied rooms, the occupied room
numbers being distinct. -/
theorem C27_chronological_indexes_agree (h : Hotel) (hr : Reachable h) :
    h.people.length = h.roomsnums.length ∧
    h.people = (h.bookingHistory.map fun a => a.guestName).reverse ∧
    h.guestHistory = (h.bookingHistory.map fun a => a.guestName).reverse ∧
    h.roomsnums = (h.bookingHistory.map fun a => a.roomNumber).reverse ∧
    h.people.length = h.bookingHistory.length ∧
    h.people.length = (occupiedRooms h.roomTypes).length ∧
    (occupiedRooms h.roomTypes).Nodup ∧
    (∀ i, i < h.people.length → ∃ r, h.roomsnums.get? i = some r) := by
  have hi := hr.inv
  have hlen : h.people.length = h.bookingHistory.length := by
    rw [hi.people_eq]
    simp
  have hlen2 : h.roomsnums.length = h.bookingHistory.length := by
    rw [hi.roomsnums_eq]
    simp
  refine ⟨hlen.trans hlen2.symm, hi.people_eq, hi.history_eq.trans hi.people_eq,
    hi.roomsnums_eq, hlen, ?_, occupiedRooms_nodup hi.catalog_eq hi.types_wf, ?_⟩
  · rw [hlen]
    have := hi.stack_perm.length_eq
    simp only [List.length_map] at this
    rw [this]
    simp [occupiedRooms, mapKeys]
  · intro i hlt
    have hlt2 : i < h.roomsnums.length := by omega
    exact ⟨h.roomsnums.get ⟨i, hlt2⟩, List.get?_eq_get hlt2⟩

theorem C27_chronological_indexes_agree_witness :
    afterAliceBob.people = ["Alice", "Bob"] ∧
    afterAliceBob.roomsnums = [236, 301] ∧
    afterAliceBob.guestHistory = ["Alice", "Bob"] ∧
    afterAliceBob.people.length = afterAliceBob.roomsnums.length :=
  ⟨by decide!, by decide!, by decide!,
    (C27_chronological_indexes_agree afterAliceBob reachable_afterAliceBob).1⟩

theorem mem_roomsOf_iff {g : String} {stack : List Action} {r : Int} :
    r ∈ roomsOf g stack ↔ (r, g) ∈ stack.map fun a => (a.roomNumber, a.guestName) := by
  unfold roomsOf
  simp only [List.mem_map, List.mem_filter, List.mem_reverse, decide_eq_true_eq,
    Prod.mk.injEq]
  constructor
  · rintro ⟨a, ⟨ha, hg⟩, hr⟩
    exact ⟨a, ha, hr, hg⟩
  · rintro ⟨a, ha, hr, hg⟩
    exact ⟨a, ⟨ha, hg⟩, hr⟩

/-- C28: in every reachable state and for every guest `g`, `guestToRooms` has
an entry for `g` exactly when `g` occupies at least one room; the entry is a
non-empty list without repeated room numbers; it contains a room `r` exactly
when the `guests` map of some room type sends `r` to `g`; and it lists the
rooms in booking order, oldest first. The keys of `guestToRooms` are distinct,
so the entry is the only one for `g`. -/
theorem C28_guest_index_matches_occupancy (h : Hotel) (hr : Reachable h) (g : String) :
    ((∃ vec, mapFind g h.guestToRooms = some vec) ↔
      ∃ r, ∃ p ∈ h.roomTypes, mapFind r p.2.guests = some g) ∧
    (∀ vec, mapFind g h.guestToRooms = some vec →
      vec ≠ [] ∧ vec.Nodup ∧
      (∀ r, r ∈ vec ↔ ∃ p ∈ h.roomTypes, mapFind r p.2.guests = some g) ∧
      vec = roomsOf g h.bookingHistory) ∧
    (mapKeys h.guestToRooms).Nodup := by
  have hi := hr.inv
  have hmem : ∀ r, r ∈ roomsOf g h.bookingHistory ↔
      ∃ p ∈ h.roomTypes, mapFind r p.2.guests = some g := by
    intro r
    rw [mem_roomsOf_iff, ← occupied_iff_guests hi.types_wf]
    exact ⟨fun hm => hi.stack_perm.subset hm, fun hm => hi.stack_perm.symm.subset hm⟩
  have hg := hi.guest_index g
  refine ⟨?_, ?_, hi.guest_sorted.nodup⟩
  · constructor
    · rintro ⟨vec, hv⟩
      rw [hv] at hg
      by_cases hnil : roomsOf g h.bookingHistory = []
      · rw [if_pos hnil] at hg
        exact absurd hg (by simp)
      · obtain ⟨r, hr⟩ := List.exists_mem_of_ne_nil _ hnil
        exact ⟨r, (hmem r).1 hr⟩
    · rintro ⟨r, hocc⟩
      have hr : r ∈ roomsOf g h.bookingHistory := (hmem r).2 hocc
      have hnil : roomsOf g h.bookingHistory ≠ [] := List.ne_nil_of_mem hr
      rw [if_neg hnil] at hg
      exact ⟨_, hg⟩
  · intro vec hv
    rw [hv] at hg
    by_cases hnil : roomsOf g h.bookingHistory = []
    · rw [if_pos hnil] at hg
      exact absurd hg (by simp)
    · rw [if_neg hnil] at hg
      have e : vec = roomsOf g h.bookingHistory := Option.some.inj hg
      subst e
      exact ⟨hnil, roomsOf_nodup hi g, hmem, rfl⟩

theorem C28_guest_index_matches_occupancy_witness :
    aliceTwoRooms.guestToRooms = [("Alice", [236, 301])] ∧
    occupied aliceTwoRooms.roomTypes = [(236, "Alice"), (301, "Alice")] ∧
    (∀ vec, mapFind "Alice" aliceTwoRooms.guestToRooms = some vec →
      vec ≠ [] ∧ vec.Nodup ∧
      (∀ r, r ∈ vec ↔ ∃ p ∈ aliceTwoRooms.roomTypes, mapFind r p.2.guests = some "Alice") ∧
      vec = roomsOf "Alice" aliceTwoRooms.bookingHistory) :=
  ⟨by decide!, by decide!,
    (C28_guest_index_matches_occupancy aliceTwoRooms
      (Reachable.reserve 2 "Alice" "07-01-2025" "07-01-2025" 12 1 reachable_afterAlice)
      "Alice").2.1⟩

/-! ## Loading discards the previous state (C23) -/

theorem resetStateForNewDate_roomTypes (h : Hotel) :
    (resetStateForNewDate h).roomTypes = (catalog h.roomTypes).map freshRoomType := by
  simp only [resetStateForNewDate, catalog, List.map_map]
  rfl

theorem resetStateForNewDate_congr {s1 s2 : Hotel} (hname : s1.name = s2.name)
    (htotal : s1.totalRooms = s2.totalRooms)
    (hcat : catalog s1.roomTypes = catalog s2.roomTypes) :
    resetStateForNewDate s1 = resetStateForNewDate s2 := by
  have hrt := resetStateForNewDate_roomTypes s1
  rw [hcat, ← resetStateForNewDate_roomTypes s2] at hrt
  show Hotel.mk _ _ _ _ _ _ _ _ _ _ _ _ = Hotel.mk _ _ _ _ _ _ _ _ _ _ _ _
  congr 1

theorem bookRoom_static {h h2 : Hotel} {g d : String} {room : Int}
    (hb : bookRoom h g d room = some h2) :
    h2.name = h.name ∧ h2.totalRooms = h.totalRooms := by
  unfold bookRoom at hb
  split at hb
  · exact absurd hb (by simp)
  · simp only [Option.some.injEq] at hb
    subst hb
    exact ⟨rfl, rfl⟩

theorem reserveRoom_static (h : Hotel) (option : Int)
    (guestName startDate endDate : String) (startTime durationDays : Int) :
    (reserveRoom h option guestName startDate endDate startTime durationDays).2.name =
        h.name ∧
      (reserveRoom h option guestName startDate endDate startTime durationDays).2.totalRooms =
        h.totalRooms := by
  by_cases hopt : option < 1 ∨ option > (h.roomTypes.length : Int)
  · rw [reserveRoom_invalid hopt]
    exact ⟨rfl, rfl⟩
  · obtain ⟨key, rt, hget⟩ := get?_isSome_of_valid hopt
    cases hfree : rt.availableRoomNumbers with
    | nil =>
      rw [reserveRoom_exhausted hopt hget hfree]
      exact ⟨rfl, rfl⟩
    | cons room rest =>
      unfold reserveRoom
      rw [if_neg hopt]
      simp only [hget, hfree]
      cases hb : bookRoom h guestName startDate room with
      | none => exact ⟨rfl, rfl⟩
      | some h1 =>
        show h1.name = h.name ∧ h1.totalRooms = h.totalRooms
        exact bookRoom_static hb

theorem undoLastBooking_static (h : Hotel) :
    (undoLastBooking h).2.name = h.name ∧ (undoLastBooking h).2.totalRooms = h.totalRooms := by
  unfold undoLastBooking
  split
  · exact ⟨rfl, rfl⟩
  · split
    · exact ⟨rfl, rfl⟩
    · exact ⟨rfl, rfl⟩

theorem restoreLines_static (date : String) (lines : List String) :
    ∀ h : Hotel, (lines.foldl (restoreLine date) h).name = h.name ∧
      (lines.foldl (restoreLine date) h).totalRooms = h.totalRooms := by
  induction lines with
  | nil => exact fun _ => ⟨rfl, rfl⟩
  | cons line t ih =>
    intro h
    rw [List.foldl_cons]
    have hstep : (restoreLine date h line).name = h.name ∧
        (restoreLine date h line).totalRooms = h.totalRooms := by
      unfold restoreLine
      split
      · unfold restoreRecord
        dsimp only
        split
        · exact ⟨rfl, rfl⟩
        · rename_i h2 hb
          have hst := bookRoom_static hb
          exact hst
      · exact ⟨rfl, rfl⟩
    exact ⟨(ih _).1.trans hstep.1, (ih _).2.trans hstep.2⟩

theorem loadFromFile_static (h : Hotel) (date : String) (file : Option String) :
    (loadFromFile h date file).name = h.name ∧
      (loadFromFile h date file).totalRooms = h.totalRooms := by
  unfold loadFromFile
  dsimp only
  split
  · exact ⟨rfl, rfl⟩
  · split
    · exact ⟨rfl, rfl⟩
    · exact restoreLines_static date _ _

/-- Every reachable state is a state of the hotel that was constructed: the name
is the one the constructor gave. -/
theorem Reachable.name_eq {h : Hotel} (hr : Reachable h) : h.name = "Hilton" := by
  induction hr with
  | init n => rfl
  | reserve option guestName startDate endDate startTime durationDays _ ih =>
    exact (reserveRoom_static _ option guestName startDate endDate startTime
      durationDays).1.trans ih
  | undo _ ih => exact (undoLastBooking_static _).1.trans ih
  | load date file _ ih => exact (loadFromFile_static _ date file).1.trans ih

theorem resetStateForNewDate_of_reachable {h : Hotel} (hr : Reachable h) :
    resetStateForNewDate h = HiltonHotel h.totalRooms := by
  rw [← resetStateForNewDate_HiltonHotel h.totalRooms]
  exact resetStateForNewDate_congr hr.name_eq rfl
    (hr.inv.catalog_eq.trans (catalog_HiltonHotel h.totalRooms).symm)

/-- C23: `loadFromFile` discards the previous state. For two states of the same
hotel (same name, same `totalRooms`, same room-type catalog) and the same file,
the resulting states are identical; any two reachable states with the same
`totalRooms` are such states. When the file is missing or empty the result is
the reset state: revenue 0, ledger, guest index, history, undo stack, tree and
the other indexes empty, and for each room type the free sequence equal to its
`allRoomNumbers`, `availableRooms` equal to `totalRooms` and no guest; from a
reachable state this is the state the constructor built. -/
theorem C23_load_discards_previous_state (s1 s2 : Hotel) (date : String)
    (file : Option String) (hname : s1.name = s2.name)
    (htotal : s1.totalRooms = s2.totalRooms)
    (hcat : catalog s1.roomTypes = catalog s2.roomTypes) :
    loadFromFile s1 date file = loadFromFile s2 date file ∧
    (∀ t1 t2, Reachable t1 → Reachable t2 → t1.totalRooms = t2.totalRooms →
      loadFromFile t1 date file = loadFromFile t2 date file) ∧
    loadFromFile s1 date none = resetStateForNewDate s1 ∧
    loadFromFile s1 date (some "") = resetStateForNewDate s1 ∧
    ((resetStateForNewDate s1).totalRevenue = 0 ∧
      (resetStateForNewDate s1).reservationsForDay = [] ∧
      (resetStateForNewDate s1).guestToRooms = [] ∧
      (resetStateForNewDate s1).guestHistory = [] ∧
      (resetStateForNewDate s1).bookingHistory = [] ∧
      (resetStateForNewDate s1).occupiedRoomsRoot = TreeNode.null ∧
      (resetStateForNewDate s1).people = [] ∧
      (resetStateForNewDate s1).roomsnums = [] ∧
      (resetStateForNewDate s1).reservations = [] ∧
      catalog (resetStateForNewDate s1).roomTypes = catalog s1.roomTypes ∧
      ∀ p ∈ (resetStateForNewDate s1).roomTypes,
        p.2.availableRoomNumbers = p.2.allRoomNumbers ∧
        p.2.availableRooms = p.2.totalRooms ∧ p.2.guests = []) ∧
    (Reachable s1 → loadFromFile s1 date none = HiltonHotel s1.totalRooms) := by
  have hload : ∀ t1 t2 : Hotel, resetStateForNewDate t1 = resetStateForNewDate t2 →
      loadFromFile t1 date file = loadFromFile t2 date file := by
    intro t1 t2 e
    unfold loadFromFile
    rw [e]
  refine ⟨hload s1 s2 (resetStateForNewDate_congr hname htotal hcat), ?_, rfl, rfl,
    ⟨rfl, rfl, rfl, rfl, rfl, rfl, rfl, rfl, rfl, ?_, ?_⟩, ?_⟩
  · intro t1 t2 h1 h2 ht
    exact hload t1 t2 (resetStateForNewDate_congr (h1.name_eq.trans h2.name_eq.symm) ht
      (h1.inv.catalog_eq.trans h2.inv.catalog_eq.symm))
  · simp only [resetStateForNewDate, catalog, List.map_map]
    rfl
  · intro p hp
    rw [resetStateForNewDate_roomTypes] at hp
    obtain ⟨a, _, rfl⟩ := List.mem_map.1 hp
    exact ⟨rfl, rfl, rfl⟩
  · intro hr
    exact resetStateForNewDate_of_reachable hr

theorem C23_load_discards_previous_state_witness :
    hilton ≠ afterAliceBob ∧
    loadFromFile hilton "07-01-2025" (some singleRecordFile) =
      loadFromFile afterAliceBob "07-01-2025" (some singleRecordFile) ∧
    loadFromFile afterAliceBob "07-02-2025" none = hilton :=
  ⟨by decide!,
    (C23_load_discards_previous_state hilton afterAliceBob "07-01-2025"
      (some singleRecordFile) (by decide!) (by decide!) (by decide!)).1,
    by decide!⟩

/-! ## The undo stack after a load (C22) -/

theorem takeWhile_digits_append (ip tail : List Char) (hip : ∀ c ∈ ip, c.isDigit = true)
    (ht : ∀ c, tail.head? = some c → c.isDigit = false) :
    (ip ++ tail).takeWhile Char.isDigit = ip ∧ (ip ++ tail).dropWhile Char.isDigit = tail := by
  induction ip with
  | nil =>
    cases tail with
    | nil => exact ⟨rfl, rfl⟩
    | cons c t =>
      have hc := ht c rfl
      simp [List.takeWhile, List.dropWhile, hc]
  | cons d t ih =>
    have hd := hip d (List.mem_cons_self _ _)
    obtain ⟨e1, e2⟩ := ih fun c hc => hip c (List.mem_cons_of_mem _ hc)
    simp [List.takeWhile, List.dropWhile, hd, e1, e2]

theorem readsNonFinite_of_head {c : Char} (rest : List Char) (h1 : c ≠ 'i') (h2 : c ≠ 'I')
    (h3 : c ≠ 'n') (h4 : c ≠ 'N') : readsNonFinite (c :: rest) = false := by
  rcases rest with _ | ⟨b, _ | ⟨d, t⟩⟩
  · rfl
  · rfl
  · simp [readsNonFinite, h1, h2, h3, h4]

theorem stodHex_of_head {c : Char} (rest : List Char) (h : c ≠ '0') :
    stodHex (c :: rest) = none := by
  unfold stodHex
  split
  · rename_i x r heq
    exact absurd (List.cons.inj heq).1 h
  · rfl

theorem stodHex_of_second {c x : Char} (rest : List Char) (h1 : x ≠ 'x') (h2 : x ≠ 'X') :
    stodHex (c :: x :: rest) = none := by
  unfold stodHex
  split
  · rename_i y r heq
    have hx : x = y := (List.cons.inj (List.cons.inj heq).2).1
    subst hx
    simp [h1, h2]
  · rfl

theorem stodDecimal_of_head {c : Char} (rest : List Char) (h4 : c.isDigit = false)
    (h5 : c ≠ '.') : stodDecimal (c :: rest) = none := by
  unfold stodDecimal
  have e3 : (c :: rest).takeWhile Char.isDigit = [] :=
    List.takeWhile_cons_of_neg (by simp [h4])
  have e4 : (c :: rest).dropWhile Char.isDigit = c :: rest :=
    List.dropWhile_cons_of_neg (by simp [h4])
  simp only [e3, e4]
  have hm : (match c :: rest with
      | '.' :: r => List.takeWhile Char.isDigit r
      | _ => []) = [] := by
    split
    · rename_i r heq
      exact absurd (List.cons.inj heq).1 h5
    · rfl
  rw [if_pos ⟨trivial, hm⟩]

/-- No number can be read from a text that starts with a character that is
neither white space, a sign, a digit, a point nor one of the letters `i` and
`n`. -/
theorem stodResult_of_head {c : Char} {rest : List Char} (h1 : isSpace c = false)
    (h2 : c ≠ '-') (h3 : c ≠ '+') (h4 : c.isDigit = false) (h5 : c ≠ '.')
    (h6 : c ≠ 'i') (h7 : c ≠ 'I') (h8 : c ≠ 'n') (h9 : c ≠ 'N') :
    stodResult (String.mk (c :: rest)) = .invalidArgument := by
  have h0 : c ≠ '0' := by rintro rfl; exact absurd h4 (by decide)
  unfold stodResult
  have e1 : (c :: rest).dropWhile isSpace = c :: rest :=
    List.dropWhile_cons_of_neg (by simp [h1])
  have e2 : takeSign (c :: rest) = (false, c :: rest) := by simp [takeSign, h2, h3]
  simp only [e1, e2, readsNonFinite_of_head rest h6 h7 h8 h9, stodHex_of_head rest h0,
    stodDecimal_of_head rest h4 h5]
  rfl

theorem stod_of_throws {s : String} (h : (stodResult s).throws = true) : stod s = none := by
  unfold stod
  cases hr : stodResult s with
  | invalidArgument => rfl
  | outOfRange => rfl
  | finite x =>
    rw [hr] at h
    simp [StodResult.throws] at h
  | nonFinite => rfl

theorem stodResult_of_stod {s : String} {x : ℚ} (h : stod s = some x) :
    stodResult s = .finite x := by
  unfold stod at h
  cases hr : stodResult s with
  | invalidArgument => rw [hr] at h; exact absurd h (by simp)
  | outOfRange => rw [hr] at h; exact absurd h (by simp)
  | finite y =>
    rw [hr] at h
    simp only [Option.some.injEq] at h
    rw [h]
  | nonFinite => rw [hr] at h; exact absurd h (by simp)

/-- The text of a decimal numeral is read as a decimal constant with the value
of the numeral, and then checked against the range of `double`. -/
theorem stodResult_decimalText (neg : Bool) (ip fp : List Char) (hne : ip ≠ [])
    (hip : ∀ c ∈ ip, c.isDigit = true) (hfp : ∀ c ∈ fp, c.isDigit = true) :
    stodResult (decimalText neg ip fp) = doubleRange (decimalValue neg ip fp) := by
  obtain ⟨d, ip', rfl⟩ := List.exists_cons_of_ne_nil hne
  have hd := hip d (List.mem_cons_self _ _)
  have hip' : ∀ c ∈ ip', c.isDigit = true := fun c hc => hip c (List.mem_cons_of_mem _ hc)
  have htail : ∀ c, (if fp = [] then [] else '.' :: fp).head? = some c → c.isDigit = false := by
    intro c hc
    by_cases hf : fp = []
    · simp [hf] at hc
    · simp [hf] at hc
      rw [← hc]
      decide
  obtain ⟨e1, e2⟩ := takeWhile_digits_append (d :: ip') _ hip htail
  have hsign : takeSign (((if neg then ['-'] else []) ++ d :: ip' ++
      (if fp = [] then [] else '.' :: fp)).dropWhile isSpace) =
      (neg, d :: ip' ++ (if fp = [] then [] else '.' :: fp)) := by
    cases neg with
    | true =>
      have hsp : isSpace '-' = false := by decide
      simp only [if_true, List.cons_append, List.nil_append]
      rw [List.dropWhile_cons_of_neg (by simp [hsp])]
      simp [takeSign]
    | false =>
      simp only [Bool.false_eq_true, if_false, List.nil_append, List.cons_append]
      rw [List.dropWhile_cons_of_neg (by simp [not_isSpace_of_isDigit hd])]
      exact takeSign_of_isDigit hd _
  have hnf : readsNonFinite (d :: ip' ++ (if fp = [] then [] else '.' :: fp)) = false :=
    readsNonFinite_of_head _ (by rintro rfl; exact absurd hd (by decide))
      (by rintro rfl; exact absurd hd (by decide)) (by rintro rfl; exact absurd hd (by decide))
      (by rintro rfl; exact absurd hd (by decide))
  have hhex : stodHex (d :: ip' ++ (if fp = [] then [] else '.' :: fp)) = none := by
    cases hrest : ip' ++ (if fp = [] then [] else '.' :: fp) with
    | nil =>
      rw [List.cons_append, hrest]
      unfold stodHex
      split
      · rename_i x r heq
        exact absurd (List.cons.inj heq).2 (by simp)
      · rfl
    | cons x r =>
      rw [List.cons_append, hrest]
      have hx : x.isDigit = true ∨ x = '.' := by
        cases ip' with
        | nil =>
          by_cases hf : fp = []
          · simp [hf] at hrest
          · simp [hf] at hrest
            exact Or.inr hrest.1.symm
        | cons y t =>
          simp at hrest
          exact Or.inl (hrest.1 ▸ hip' y (List.mem_cons_self _ _))
      apply stodHex_of_second
      · rintro rfl
        rcases hx with hx | hx
        · exact absurd hx (by decide)
        · exact absurd hx (by decide)
      · rintro rfl
        rcases hx with hx | hx
        · exact absurd hx (by decide)
        · exact absurd hx (by decide)
  have hdec : stodDecimal (d :: ip' ++ (if fp = [] then [] else '.' :: fp)) =
      some ((digitsVal (d :: ip' ++ fp) : ℚ) / (10 : ℚ) ^ fp.length) := by
    unfold stodDecimal
    simp only [e1, e2]
    by_cases hf : fp = []
    · subst hf
      simp [stodExponent]
    · have e3 : fp.takeWhile Char.isDigit = fp :=
        List.takeWhile_eq_self_iff.2 (by simpa using hfp)
      have e4 : fp.dropWhile Char.isDigit = [] :=
        List.dropWhile_eq_nil_iff.2 (by simpa using hfp)
      simp [hf, e3, e4, stodExponent]
  unfold stodResult decimalText decimalValue
  simp only [hsign, hnf, hhex, hdec]
  cases neg <;> simp

theorem doubleRange_of_overflow {v : ℚ} (h : overflowThreshold ≤ |v|) :
    doubleRange v = .outOfRange := by
  unfold doubleRange
  rw [if_pos h]

theorem cast_two_pow_pos (n : Nat) : (0 : ℚ) < ((2 ^ n : Nat) : ℚ) :=
  Nat.cast_pos.2 (Nat.pos_pow_of_pos n (by decide))

theorem minNormalDouble_mul : minNormalDouble * ((2 ^ 1076 : Nat) : ℚ) = ((2 ^ 54 : Nat) : ℚ) := by
  unfold minNormalDouble
  have h : ((2 ^ 1076 : Nat) : ℚ) = ((2 ^ 1022 : Nat) : ℚ) * ((2 ^ 54 : Nat) : ℚ) := by
    rw [← Nat.cast_mul, ← pow_add]
  have hpos : ((2 ^ 1022 : Nat) : ℚ) ≠ 0 := by
    exact ne_of_gt (cast_two_pow_pos 1022)
  rw [h, one_div, ← mul_assoc, inv_mul_cancel₀ hpos, one_mul]

theorem doubleRange_of_normal {v : ℚ} (h1 : v = 0 ∨ minNormalDouble ≤ |v|)
    (h2 : |v| < overflowThreshold) : doubleRange v = .finite v := by
  unfold doubleRange
  rw [if_neg (not_le.mpr h2)]
  rw [if_neg]
  rintro ⟨hv, hlt, _⟩
  rcases h1 with h1 | h1
  · exact hv h1
  · have hpos : (0 : ℚ) < ((2 ^ 1076 : Nat) : ℚ) := cast_two_pow_pos 1076
    have h3 := mul_le_mul_of_nonneg_right h1 (le_of_lt hpos)
    rw [minNormalDouble_mul] at h3
    have h4 : ((2 ^ 54 - 1 : Nat) : ℚ) < ((2 ^ 54 : Nat) : ℚ) := by
      exact_mod_cast (by norm_num : 2 ^ 54 - 1 < 2 ^ 54)
    exact absurd (lt_of_le_of_lt h3 hlt) (not_lt.mpr (le_of_lt h4))

theorem parseRevenue_labelled (v : String) :
    parseRevenue ("TOTAL_REVENUE=" ++ v) = (stod v).getD 0 := by
  unfold parseRevenue
  have hp : ("TOTAL_REVENUE=".data.isPrefixOf ("TOTAL_REVENUE=" ++ v).data) = true := by
    rw [String.data_append]
    exact List.isPrefixOf_iff_prefix.2 (List.prefix_append _ _)
  rw [if_pos hp]
  have hd : ("TOTAL_REVENUE=" ++ v).data.drop "TOTAL_REVENUE=".length = v.data := by
    rw [String.data_append]
    exact List.drop_left _ _
  rw [hd]

theorem parseRevenue_dollar (v : String) :
    parseRevenue ("$" ++ v) = (stod v).getD 0 := by
  unfold parseRevenue
  have hd : ("$" ++ v).data = '$' :: v.data := by
    rw [String.data_append]
    rfl
  rw [hd]
  have hp : ("TOTAL_REVENUE=".data.isPrefixOf ('$' :: v.data)) = false := by
    show (('T' :: "OTAL_REVENUE=".data).isPrefixOf ('$' :: v.data)) = false
    simp [List.isPrefixOf]
  rw [hp]
  simp

theorem parseRevenue_bare {v : String} {x : ℚ} (h : stod v = some x) :
    parseRevenue v = x := by
  unfold parseRevenue
  have hfin := stodResult_of_stod h
  have h1 : ("TOTAL_REVENUE=".data.isPrefixOf v.data) = false := by
    cases hv : v.data with
    | nil => rfl
    | cons c rest =>
      by_cases hc : c = 'T'
      · subst hc
        have hn : stodResult v = .invalidArgument := by
          have : v = String.mk ('T' :: rest) := by rw [← hv]
          rw [this]
          exact stodResult_of_head (by decide) (by decide) (by decide) (by decide)
            (by decide) (by decide) (by decide) (by decide) (by decide)
        rw [hn] at hfin
        exact absurd hfin (by simp)
      · show (('T' :: "OTAL_REVENUE=".data).isPrefixOf (c :: rest)) = false
        simp [List.isPrefixOf, Ne.symm hc]
  have h2 : ¬ v.data.head? = some '$' := by
    intro hh
    cases hv : v.data with
    | nil => rw [hv] at hh; simp at hh
    | cons c rest =>
      rw [hv] at hh
      simp only [List.head?_cons, Option.some.injEq] at hh
      subst hh
      have hn : stodResult v = .invalidArgument := by
        have : v = String.mk ('$' :: rest) := by rw [← hv]
        rw [this]
        exact stodResult_of_head (by decide) (by decide) (by decide) (by decide)
          (by decide) (by decide) (by decide) (by decide) (by decide)
      rw [hn] at hfin
      exact absurd hfin (by simp)
  rw [h1, if_neg h2, h]
  simp

theorem parseRevenue_of_throws {line : String} (h0 : (stodResult line).throws = true)
    (h1 : ∀ v, line = "$" ++ v → (stodResult v).throws = true)
    (h2 : ∀ v, line = "TOTAL_REVENUE=" ++ v → (stodResult v).throws = true) :
    parseRevenue line = 0 := by
  unfold parseRevenue
  split
  · rename_i hp
    obtain ⟨t, ht⟩ := List.isPrefixOf_iff_prefix.1 hp
    have hline : line = "TOTAL_REVENUE=" ++ String.mk t := by
      apply String.ext
      rw [String.data_append, ← ht]
    have hd : line.data.drop "TOTAL_REVENUE=".length = t := by
      rw [← ht]
      exact List.drop_left _ _
    rw [hd, stod_of_throws (h2 _ hline)]
    rfl
  · split
    · rename_i hh
      cases hv : line.data with
      | nil => rw [hv] at hh; simp at hh
      | cons c rest =>
        rw [hv] at hh
        simp only [List.head?_cons, Option.some.injEq] at hh
        subst hh
        have hline : line = "$" ++ String.mk rest := by
          apply String.ext
          rw [String.data_append, hv]
          rfl
        simp only [List.drop_succ_cons, List.drop_zero]
        rw [stod_of_throws (h1 _ hline)]
        rfl
    · rw [stod_of_throws h0]
      rfl

theorem restoreLines_revenue (date : String) (lines : List String) :
    ∀ h : Hotel, (lines.foldl (restoreLine date) h).totalRevenue = h.totalRevenue := by
  induction lines with
  | nil => exact fun _ => rfl
  | cons line t ih =>
    intro h
    rw [List.foldl_cons, ih]
    unfold restoreLine
    split
    · exact (restoreRecord_ledger h _).2
    · rfl

theorem loadFromFile_revenue (h : Hotel) (date content first : String) (rest : List String)
    (hl : fileLines content = first :: rest) :
    (loadFromFile h date (some content)).totalRevenue = parseRevenue first := by
  rw [loadFromFile_lines h date content first rest hl, restoreLines_revenue]

/-- A decimal numeral below the normal range of `double`: `0.00...01` with 400
zeros has the value `10 ^ (-401)`; `strtod` reports `ERANGE` for it, `std::stod`
throws `std::out_of_range`, and `loadFromFile` sets `totalRevenue` to 0. -/
theorem tiny_numeral_out_of_range :
    (∀ c ∈ tinyFraction, c.isDigit = true) ∧
    decimalValue false ['0'] tinyFraction = 1 / 10 ^ 401 ∧
    stodResult (decimalText false ['0'] tinyFraction) = StodResult.outOfRange ∧
    (loadFromFile hilton "07-01-2025"
      (some ("TOTAL_REVENUE=" ++ decimalText false ['0'] tinyFraction ++
        "\nAlice,236"))).totalRevenue = 0 := by
  refine ⟨by decide!, by decide!, by decide!, by decide!⟩

/-- Counterexample to C21 as stated: the decimal numeral made of a 1 followed
by 400 zeros has the value `10 ^ 400`, which is beyond the range of `double`;
`std::stod` throws `std::out_of_range` on it, and `loadFromFile` on a file whose
first line gives this numeral in any of the three encodings sets `totalRevenue`
to 0, not to the value of the numeral. -/
theorem C21_counterexample :
    (∀ c ∈ hugeDigits, c.isDigit = true) ∧
    decimalValue false hugeDigits [] = 10 ^ 400 ∧
    stodResult (decimalText false hugeDigits []) = StodResult.outOfRange ∧
    (loadFromFile hilton "07-01-2025"
      (some ("TOTAL_REVENUE=" ++ decimalText false hugeDigits [] ++
        "\nAlice,236"))).totalRevenue = 0 ∧
    (loadFromFile hilton "07-01-2025"
      (some ("$" ++ decimalText false hugeDigits [] ++ "\nAlice,236"))).totalRevenue = 0 ∧
    (loadFromFile hilton "07-01-2025"
      (some (decimalText false hugeDigits [] ++ "\nAlice,236"))).totalRevenue = 0 := by
  refine ⟨by decide!, by decide!, by decide!, by decide!, by decide!, by decide!⟩

/-- C21 (amended): for a file whose first line is `first`, whatever lines
follow. When `first` is `TOTAL_REVENUE=` followed by `v`, or `$` followed by
`v`, or `v` alone, and `std::stod` returns the finite number `x` on `v`,
`loadFromFile` sets `totalRevenue` to `x`. Every decimal numeral (optional minus
sign, digits, optional point and digits) whose value is zero or of a magnitude
in the normal range of `double`, from `2 ^ (-1022)` to below
`2 ^ 1024 - 2 ^ 970`, is such a `v`, read with its value; on a numeral of a
magnitude from `2 ^ 1024 - 2 ^ 970` on, `std::stod` throws `std::out_of_range`.
When `std::stod` throws on `first` in each of the three encodings, `totalRevenue`
is set to 0. -/
theorem C21_revenue_line_encodings (h : Hotel) (date content first : String)
    (rest : List String) (hl : fileLines content = first :: rest) :
    (∀ v x, stod v = some x →
      (first = "TOTAL_REVENUE=" ++ v ∨ first = "$" ++ v ∨ first = v) →
      (loadFromFile h date (some content)).totalRevenue = x) ∧
    (∀ neg ip fp, ip ≠ [] → (∀ c ∈ ip, c.isDigit = true) → (∀ c ∈ fp, c.isDigit = true) →
      (decimalValue neg ip fp = 0 ∨ minNormalDouble ≤ |decimalValue neg ip fp|) →
      |decimalValue neg ip fp| < overflowThreshold →
      stod (decimalText neg ip fp) = some (decimalValue neg ip fp)) ∧
    (∀ neg ip fp, ip ≠ [] → (∀ c ∈ ip, c.isDigit = true) → (∀ c ∈ fp, c.isDigit = true) →
      overflowThreshold ≤ |decimalValue neg ip fp| →
      stodResult (decimalText neg ip fp) = StodResult.outOfRange) ∧
    ((stodResult first).throws = true →
      (∀ v, first = "$" ++ v → (stodResult v).throws = true) →
      (∀ v, first = "TOTAL_REVENUE=" ++ v → (stodResult v).throws = true) →
      (loadFromFile h date (some content)).totalRevenue = 0) := by
  have hrev := loadFromFile_revenue h date content first rest hl
  refine ⟨?_, ?_, ?_, ?_⟩
  · intro v x hv hfirst
    rw [hrev]
    rcases hfirst with e | e | e
    · rw [e, parseRevenue_labelled, hv]
      rfl
    · rw [e, parseRevenue_dollar, hv]
      rfl
    · rw [e]
      exact parseRevenue_bare hv
  · intro neg ip fp hne hip hfp h1 h2
    unfold stod
    rw [stodResult_decimalText neg ip fp hne hip hfp, doubleRange_of_normal h1 h2]
  · intro neg ip fp hne hip hfp h1
    rw [stodResult_decimalText neg ip fp hne hip hfp, doubleRange_of_overflow h1]
  · intro h0 h1 h2
    rw [hrev]
    exact parseRevenue_of_throws h0 h1 h2

theorem abc_not_encoded (v : String) : "abc" ≠ "$" ++ v ∧ "abc" ≠ "TOTAL_REVENUE=" ++ v := by
  constructor
  · intro e
    have h := congrArg (fun s => s.data.head?) e
    have h2 : ("$" ++ v).data.head? = some '$' := by
      rw [String.data_append]
      rfl
    simp only [h2] at h
    exact absurd h (by decide)
  · intro e
    have h := congrArg (fun s => s.data.head?) e
    have h2 : ("TOTAL_REVENUE=" ++ v).data.head? = some 'T' := by
      rw [String.data_append]
      rfl
    simp only [h2] at h
    exact absurd h (by decide)

theorem C21_revenue_line_encodings_witness :
    stod "700.5" = some (1401 / 2) ∧
    decimalText false ['7', '0', '0'] ['5'] = "700.5" ∧
    decimalValue false ['7', '0', '0'] ['5'] = 1401 / 2 ∧
    stod (decimalText false ['7', '0', '0'] ['5']) =
      some (decimalValue false ['7', '0', '0'] ['5']) ∧
    (loadFromFile hilton "07-01-2025"
      (some "TOTAL_REVENUE=700.5\nAlice,236,Deluxe Suite,07-01-2025,2,15,350,700")).totalRevenue =
        1401 / 2 ∧
    (loadFromFile afterAliceBob "07-01-2025" (some "$700.5\nAlice,236")).totalRevenue =
      1401 / 2 ∧
    (loadFromFile hilton "07-01-2025" (some "700.5")).totalRevenue = 1401 / 2 ∧
    (loadFromFile afterAliceBob "07-01-2025" (some "abc\nAlice,236")).totalRevenue = 0 :=
  have hv : stod "700.5" = some (1401 / 2) := by decide!
  ⟨hv, by decide!, by decide!,
    (C21_revenue_line_encodings hilton "07-01-2025" "700.5" "700.5" [] (by decide!)).2.1
      false ['7', '0', '0'] ['5'] (by decide) (by decide) (by decide)
      (Or.inr (by decide!)) (by decide!),
    (C21_revenue_line_encodings hilton "07-01-2025"
      "TOTAL_REVENUE=700.5\nAlice,236,Deluxe Suite,07-01-2025,2,15,350,700"
      "TOTAL_REVENUE=700.5" ["Alice,236,Deluxe Suite,07-01-2025,2,15,350,700"]
      (by decide!)).1 "700.5" _ hv (Or.inl (by decide)),
    (C21_revenue_line_encodings afterAliceBob "07-01-2025" "$700.5\nAlice,236"
      "$700.5" ["Alice,236"] (by decide!)).1 "700.5" _ hv (Or.inr (Or.inl (by decide))),
    (C21_revenue_line_encodings hilton "07-01-2025" "700.5"
      "700.5" [] (by decide!)).1 "700.5" _ hv (Or.inr (Or.inr rfl)),
    (C21_revenue_line_encodings afterAliceBob "07-01-2025" "abc\nAlice,236"
      "abc" ["Alice,236"] (by decide!)).2.2.2 (by decide!)
      (fun v e => absurd e (abc_not_encoded v).1)
      (fun v e => absurd e (abc_not_encoded v).2)⟩

/-! ## What `saveToFile` writes (C24) -/

theorem recordText_eq_intercalate (r : Reservation) :
    recordText r =
      String.intercalate ","
        [r.guestName, showInt r.roomNumber, r.roomType, r.stayDate, showInt r.nights,
          showInt r.checkInHour, showDouble r.pricePerNight, showDouble r.totalCost] := rfl

end HotelSys
